import Mathlib

/-!
SM4, SM4-GCM and SM3: a shallow embedding of `project1` and `project4`.

Machine words are natural numbers; a left shift that can leave the word is
reduced modulo `2^32` (or `2^64`).  Byte buffers and word arrays are lists of
natural numbers, read with `List.getD` and written with `List.set`.

* `P1A`   : `project1/project1-a.cpp` (four T-tables, CBC driver)
* `Basic` : `project1/project1-b-基础版本.cpp` (direct round function, GCM)
* `Opt`   : `project1/project1-b.cpp` (single T-table, GCM)
* `SM3`      : `peoject4/project4-a.cpp` and `project4/project4-b.cpp` (optimized SM3, the
  second with the length-extension demonstration)
* `SM3Basic` : `project4/project4-a-基础版本.cpp` (basic SM3)

The constant tables `Sbox`, `MK`, `FK`, `CK` are textually the same in the three
files and are declared once.
-/

/-- The SM4 byte substitution table `Sbox[256]`. -/
def Sbox : List Nat := [
  0xd6,0x90,0xe9,0xfe,0xcc,0xe1,0x3d,0xb7,0x16,0xb6,0x14,0xc2,0x28,0xfb,0x2c,0x05,
  0x2b,0x67,0x9a,0x76,0x2a,0xbe,0x04,0xc3,0xaa,0x44,0x13,0x26,0x49,0x86,0x06,0x99,
  0x9c,0x42,0x50,0xf4,0x91,0xef,0x98,0x7a,0x33,0x54,0x0b,0x43,0xed,0xcf,0xac,0x62,
  0xe4,0xb3,0x1c,0xa9,0xc9,0x08,0xe8,0x95,0x80,0xdf,0x94,0xfa,0x75,0x8f,0x3f,0xa6,
  0x47,0x07,0xa7,0xfc,0xf3,0x73,0x17,0xba,0x83,0x59,0x3c,0x19,0xe6,0x85,0x4f,0xa8,
  0x68,0x6b,0x81,0xb2,0x71,0x64,0xda,0x8b,0xf8,0xeb,0x0f,0x4b,0x70,0x56,0x9d,0x35,
  0x1e,0x24,0x0e,0x5e,0x63,0x58,0xd1,0xa2,0x25,0x22,0x7c,0x3b,0x01,0x21,0x78,0x87,
  0xd4,0x00,0x46,0x57,0x9f,0xd3,0x27,0x52,0x4c,0x36,0x02,0xe7,0xa0,0xc4,0xc8,0x9e,
  0xea,0xbf,0x8a,0xd2,0x40,0xc7,0x38,0xb5,0xa3,0xf7,0xf2,0xce,0xf9,0x61,0x15,0xa1,
  0xe0,0xae,0x5d,0xa4,0x9b,0x34,0x1a,0x55,0xad,0x93,0x32,0x30,0xf5,0x8c,0xb1,0xe3,
  0x1d,0xf6,0xe2,0x2e,0x82,0x66,0xca,0x60,0xc0,0x29,0x23,0xab,0x0d,0x53,0x4e,0x6f,
  0xd5,0xdb,0x37,0x45,0xde,0xfd,0x8e,0x2f,0x03,0xff,0x6a,0x72,0x6d,0x6c,0x5b,0x51,
  0x8d,0x1b,0xaf,0x92,0xbb,0xdd,0xbc,0x7f,0x11,0xd9,0x5c,0x41,0x1f,0x10,0x5a,0xd8,
  0x0a,0xc1,0x31,0x88,0xa5,0xcd,0x7b,0xbd,0x2d,0x74,0xd0,0x12,0xb8,0xe5,0xb4,0xb0,
  0x89,0x69,0x97,0x4a,0x0c,0x96,0x77,0x7e,0x65,0xb9,0xf1,0x09,0xc5,0x6e,0xc6,0x84,
  0x18,0xf0,0x7d,0xec,0x3a,0xdc,0x4d,0x20,0x79,0xee,0x5f,0x3e,0xd7,0xcb,0x39,0x48]

/-- The fixed 128-bit master key `MK[16]` of the programs. -/
def MK : List Nat := [
  0x01,0x23,0x45,0x67, 0x89,0xab,0xcd,0xef,
  0xfe,0xdc,0xba,0x98, 0x76,0x54,0x32,0x10]

/-- The system parameter `FK[4]` of the key schedule. -/
def FK : List Nat := [0xa3b1bac6, 0x56aa3350, 0x677d9197, 0xb27022dc]

/-- The round constants `CK[32]` of the key schedule. -/
def CK : List Nat := [
  0x00070e15,0x1c232a31,0x383f464d,0x545b6269,
  0x70777e85,0x8c939aa1,0xa8afb6bd,0xc4cbd2d9,
  0xe0e7eef5,0xfc030a11,0x181f262d,0x343b4249,
  0x50575e65,0x6c737a81,0x888f969d,0xa4abb2b9,
  0xc0c7ced5,0xdce3eaf1,0xf8ff060d,0x141b2229,
  0x30373e45,0x4c535a61,0x686f767d,0x848b9299,
  0xa0a7aeb5,0xbcc3cad1,0xd8dfe6ed,0xf4fb0209,
  0x10171e25,0x2c333a41,0x484f565d,0x646b7279]

/-- Big-endian load of the `i`-th 32-bit word of a byte buffer:
`(in[4i] << 24) | (in[4i+1] << 16) | (in[4i+2] << 8) | in[4i+3]`. -/
def loadWord (buf : List Nat) (i : Nat) : Nat :=
  (buf.getD (4 * i) 0 <<< 24) ||| (buf.getD (4 * i + 1) 0 <<< 16) |||
    (buf.getD (4 * i + 2) 0 <<< 8) ||| buf.getD (4 * i + 3) 0

/-- Big-endian store of a 32-bit word as four bytes:
`(x >> 24) & 0xFF, (x >> 16) & 0xFF, (x >> 8) & 0xFF, x & 0xFF`. -/
def storeWord (x : Nat) : List Nat :=
  [(x >>> 24) &&& 0xFF, (x >>> 16) &&& 0xFF, (x >>> 8) &&& 0xFF, x &&& 0xFF]

/-- The 128-bit structure `u128` of the GCM code: two 64-bit halves. -/
structure u128 where
  high : Nat
  low : Nat
deriving DecidableEq

namespace P1A

/-- Rotation `(x << n) | (x >> (32 - n))` on `uint32_t`. -/
def rotate_left (x n : Nat) : Nat :=
  ((x <<< n) % 2 ^ 32) ||| (x >>> (32 - n))

/-- Linear transform `L`. -/
def linear_transform (x : Nat) : Nat :=
  x ^^^ rotate_left x 2 ^^^ rotate_left x 10 ^^^ rotate_left x 18 ^^^ rotate_left x 24

/-- The four tables `T_table[4][256]` as left by `init_T_table`:
`T_table[k][i] = linear_transform(Sbox[i] << (24 - 8k))`. -/
def init_T_table : List (List Nat) :=
  [ (List.range 256).map (fun i => linear_transform (Sbox.getD i 0 <<< 24)),
    (List.range 256).map (fun i => linear_transform (Sbox.getD i 0 <<< 16)),
    (List.range 256).map (fun i => linear_transform (Sbox.getD i 0 <<< 8)),
    (List.range 256).map (fun i => linear_transform (Sbox.getD i 0)) ]

/-- Nonlinear transform `tau`: the S-box on each of the four bytes. -/
def tau (x : Nat) : Nat :=
  (Sbox.getD ((x >>> 24) &&& 0xFF) 0 <<< 24) |||
    (Sbox.getD ((x >>> 16) &&& 0xFF) 0 <<< 16) |||
    (Sbox.getD ((x >>> 8) &&& 0xFF) 0 <<< 8) |||
    Sbox.getD (x &&& 0xFF) 0

/-- One table-driven round of `sm4_encrypt` on the array `state[36]`. -/
def sm4_round (T_table : List (List Nat)) (rk : List Nat) (state : List Nat) (round : Nat) :
    List Nat :=
  let tmp := state.getD (round + 1) 0 ^^^ state.getD (round + 2) 0 ^^^
    state.getD (round + 3) 0 ^^^ rk.getD round 0
  state.set (round + 4)
    (state.getD round 0 ^^^
      (T_table.getD 0 []).getD ((tmp >>> 24) &&& 0xFF) 0 ^^^
      (T_table.getD 1 []).getD ((tmp >>> 16) &&& 0xFF) 0 ^^^
      (T_table.getD 2 []).getD ((tmp >>> 8) &&& 0xFF) 0 ^^^
      (T_table.getD 3 []).getD (tmp &&& 0xFF) 0)

/-- Block encryption `sm4_encrypt(in, out, rk)` with the four tables; the global
`T_table` is the explicit first argument and the result is `out`. -/
def sm4_encrypt (T_table : List (List Nat)) (inp rk : List Nat) : List Nat :=
  let state0 := (List.range 4).map (loadWord inp) ++ List.replicate 32 0
  let state := (List.range 32).foldl (sm4_round T_table rk) state0
  storeWord (state.getD 35 0) ++ storeWord (state.getD 34 0) ++
    storeWord (state.getD 33 0) ++ storeWord (state.getD 32 0)

end P1A

namespace Basic

/-- Rotation `(x << n) | (x >> (32 - n))` on `uint32_t`. -/
def move (x n : Nat) : Nat :=
  ((x <<< n) % 2 ^ 32) ||| (x >>> (32 - n))

/-- Linear transform of the round function. -/
def map (n : Nat) : Nat :=
  n ^^^ move n 2 ^^^ move n 10 ^^^ move n 18 ^^^ move n 24

/-- Nonlinear transform: the S-box on each of the four bytes. -/
def noliner (a : Nat) : Nat :=
  let a0 := (a >>> 24) &&& 0xFF
  let a1 := (a >>> 16) &&& 0xFF
  let a2 := (a >>> 8) &&& 0xFF
  let a3 := a &&& 0xFF
  (Sbox.getD a0 0 <<< 24) ||| (Sbox.getD a1 0 <<< 16) ||| (Sbox.getD a2 0 <<< 8) |||
    Sbox.getD a3 0

/-- One round of the key schedule on the array `K[36]`; the new round key is
stored at `K[i + 4]`. -/
def expand_round (K : List Nat) (i : Nat) : List Nat :=
  let tmp := K.getD (i + 1) 0 ^^^ K.getD (i + 2) 0 ^^^ K.getD (i + 3) 0 ^^^ CK.getD i 0
  let buf := noliner tmp
  let buf := buf ^^^ move buf 13 ^^^ move buf 23
  K.set (i + 4) (K.getD i 0 ^^^ buf)

/-- Key schedule `expand(key, rk)`: the result is `rk[0..31]`, that is `K[4..35]`. -/
def expand (key : List Nat) : List Nat :=
  let K0 := (List.range 4).map (fun i => loadWord key i ^^^ FK.getD i 0) ++ List.replicate 32 0
  let K := (List.range 32).foldl expand_round K0
  K.drop 4

/-- One round of `encrypt` on the array `X[36]`. -/
def encrypt_round (rk : List Nat) (X : List Nat) (i : Nat) : List Nat :=
  let tmp := X.getD (i + 1) 0 ^^^ X.getD (i + 2) 0 ^^^ X.getD (i + 3) 0 ^^^ rk.getD i 0
  let buf := noliner tmp
  let buf := map buf
  X.set (i + 4) (X.getD i 0 ^^^ buf)

/-- Block encryption `encrypt(in, out, rk)`; the result is `out`. -/
def encrypt (inp rk : List Nat) : List Nat :=
  let X0 := (List.range 4).map (loadWord inp) ++ List.replicate 32 0
  let X := (List.range 32).foldl (encrypt_round rk) X0
  storeWord (X.getD 35 0) ++ storeWord (X.getD 34 0) ++
    storeWord (X.getD 33 0) ++ storeWord (X.getD 32 0)

end Basic

namespace Opt

/-- Rotation `(x << n) | (x >> (32 - n))` on `uint32_t`. -/
def move (x n : Nat) : Nat :=
  ((x <<< n) % 2 ^ 32) ||| (x >>> (32 - n))

/-- Linear transform of the round function. -/
def map (n : Nat) : Nat :=
  n ^^^ move n 2 ^^^ move n 10 ^^^ move n 18 ^^^ move n 24

/-- The single table `T[256]` as left by `init_T`:
`T[i] = map((b << 24) | (b << 16) | (b << 8) | b)` with `b = Sbox[i]`. -/
def init_T : List Nat :=
  (List.range 256).map (fun i =>
    let b := Sbox.getD i 0
    map ((b <<< 24) ||| (b <<< 16) ||| (b <<< 8) ||| b))

/-- One round of the unrolled loop of `encrypt` on the registers `r0..r3`. -/
def encrypt_step (T : List Nat) (r : Nat × Nat × Nat × Nat) (rki : Nat) :
    Nat × Nat × Nat × Nat :=
  let (r0, r1, r2, r3) := r
  let tmp := r1 ^^^ r2 ^^^ r3 ^^^ rki
  let next := r0 ^^^ T.getD ((tmp >>> 24) &&& 0xFF) 0 ^^^ T.getD ((tmp >>> 16) &&& 0xFF) 0 ^^^
    T.getD ((tmp >>> 8) &&& 0xFF) 0 ^^^ T.getD (tmp &&& 0xFF) 0
  (r1, r2, r3, next)

/-- Block encryption `encrypt(in, out, rk)` with the single table; the global `T`
is the explicit first argument and the result is `out`. -/
def encrypt (T : List Nat) (inp rk : List Nat) : List Nat :=
  let r : Nat × Nat × Nat × Nat := (loadWord inp 0, loadWord inp 1, loadWord inp 2, loadWord inp 3)
  let r := (List.range 8).foldl (fun r j =>
    let i := 4 * j
    let r := encrypt_step T r (rk.getD i 0)
    let r := encrypt_step T r (rk.getD (i + 1) 0)
    let r := encrypt_step T r (rk.getD (i + 2) 0)
    encrypt_step T r (rk.getD (i + 3) 0)) r
  let (r0, r1, r2, r3) := r
  storeWord r3 ++ storeWord r2 ++ storeWord r1 ++ storeWord r0

end Opt

/-- Big-endian read of eight bytes starting at `off`, as in
`for (j = 0; j < 8; j++) x = (x << 8) | block[off + j]` on a `uint64_t` starting at 0. -/
def load64 (block : List Nat) (off : Nat) : Nat :=
  (List.range 8).foldl (fun x j => ((x <<< 8) % 2 ^ 64) ||| block.getD (off + j) 0) 0

/-- The eight bytes `(x >> (56 - 8i)) & 0xFF`, `i = 0..7`, of a 64-bit value. -/
def store64 (x : Nat) : List Nat :=
  (List.range 8).map (fun i => (x >>> (56 - 8 * i)) &&& 0xFF)

/-- The counter-mode loop shared by both GCM routines,
`for (i = 0; i < n; i += 16) { encrypt(counter, keystream, rk); ct[i + j] = pt[i + j] ^
keystream[j] for j < min(16, n - i); count32(counter); }`:
`nblocks` is the number of iterations left, `pt` the part of the plaintext not yet consumed, and
the result the ciphertext bytes written from the current offset on. -/
def ctrBlocks (enc inc : List Nat → List Nat) : Nat → List Nat → List Nat → List Nat
  | 0, _, _ => []
  | nblocks + 1, counter, pt =>
    List.zipWith (fun p k => p ^^^ k) (pt.take 16) (enc counter) ++
      ctrBlocks enc inc nblocks (inc counter) (pt.drop 16)

/-- Zero padding of the authenticated data to a multiple of 16 bytes followed by the length
block: eight zero bytes and the 64-bit big-endian bit length `len * 8`. -/
def authData (data : List Nat) : List Nat :=
  let auth_data := data
  let auth_data :=
    if auth_data.length % 16 ≠ 0 then
      auth_data ++ List.replicate (16 - auth_data.length % 16) 0
    else auth_data
  let bits := (data.length * 8) % 2 ^ 64
  auth_data ++ List.replicate 8 0 ++ store64 bits

/-- The final loop of both GCM routines:
`res[i] = E[i] ^ ((S.high >> (56 - 8i)) & 0xFF)` for `i < 8` and
`res[i] = E[i] ^ ((S.low >> (120 - 8i)) & 0xFF)` for `8 ≤ i < 16`. -/
def tagBytes (E : List Nat) (S : u128) : List Nat :=
  (List.range 16).map (fun i =>
    if i < 8 then E.getD i 0 ^^^ ((S.high >>> (56 - 8 * i)) &&& 0xFF)
    else E.getD i 0 ^^^ ((S.low >>> (120 - 8 * i)) &&& 0xFF))

namespace P1A

/-- Key schedule `key_expansion(key, rk)`: the result is `rk[0..31]`, that is `K[4..35]`. -/
def key_expansion (key : List Nat) : List Nat :=
  let K0 := (List.range 4).map (fun i => loadWord key i ^^^ FK.getD i 0) ++ List.replicate 32 0
  let K := (List.range 32).foldl (fun K i =>
    let tmp := K.getD (i + 1) 0 ^^^ K.getD (i + 2) 0 ^^^ K.getD (i + 3) 0 ^^^ CK.getD i 0
    let B := tau tmp
    K.set (i + 4) (K.getD i 0 ^^^ B ^^^ rotate_left B 13 ^^^ rotate_left B 23)) K0
  K.drop 4

end P1A

namespace Basic

/-- One step of the loop of `GF128_mul` on the pair `(Z, V)`. -/
def GF128_step (Y : u128) (s : u128 × u128) (i : Nat) : u128 × u128 :=
  let Z := s.1
  let V := s.2
  let Z : u128 :=
    if i < 64 then
      (if (Y.high >>> (63 - i)) &&& 1 ≠ 0 then ⟨Z.high ^^^ V.high, Z.low ^^^ V.low⟩ else Z)
    else
      (if (Y.low >>> (127 - i)) &&& 1 ≠ 0 then ⟨Z.high ^^^ V.high, Z.low ^^^ V.low⟩ else Z)
  let lsb : Bool := V.low &&& 1 ≠ 0
  let V : u128 := ⟨V.high >>> 1, (V.low >>> 1) ||| ((V.high <<< 63) % 2 ^ 64)⟩
  let V : u128 := if lsb then ⟨V.high ^^^ 0xE100000000000000, V.low⟩ else V
  (Z, V)

/-- Multiplication `GF128_mul(X, Y)` in GF(2^128). -/
def GF128_mul (X Y : u128) : u128 :=
  ((List.range 128).foldl (GF128_step Y) (⟨0, 0⟩, X)).1

/-- The hash `GHASH(H, data)`. -/
def GHASH (H : u128) (data : List Nat) : u128 :=
  let num_blocks := data.length / 16
  let Y := (List.range num_blocks).foldl (fun (Y : u128) i =>
    let block := data.drop (i * 16)
    let X : u128 := ⟨load64 block 0, load64 block 8⟩
    GF128_mul ⟨Y.high ^^^ X.high, Y.low ^^^ X.low⟩ H) ⟨0, 0⟩
  let remaining := data.length % 16
  if remaining > 0 then
    let block := data.drop (num_blocks * 16)
    let X := (List.range remaining).foldl (fun (X : u128) j =>
      if j < 8 then ⟨((X.high <<< 8) % 2 ^ 64) ||| block.getD j 0, X.low⟩
      else ⟨X.high, ((X.low <<< 8) % 2 ^ 64) ||| block.getD j 0⟩) ⟨0, 0⟩
    let X : u128 :=
      if remaining < 16 then
        (if remaining ≤ 8 then ⟨(X.high <<< (8 * (8 - remaining))) % 2 ^ 64, X.low⟩
         else ⟨X.high, (X.low <<< (8 * (16 - remaining))) % 2 ^ 64⟩)
      else X
    GF128_mul ⟨Y.high ^^^ X.high, Y.low ^^^ X.low⟩ H
  else Y

/-- The loop of `count32`: `n` iterations are left and `i` is the current index;
`counter[i]++` on a `uint8_t`, stop as soon as the byte is not zero. -/
def count32_loop (counter : List Nat) : Nat → Nat → List Nat
  | 0, _ => counter
  | n + 1, i =>
    let counter := counter.set i ((counter.getD i 0 + 1) % 256)
    if counter.getD i 0 ≠ 0 then counter else count32_loop counter n (i - 1)

/-- Increment `count32(counter)` of the last four bytes, for `i = 15` down to `12`. -/
def count32 (counter : List Nat) : List Nat :=
  count32_loop counter 4 15

/-- The hash subkey `H = E_K(0)` computed at the start of `GCM`. -/
def GCM_H (rk : List Nat) : u128 :=
  let H_block := encrypt (List.replicate 16 0) rk
  ⟨load64 H_block 0, load64 H_block 8⟩

/-- The initial counter block `J0` built by `GCM`. -/
def GCM_J0 (rk IV : List Nat) : List Nat :=
  if IV.length = 12 then
    IV.take 12 ++ [0, 0, 0, 1]
  else
    let padded_IV := IV
    let rem := padded_IV.length % 16
    let padded_IV :=
      if rem ≠ 0 then padded_IV ++ List.replicate (16 - rem) 0 else padded_IV
    let iv_bits := (IV.length * 8) % 2 ^ 64
    let padded_IV := padded_IV ++ List.replicate 8 0 ++ store64 iv_bits
    let hash_result := GHASH (GCM_H rk) padded_IV
    store64 hash_result.high ++ store64 hash_result.low

/-- The counter-mode part of `GCM`: the ciphertext for a given `J0`. -/
def GCM_ctr (rk J0 plaintext : List Nat) : List Nat :=
  ctrBlocks (fun c => encrypt c rk) count32 ((plaintext.length + 15) / 16) (count32 J0) plaintext

/-- The tag-derivation part of `GCM` as a function of the ciphertext:
`encrypt(J0) ^ GHASH(H, ciphertext ‖ padding ‖ length block)`. -/
def GCM_tag (rk IV ciphertext : List Nat) : List Nat :=
  let S := GHASH (GCM_H rk) (authData ciphertext)
  let encrypted_J0 := encrypt (GCM_J0 rk IV) rk
  tagBytes encrypted_J0 S

/-- The routine `GCM(rk, IV, plaintext, ciphertext, res)`; the result is the pair
`(ciphertext, res)`. -/
def GCM (rk IV plaintext : List Nat) : List Nat × List Nat :=
  let ciphertext := GCM_ctr rk (GCM_J0 rk IV) plaintext
  (ciphertext, GCM_tag rk IV ciphertext)

end Basic

namespace Opt

/-- Nonlinear transform: the S-box on each of the four bytes. -/
def noliner (a : Nat) : Nat :=
  let result := 0
  let result := result ||| (Sbox.getD ((a >>> 24) &&& 0xFF) 0 <<< 24)
  let result := result ||| (Sbox.getD ((a >>> 16) &&& 0xFF) 0 <<< 16)
  let result := result ||| (Sbox.getD ((a >>> 8) &&& 0xFF) 0 <<< 8)
  let result := result ||| Sbox.getD (a &&& 0xFF) 0
  result

/-- Key schedule `expand(key, rk)`, four rounds per outer iteration; the result is
`rk[0..31]`, that is `K[4..35]`. -/
def expand (key : List Nat) : List Nat :=
  let K0 := (List.range 4).map (fun i => loadWord key i ^^^ FK.getD i 0) ++ List.replicate 32 0
  let K := (List.range 8).foldl (fun K q =>
    let i := 4 * q
    (List.range 4).foldl (fun K j =>
      let tmp := K.getD (i + j + 1) 0 ^^^ K.getD (i + j + 2) 0 ^^^ K.getD (i + j + 3) 0 ^^^
        CK.getD (i + j) 0
      let buf := noliner tmp
      let buf := buf ^^^ move buf 13 ^^^ move buf 23
      K.set (i + j + 4) (K.getD (i + j) 0 ^^^ buf)) K) K0
  K.drop 4

/-- A shift of a `uint64_t` by a count that can reach 64 or more, which C++ leaves
undefined.  With `wrap = true` the count is taken modulo 64, as the 64-bit shift
instructions do; with `wrap = false` the bits are shifted out and the result of a shift
by 64 or more is 0.  For counts below 64 both agree with the ordinary shift. -/
def shr64 (wrap : Bool) (x n : Nat) : Nat :=
  if wrap then x >>> (n % 64) else x >>> n

/-- Left shift of a `uint64_t` by a count that can reach 64; see `shr64`. -/
def shl64 (wrap : Bool) (x n : Nat) : Nat :=
  if wrap then (x <<< (n % 64)) % 2 ^ 64 else (x <<< n) % 2 ^ 64

/-- One step of the loop of `GF128_mul` on the pair `(Z, V)`; the tested bit is
`(Y.high >> (127 - i)) & 1` for every `i`. -/
def GF128_step (wrap : Bool) (Y : u128) (s : u128 × u128) (i : Nat) : u128 × u128 :=
  let Z := s.1
  let V := s.2
  let y_bit := (shr64 wrap Y.high (127 - i)) &&& 1
  let Z : u128 := if y_bit ≠ 0 then ⟨Z.high ^^^ V.high, Z.low ^^^ V.low⟩ else Z
  let carry : Bool := V.low &&& 1 ≠ 0
  let V : u128 := ⟨V.high >>> 1, (V.low >>> 1) ||| ((V.high <<< 63) % 2 ^ 64)⟩
  let V : u128 := if carry then ⟨V.high ^^^ 0xE100000000000000, V.low⟩ else V
  (Z, V)

/-- Multiplication `GF128_mul(X, Y)` of the optimized file. -/
def GF128_mul (wrap : Bool) (X Y : u128) : u128 :=
  ((List.range 128).foldl (GF128_step wrap Y) (⟨0, 0⟩, X)).1

/-- The hash `GHASH(H, data)` of the optimized file. -/
def GHASH (wrap : Bool) (H : u128) (data : List Nat) : u128 :=
  let blocks := data.length / 16
  let Y := (List.range blocks).foldl (fun (Y : u128) i =>
    let ptr := data.drop (16 * i)
    let X : u128 := ⟨load64 ptr 0, load64 ptr 8⟩
    GF128_mul wrap ⟨Y.high ^^^ X.high, Y.low ^^^ X.low⟩ H) ⟨0, 0⟩
  let rem := data.length % 16
  if rem ≠ 0 then
    let ptr := data.drop (16 * blocks)
    let X := (List.range rem).foldl (fun (X : u128) j =>
      if j < 8 then ⟨((X.high <<< 8) % 2 ^ 64) ||| ptr.getD j 0, X.low⟩
      else ⟨X.high, ((X.low <<< 8) % 2 ^ 64) ||| ptr.getD j 0⟩) ⟨0, 0⟩
    let X : u128 := ⟨shl64 wrap X.high ((8 - rem % 8) * 8), X.low⟩
    GF128_mul wrap ⟨Y.high ^^^ X.high, Y.low ^^^ X.low⟩ H
  else Y

/-- The intrinsic `_byteswap_ulong`: the four bytes of a 32-bit value in reverse order. -/
def byteswap_ulong (x : Nat) : Nat :=
  ((x &&& 0xFF) <<< 24) ||| (((x >>> 8) &&& 0xFF) <<< 16) ||| (((x >>> 16) &&& 0xFF) <<< 8) |||
    ((x >>> 24) &&& 0xFF)

/-- Increment `count32(counter)`: bytes 12..15 are read as one little-endian `uint32_t`,
byte-swapped, incremented modulo `2^32`, byte-swapped back and written in place. -/
def count32 (counter : List Nat) : List Nat :=
  let p := counter.getD 12 0 ||| (counter.getD 13 0 <<< 8) ||| (counter.getD 14 0 <<< 16) |||
    (counter.getD 15 0 <<< 24)
  let p := byteswap_ulong ((byteswap_ulong p + 1) % 2 ^ 32)
  (((counter.set 12 (p &&& 0xFF)).set 13 ((p >>> 8) &&& 0xFF)).set 14
    ((p >>> 16) &&& 0xFF)).set 15 ((p >>> 24) &&& 0xFF)

/-- The hash subkey `H = E_K(0)` computed at the start of `GCM`. -/
def GCM_H (T rk : List Nat) : u128 :=
  let H_blk := encrypt T (List.replicate 16 0) rk
  ⟨load64 H_blk 0, load64 H_blk 8⟩

/-- The initial counter block `count` built by `GCM`. -/
def GCM_J0 (T : List Nat) (wrap : Bool) (rk IV : List Nat) : List Nat :=
  if IV.length = 12 then
    IV.take 12 ++ [0, 0, 0, 1]
  else
    let hash_res := GHASH wrap (GCM_H T rk) IV
    store64 hash_res.high ++ store64 hash_res.low

/-- The counter-mode part of `GCM`: the ciphertext for a given initial counter block. -/
def GCM_ctr (T rk J0 plaintext : List Nat) : List Nat :=
  ctrBlocks (fun c => encrypt T c rk) count32 ((plaintext.length + 15) / 16) (count32 J0)
    plaintext

/-- The tag-derivation part of `GCM` as a function of the ciphertext. -/
def GCM_tag (T : List Nat) (wrap : Bool) (rk IV ciphertext : List Nat) : List Nat :=
  let S_res := GHASH wrap (GCM_H T rk) (authData ciphertext)
  let E_count := encrypt T (GCM_J0 T wrap rk IV) rk
  tagBytes E_count S_res

/-- The routine `GCM(rk, IV, plaintext, ciphertext, res)` of the optimized file; the global
table `T` is the explicit first argument and the result is the pair `(ciphertext, res)`. -/
def GCM (T : List Nat) (wrap : Bool) (rk IV plaintext : List Nat) : List Nat × List Nat :=
  let ciphertext := GCM_ctr T rk (GCM_J0 T wrap rk IV) plaintext
  (ciphertext, GCM_tag T wrap rk IV ciphertext)

end Opt

/-- A `u128` whose halves are 64-bit values. -/
def u128.wf (x : u128) : Prop := x.high < 2 ^ 64 ∧ x.low < 2 ^ 64

/-- XOR of both halves, as in `Y.high ^= X.high; Y.low ^= X.low`. -/
def u128.xor (a b : u128) : u128 := ⟨a.high ^^^ b.high, a.low ^^^ b.low⟩

/-- The bit of `Y` tested at step `i` of the basic `GF128_mul`: bit `63 - i` of `Y.high` for
`i < 64` and bit `127 - i` of `Y.low` for `64 ≤ i`. -/
def Basic.ybit (Y : u128) (i : Nat) : Bool :=
  if i < 64 then (Y.high >>> (63 - i)) &&& 1 ≠ 0 else (Y.low >>> (127 - i)) &&& 1 ≠ 0

/-- The update of `V` in one step of `GF128_mul`: shift right by one bit over both halves
and XOR `0xE100000000000000` into the high half when the bit shifted out is 1. -/
def Basic.mulX (V : u128) : u128 :=
  if V.low &&& 1 ≠ 0 then
    ⟨(V.high >>> 1) ^^^ 0xE100000000000000, (V.low >>> 1) ||| ((V.high <<< 63) % 2 ^ 64)⟩
  else ⟨V.high >>> 1, (V.low >>> 1) ||| ((V.high <<< 63) % 2 ^ 64)⟩

/-- The program's test plaintext `"SDUCST"`. -/
def sducst : List Nat := [0x53, 0x44, 0x55, 0x43, 0x53, 0x54]

/-- The words `K[0..35]` of the key schedule in terms of the key and the round keys:
`K[j]` is the `j`-th big-endian key word XOR `FK[j]` for `j < 4` and `rk[j - 4]` from there
on. -/
def scheduleWord (key rk : List Nat) (j : Nat) : Nat :=
  if j < 4 then loadWord key j ^^^ FK.getD j 0 else rk.getD (j - 4) 0

/-- The value stored at `K[i + 4]` by round `i` of the basic `expand`, as a function of
`K[i], K[i+1], K[i+2], K[i+3]`. -/
def Basic.expand_word (i k0 k1 k2 k3 : Nat) : Nat :=
  k0 ^^^ (Basic.noliner (k1 ^^^ k2 ^^^ k3 ^^^ CK.getD i 0) ^^^
    Basic.move (Basic.noliner (k1 ^^^ k2 ^^^ k3 ^^^ CK.getD i 0)) 13 ^^^
    Basic.move (Basic.noliner (k1 ^^^ k2 ^^^ k3 ^^^ CK.getD i 0)) 23)

namespace P1A

/-- The loop of `cbc_encrypt`: `n` iterations are left, `prev_block` is the previous ciphertext
block (the IV at the start) and `plaintext` the part not yet consumed; each iteration XORs
16 plaintext bytes with `prev_block`, encrypts the block and writes 16 ciphertext bytes. -/
def cbc_blocks (T_table : List (List Nat)) (rk : List Nat) : Nat → List Nat → List Nat → List Nat
  | 0, _, _ => []
  | n + 1, prev_block, plaintext =>
    let block := (List.range 16).map (fun j => plaintext.getD j 0 ^^^ prev_block.getD j 0)
    let c := sm4_encrypt T_table block rk
    c ++ cbc_blocks T_table rk n c (plaintext.drop 16)

/-- The routine `cbc_encrypt(plaintext, ciphertext, rk, iv)`; the result is `ciphertext`,
resized from empty to the plaintext length, so that the bytes after the last full block, which
the loop does not write, are zero. -/
def cbc_encrypt (T_table : List (List Nat)) (plaintext rk iv : List Nat) : List Nat :=
  cbc_blocks T_table rk (plaintext.length / 16) iv plaintext ++
    List.replicate (plaintext.length % 16) 0

end P1A

/-- The padded plaintext built in `main` of `project1-a.cpp` from `"SDUCST"`. -/
def sducst_padded : List Nat := sducst ++ List.replicate 10 0x0A

/-- The error kinds a GCM call could report; the specification names `InvalidNonce` for a
zero-length nonce. -/
inductive GcmError where
  | InvalidNonce
deriving DecidableEq

/-- The basic `GCM` as a call that could fail.  The routine is a `void` function that tests
only `IV.size() == 12`, has no `throw` and no early `return`: every call completes, so the
result is always `ok`. -/
def Basic.GCM_call (rk IV plaintext : List Nat) : Except GcmError (List Nat × List Nat) :=
  Except.ok (Basic.GCM rk IV plaintext)

/-- The optimized `GCM` as a call that could fail; like the basic one it has no failing
path. -/
def Opt.GCM_call (T : List Nat) (wrap : Bool) (rk IV plaintext : List Nat) :
    Except GcmError (List Nat × List Nat) :=
  Except.ok (Opt.GCM T wrap rk IV plaintext)

/-! ## SM3 -/

/-- The object state of the class `SM3`: the chaining value `state[8]`, the byte counter
`total_len` and the pending bytes `buffer`. -/
structure SM3State where
  state : List Nat
  total_len : Nat
  buffer : List Nat
deriving DecidableEq

/-- The method `update(data, len)` with `len = data.length`; the text is the same in the
three SM3 files and `pb` stands for the `process_block` of the file. -/
def sm3_update (pb : List Nat → List Nat → List Nat) (s : SM3State) (data : List Nat) :
    SM3State :=
  let len := data.length
  let total_len := (s.total_len + len) % 2 ^ 64
  let s1 : SM3State × Nat :=
    if s.buffer ≠ [] then
      let fill := min (64 - s.buffer.length) len
      let buffer := s.buffer ++ data.take fill
      if buffer.length = 64 then (⟨pb s.state buffer, total_len, []⟩, fill)
      else (⟨s.state, total_len, buffer⟩, fill)
    else (⟨s.state, total_len, s.buffer⟩, 0)
  let offset := s1.2
  let nblocks := (len - offset) / 64
  let state := (List.range nblocks).foldl
    (fun st i => pb st (data.drop (offset + 64 * i))) s1.1.state
  let offset := offset + 64 * nblocks
  if offset < len then ⟨state, total_len, s1.1.buffer ++ data.drop offset⟩
  else ⟨state, total_len, s1.1.buffer⟩

/-- The method `finalize()`; the text is the same in the three SM3 files and `pb` stands for
the `process_block` of the file. -/
def sm3_finalize (pb : List Nat → List Nat → List Nat) (s : SM3State) : SM3State :=
  let bit_len := (s.total_len * 8) % 2 ^ 64
  let buffer := s.buffer ++ [0x80]
  let len_mod := buffer.length % 64
  let padding_len := if len_mod ≤ 56 then 56 - len_mod else 120 - len_mod
  let buffer := buffer ++ List.replicate padding_len 0
  let buffer := buffer ++ store64 bit_len
  let state := (List.range ((buffer.length + 63) / 64)).foldl
    (fun st i => pb st (buffer.drop (64 * i))) s.state
  ⟨state, s.total_len, []⟩

/-- The state left by `reset()`; the same in the three SM3 files. -/
def sm3_reset : SM3State :=
  ⟨[0x7380166F, 0x4914B2B9, 0x172442D7, 0xDA8A0600, 0xA96F30BC, 0x163138AA, 0xE38DEE4D,
    0xB0FB0E4E], 0, []⟩

/-- A hexadecimal digit in lower case. -/
def hexDigit (d : Nat) : Char :=
  if d < 10 then Char.ofNat (48 + d) else Char.ofNat (87 + d)

/-- A 32-bit word printed with `hex`, `setw(8)` and `setfill('0')`. -/
def hexWord (x : Nat) : List Char :=
  (List.range 8).map (fun i => hexDigit ((x >>> (28 - 4 * i)) &&& 0xF))

/-- The method `digest()`: the eight state words in hexadecimal; the same in the three SM3
files. -/
def sm3_digest (s : SM3State) : String :=
  String.mk ((List.range 8).map (fun i => hexWord (s.state.getD i 0))).flatten


/-! The SM3 class of `peoject4/project4-a.cpp` and `project4/project4-b.cpp` (same text). -/

namespace SM3

/-- Rotation `ROL(x, n) = (x << (n & 0x1F)) | (x >> ((32 - n) & 0x1F))` on `uint32_t`; the
difference `32 - n` is taken modulo `2^32`. -/
def ROL (x n : Nat) : Nat :=
  ((x <<< (n &&& 0x1F)) % 2 ^ 32) ||| (x >>> (((2 ^ 32 + 32 - n) % 2 ^ 32) &&& 0x1F))

/-- Boolean function `FF0(X, Y, Z) = X ^ Y ^ Z`. -/
def FF0 (X Y Z : Nat) : Nat := X ^^^ Y ^^^ Z

/-- Boolean function `FF1(X, Y, Z) = (X & Y) | (X & Z) | (Y & Z)`. -/
def FF1 (X Y Z : Nat) : Nat := (X &&& Y) ||| (X &&& Z) ||| (Y &&& Z)

/-- Boolean function `GG0(X, Y, Z) = X ^ Y ^ Z`. -/
def GG0 (X Y Z : Nat) : Nat := X ^^^ Y ^^^ Z

/-- Boolean function `GG1(X, Y, Z) = (X & Y) | (~X & Z)`; `~X` is the complement of a
`uint32_t`. -/
def GG1 (X Y Z : Nat) : Nat := (X &&& Y) ||| ((X ^^^ 0xFFFFFFFF) &&& Z)

/-- Permutation `P0(X) = X ^ ROL(X, 9) ^ ROL(X, 17)`. -/
def P0 (X : Nat) : Nat := X ^^^ ROL X 9 ^^^ ROL X 17

/-- Permutation `P1(X) = X ^ ROL(X, 15) ^ ROL(X, 23)`. -/
def P1 (X : Nat) : Nat := X ^^^ ROL X 15 ^^^ ROL X 23

/-- The constant table `T0[16]`. -/
def T0 : List Nat := List.replicate 16 0x79CC4519

/-- The constant table `T1[48]`. -/
def T1 : List Nat := List.replicate 48 0x7A879D8A

/-- One iteration of the message expansion loop of `process_block`, which fills
`W[j], W[j+1], W[j+2], W[j+3]` in this order. -/
def expand4 (W : List Nat) (j : Nat) : List Nat :=
  let W := W.set j (P1 (W.getD (j - 16) 0 ^^^ W.getD (j - 9) 0 ^^^ ROL (W.getD (j - 3) 0) 15) ^^^
    ROL (W.getD (j - 13) 0) 7 ^^^ W.getD (j - 6) 0)
  let W := W.set (j + 1) (P1 (W.getD (j - 15) 0 ^^^ W.getD (j - 8) 0 ^^^
    ROL (W.getD (j - 2) 0) 15) ^^^ ROL (W.getD (j - 12) 0) 7 ^^^ W.getD (j - 5) 0)
  let W := W.set (j + 2) (P1 (W.getD (j - 14) 0 ^^^ W.getD (j - 7) 0 ^^^
    ROL (W.getD (j - 1) 0) 15) ^^^ ROL (W.getD (j - 11) 0) 7 ^^^ W.getD (j - 4) 0)
  W.set (j + 3) (P1 (W.getD (j - 13) 0 ^^^ W.getD (j - 6) 0 ^^^ ROL (W.getD j 0) 15) ^^^
    ROL (W.getD (j - 10) 0) 7 ^^^ W.getD (j - 3) 0)

/-- The array `W[68]` of `process_block`: 16 big-endian words of the block, then the
expansion for `j = 16, 20, ..., 64`. -/
def expandW (block : List Nat) : List Nat :=
  let W0 := (List.range 16).map (loadWord block) ++ List.replicate 52 0
  (List.range 13).foldl (fun W q => expand4 W (16 + 4 * q)) W0

/-- The array `W1[64]` of `process_block`: `W1[j] = W[j] ^ W[j + 4]`, four entries per
iteration. -/
def expandW1 (W : List Nat) : List Nat :=
  (List.range 16).foldl (fun W1 q =>
    let j := 4 * q
    let W1 := W1.set j (W.getD j 0 ^^^ W.getD (j + 4) 0)
    let W1 := W1.set (j + 1) (W.getD (j + 1) 0 ^^^ W.getD (j + 5) 0)
    let W1 := W1.set (j + 2) (W.getD (j + 2) 0 ^^^ W.getD (j + 6) 0)
    W1.set (j + 3) (W.getD (j + 3) 0 ^^^ W.getD (j + 7) 0)) (List.replicate 64 0)

/-- One of the first 16 rounds on the registers `[A, B, C, D, E, F, G, H]`. -/
def round0 (W W1 : List Nat) (r : List Nat) (j : Nat) : List Nat :=
  let A := r.getD 0 0
  let B := r.getD 1 0
  let C := r.getD 2 0
  let D := r.getD 3 0
  let E := r.getD 4 0
  let F := r.getD 5 0
  let G := r.getD 6 0
  let H := r.getD 7 0
  let A_rot12 := ROL A 12
  let T_rot := ROL (T0.getD j 0) j
  let SS1 := ROL ((A_rot12 + E + T_rot) % 2 ^ 32) 7
  let SS2 := SS1 ^^^ A_rot12
  let TT1 := (FF0 A B C + D + SS2 + W1.getD j 0) % 2 ^ 32
  let TT2 := (GG0 E F G + H + SS1 + W.getD j 0) % 2 ^ 32
  [TT1, A, ROL B 9, C, P0 TT2, E, ROL F 19, G]

/-- One of the last 48 rounds on the registers `[A, B, C, D, E, F, G, H]`. -/
def round1 (W W1 : List Nat) (r : List Nat) (j : Nat) : List Nat :=
  let A := r.getD 0 0
  let B := r.getD 1 0
  let C := r.getD 2 0
  let D := r.getD 3 0
  let E := r.getD 4 0
  let F := r.getD 5 0
  let G := r.getD 6 0
  let H := r.getD 7 0
  let A_rot12 := ROL A 12
  let T_rot := ROL (T1.getD (j - 16) 0) j
  let SS1 := ROL ((A_rot12 + E + T_rot) % 2 ^ 32) 7
  let SS2 := SS1 ^^^ A_rot12
  let TT1 := (FF1 A B C + D + SS2 + W1.getD j 0) % 2 ^ 32
  let TT2 := (GG1 E F G + H + SS1 + W.getD j 0) % 2 ^ 32
  [TT1, A, ROL B 9, C, P0 TT2, E, ROL F 19, G]

/-- The compression `process_block(block)`: the new `state[8]` from the old one. -/
def process_block (state block : List Nat) : List Nat :=
  let W := expandW block
  let W1 := expandW1 W
  let r := (List.range 8).map (fun i => state.getD i 0)
  let r := (List.range 16).foldl (round0 W W1) r
  let r := (List.range 48).foldl (fun r q => round1 W W1 r (16 + q)) r
  (List.range 8).map (fun i => state.getD i 0 ^^^ r.getD i 0)

/-- The state left by `reset()`. -/
def reset : SM3State := sm3_reset

/-- The method `set_state(new_state, new_total_len)` of `project4-b.cpp`. -/
def set_state (new_state : List Nat) (new_total_len : Nat) : SM3State :=
  ⟨(List.range 8).map (fun i => new_state.getD i 0), new_total_len, []⟩

/-- The method `update(data, len)`. -/
def update (s : SM3State) (data : List Nat) : SM3State := sm3_update process_block s data

/-- The method `finalize()`. -/
def finalize (s : SM3State) : SM3State := sm3_finalize process_block s

/-- The method `digest()`. -/
def digest (s : SM3State) : String := sm3_digest s

/-- The method `digest_without_finalize()` of `project4-b.cpp`; same text as `digest()`. -/
def digest_without_finalize (s : SM3State) : String := sm3_digest s

/-- The function `sm3_hash(input)`. -/
def sm3_hash (input : List Nat) : String :=
  digest (finalize (update reset input))

/-- The value of a hexadecimal digit, as read by `stoul(_, nullptr, 16)`; it is applied to
the characters printed by `digest()` only, which are digits and lower-case letters `a..f`. -/
def hexValue (c : Char) : Nat :=
  if 48 ≤ c.toNat ∧ c.toNat ≤ 57 then c.toNat - 48
  else if 97 ≤ c.toNat ∧ c.toNat ≤ 102 then c.toNat - 87
  else c.toNat - 55

/-- The conversion `stoul(hex_word, nullptr, 16)` of eight hexadecimal digits. -/
def parseHexWord (cs : List Char) : Nat :=
  cs.foldl (fun v c => 16 * v + hexValue c) 0

/-- The forged hash computed by `length_extension_attack` from the secret and the suffix:
the state is parsed from `sm3_hash(secret)`, restored with `set_state` and updated with the
suffix. -/
def forged_hash (secret suffix : List Nat) : String :=
  let original_hash := sm3_hash secret
  let secret_length := secret.length
  let pad_len := if secret_length % 64 < 56 then 56 - secret_length % 64
    else 120 - secret_length % 64
  let padded_length := secret_length + 1 + pad_len + 8
  let state := (List.range 8).map (fun i =>
    parseHexWord ((original_hash.data.drop (i * 8)).take 8))
  let sm3_attack := set_state state padded_length
  let sm3_attack := update sm3_attack suffix
  digest_without_finalize sm3_attack

/-- The message `full_message` built by `length_extension_attack`. -/
def full_message (secret suffix : List Nat) : List Nat :=
  let secret_length := secret.length
  let pad_len := if secret_length % 64 < 56 then 56 - secret_length % 64
    else 120 - secret_length % 64
  let bit_length := (secret_length * 8) % 2 ^ 64
  secret ++ [0x80] ++ List.replicate pad_len 0 ++ store64 bit_length ++ suffix

/-- The hash `real_hash` computed by `length_extension_attack`. -/
def real_hash (secret suffix : List Nat) : String :=
  digest_without_finalize (update reset (full_message secret suffix))

end SM3

namespace SM3Basic

/-- Left shift `x << n` of a `uint32_t` in `ROL`, whose count reaches 32 and more
(`ROL(Tj, j)` with `j` up to 63).  C++ leaves such a shift undefined; the compiled program
shifts with the 32-bit shift instruction, which takes the count modulo 32, and the definition
does the same. -/
def shl32 (x n : Nat) : Nat :=
  (x <<< (n % 32)) % 2 ^ 32

/-- Right shift `x >> n` of a `uint32_t` in `ROL`, whose count `32 - n` is 32 for `n = 0` and
is reduced modulo `2^32` for `n > 32`; the count is taken modulo 32 as in `shl32`. -/
def shr32 (x n : Nat) : Nat :=
  x >>> (n % 32)

/-- Rotation `ROL(x, n) = (x << n) | (x >> (32 - n))` of the basic file, without masks; the
difference `32 - n` is taken modulo `2^32`. -/
def ROL (x n : Nat) : Nat :=
  shl32 x n ||| shr32 x ((2 ^ 32 + 32 - n) % 2 ^ 32)

/-- Boolean function `FF0`. -/
def FF0 (X Y Z : Nat) : Nat := X ^^^ Y ^^^ Z

/-- Boolean function `FF1`. -/
def FF1 (X Y Z : Nat) : Nat := (X &&& Y) ||| (X &&& Z) ||| (Y &&& Z)

/-- Boolean function `GG0`. -/
def GG0 (X Y Z : Nat) : Nat := X ^^^ Y ^^^ Z

/-- Boolean function `GG1`; `~X` is the complement of a `uint32_t`. -/
def GG1 (X Y Z : Nat) : Nat := (X &&& Y) ||| ((X ^^^ 0xFFFFFFFF) &&& Z)

/-- Permutation `P0`. -/
def P0 (X : Nat) : Nat := X ^^^ ROL X 9 ^^^ ROL X 17

/-- Permutation `P1`. -/
def P1 (X : Nat) : Nat := X ^^^ ROL X 15 ^^^ ROL X 23

/-- One step `W[j] = P1(W[j-16] ^ W[j-9] ^ ROL(W[j-3], 15)) ^ ROL(W[j-13], 7) ^ W[j-6]` of the
message expansion. -/
def expand1 (W : List Nat) (j : Nat) : List Nat :=
  W.set j (P1 (W.getD (j - 16) 0 ^^^ W.getD (j - 9) 0 ^^^ ROL (W.getD (j - 3) 0) 15) ^^^
    ROL (W.getD (j - 13) 0) 7 ^^^ W.getD (j - 6) 0)

/-- The array `W[68]` of `process_block`. -/
def expandW (block : List Nat) : List Nat :=
  let W0 := (List.range 16).map (loadWord block) ++ List.replicate 52 0
  (List.range 52).foldl (fun W i => expand1 W (16 + i)) W0

/-- The array `W1[64]` of `process_block`: `W1[j] = W[j] ^ W[j + 4]`. -/
def expandW1 (W : List Nat) : List Nat :=
  (List.range 64).foldl (fun W1 j => W1.set j (W.getD j 0 ^^^ W.getD (j + 4) 0))
    (List.replicate 64 0)

/-- One round of the single 64-round loop on the registers `[A, B, C, D, E, F, G, H]`. -/
def round (W W1 : List Nat) (r : List Nat) (j : Nat) : List Nat :=
  let A := r.getD 0 0
  let B := r.getD 1 0
  let C := r.getD 2 0
  let D := r.getD 3 0
  let E := r.getD 4 0
  let F := r.getD 5 0
  let G := r.getD 6 0
  let H := r.getD 7 0
  let Tj := if j < 16 then 0x79CC4519 else 0x7A879D8A
  let SS1 := ROL ((ROL A 12 + E + ROL Tj j) % 2 ^ 32) 7
  let SS2 := SS1 ^^^ ROL A 12
  let TT1 :=
    if j < 16 then (FF0 A B C + D + SS2 + W1.getD j 0) % 2 ^ 32
    else (FF1 A B C + D + SS2 + W1.getD j 0) % 2 ^ 32
  let TT2 :=
    if j < 16 then (GG0 E F G + H + SS1 + W.getD j 0) % 2 ^ 32
    else (GG1 E F G + H + SS1 + W.getD j 0) % 2 ^ 32
  [TT1, A, ROL B 9, C, P0 TT2, E, ROL F 19, G]

/-- The compression `process_block(block)` of the basic file. -/
def process_block (state block : List Nat) : List Nat :=
  let W := expandW block
  let W1 := expandW1 W
  let r := (List.range 8).map (fun i => state.getD i 0)
  let r := (List.range 64).foldl (round W W1) r
  (List.range 8).map (fun i => state.getD i 0 ^^^ r.getD i 0)

/-- The function `sm3_hash(input)` of the basic file. -/
def sm3_hash (input : List Nat) : String :=
  sm3_digest (sm3_finalize process_block (sm3_update process_block sm3_reset input))

end SM3Basic

namespace P1A

end P1A

/-- The bytes of `"abc"`. -/
def abc : List Nat := [0x61, 0x62, 0x63]

/-- The bytes of the 28-character string `"abcdabcdabcdabcdabcdabcdabcd"` hashed in `main` of
`project4-b.cpp`. -/
def abcd28 : List Nat := (List.replicate 7 [0x61, 0x62, 0x63, 0x64]).flatten

/-- The bytes of the 64-character string made of 16 copies of `"abcd"`. -/
def abcd64 : List Nat := (List.replicate 16 [0x61, 0x62, 0x63, 0x64]).flatten

/-- The bytes of `"This is a secret message"`. -/
def secret_message : List Nat :=
  [84, 104, 105, 115, 32, 105, 115, 32, 97, 32, 115, 101, 99, 114, 101, 116, 32, 109, 101, 115,
    115, 97, 103, 101]

/-- The bytes of `"&admin=true"`. -/
def admin_suffix : List Nat := [38, 97, 100, 109, 105, 110, 61, 116, 114, 117, 101]

/-- The value stored at `X[i + 4]` by round `i` of the basic `encrypt`:
`X[i] ^ map(noliner(X[i+1] ^ X[i+2] ^ X[i+3] ^ rk[i]))`. -/
def Basic.encrypt_word (rk : List Nat) (i x0 x1 x2 x3 : Nat) : Nat :=
  x0 ^^^ Basic.map (Basic.noliner (x1 ^^^ x2 ^^^ x3 ^^^ rk.getD i 0))

/-- The array `X[36]` of the basic `encrypt` after its 32 rounds. -/
def Basic.encrypt_X (inp rk : List Nat) : List Nat :=
  (List.range 32).foldl (Basic.encrypt_round rk)
    ((List.range 4).map (loadWord inp) ++ List.replicate 32 0)

/-- The element `E` of the multiplication: `high = 0x8000000000000000`, `low = 0`. -/
def Basic.GF128_E : u128 := ⟨0x8000000000000000, 0⟩

/-- The value in which only the bit tested at step `i` of the basic `GF128_mul` is set:
bit `63 - i` of `high` for `i < 64` and bit `127 - i` of `low` from there on. -/
def Basic.unitBit (i : Nat) : u128 :=
  if i < 64 then ⟨2 ^ (63 - i), 0⟩ else ⟨0, 2 ^ (127 - i)⟩

/-! ## Bit-level lemmas -/

theorem testBit_of_lt_of_le {a k j : Nat} (h : a < 2 ^ k) (hj : k ≤ j) : a.testBit j = false :=
  Nat.testBit_lt_two_pow (Nat.lt_of_lt_of_le h (Nat.pow_le_pow_right (by decide) hj))

set_option maxRecDepth 100000 in
theorem Sbox_lt (i : Nat) : Sbox.getD i 0 < 256 := by
  have h : ∀ x ∈ Sbox, x < 256 := by decide
  by_cases hi : i < Sbox.length
  · rw [List.getD_eq_getElem _ _ hi]
    exact h _ (List.getElem_mem _)
  · rw [List.getD_eq_default _ _ (by omega)]
    decide

theorem map_range_getD (f : Nat → Nat) (n i : Nat) (h : i < n) :
    ((List.range n).map f).getD i 0 = f i := by
  simp [List.getD_eq_getElem?_getD, List.getElem?_range h]

namespace P1A

theorem rotate_left_lt (x n : Nat) (hx : x < 2 ^ 32) : rotate_left x n < 2 ^ 32 := by
  unfold rotate_left
  apply Nat.or_lt_two_pow (Nat.mod_lt _ (by decide))
  rw [Nat.shiftRight_eq_div_pow]
  exact Nat.lt_of_le_of_lt (Nat.div_le_self _ _) hx

theorem rotate_left_xor (x y n : Nat) (hx : x < 2 ^ 32) (hy : y < 2 ^ 32) :
    rotate_left (x ^^^ y) n = rotate_left x n ^^^ rotate_left y n := by
  apply Nat.eq_of_testBit_eq
  intro i
  simp only [rotate_left, Nat.testBit_or, Nat.testBit_xor, Nat.testBit_mod_two_pow,
    Nat.testBit_shiftLeft, Nat.testBit_shiftRight]
  by_cases h : n ≤ i
  · by_cases h32 : n ≤ 32
    · have hx0 : x.testBit (32 - n + i) = false := testBit_of_lt_of_le hx (by omega)
      have hy0 : y.testBit (32 - n + i) = false := testBit_of_lt_of_le hy (by omega)
      simp only [hx0, hy0, Bool.or_false, Bool.xor_false]
      by_cases hi : i < 32 <;> simp [hi, h]
    · have e : 32 - n + i = i := by omega
      rw [e]
      by_cases hi : i < 32
      · omega
      · simp [hi]
  · simp [h]

theorem linear_transform_lt (x : Nat) (hx : x < 2 ^ 32) : linear_transform x < 2 ^ 32 := by
  unfold linear_transform
  exact Nat.xor_lt_two_pow (Nat.xor_lt_two_pow (Nat.xor_lt_two_pow (Nat.xor_lt_two_pow hx
    (rotate_left_lt _ _ hx)) (rotate_left_lt _ _ hx)) (rotate_left_lt _ _ hx))
    (rotate_left_lt _ _ hx)

theorem linear_transform_xor (x y : Nat) (hx : x < 2 ^ 32) (hy : y < 2 ^ 32) :
    linear_transform (x ^^^ y) = linear_transform x ^^^ linear_transform y := by
  simp only [linear_transform, rotate_left_xor _ _ _ hx hy]
  ac_rfl

end P1A

theorem lanes_or_eq_xor (a b c d : Nat) (ha : a < 256) (hb : b < 256) (hc : c < 256)
    (hd : d < 256) :
    (a <<< 24) ||| (b <<< 16) ||| (c <<< 8) ||| d = (a <<< 24) ^^^ (b <<< 16) ^^^ (c <<< 8) ^^^ d := by
  have ha8 : a < 2 ^ 8 := ha
  have hb8 : b < 2 ^ 8 := hb
  have hc8 : c < 2 ^ 8 := hc
  have hd8 : d < 2 ^ 8 := hd
  apply Nat.eq_of_testBit_eq
  intro i
  simp only [Nat.testBit_or, Nat.testBit_xor, Nat.testBit_shiftLeft]
  by_cases h1 : 24 ≤ i
  · have e1 : d.testBit i = false := testBit_of_lt_of_le hd8 (by omega)
    have e2 : c.testBit (i - 8) = false := testBit_of_lt_of_le hc8 (by omega)
    have e3 : b.testBit (i - 16) = false := testBit_of_lt_of_le hb8 (by omega)
    simp [e1, e2, e3]
  · by_cases h2 : 16 ≤ i
    · have e1 : d.testBit i = false := testBit_of_lt_of_le hd8 (by omega)
      have e2 : c.testBit (i - 8) = false := testBit_of_lt_of_le hc8 (by omega)
      simp [e1, e2, h1]
    · by_cases h3 : 8 ≤ i
      · have e1 : d.testBit i = false := testBit_of_lt_of_le hd8 (by omega)
        simp [e1, h1, h2]
      · simp [h1, h2, h3]

theorem byte_shiftLeft_lt (a k : Nat) (ha : a < 256) (hk : k ≤ 24) : a <<< k < 2 ^ 32 := by
  rw [Nat.shiftLeft_eq]
  calc a * 2 ^ k < 2 ^ 8 * 2 ^ k := Nat.mul_lt_mul_of_pos_right ha (Nat.two_pow_pos k)
    _ = 2 ^ (8 + k) := (Nat.pow_add 2 8 k).symm
    _ ≤ 2 ^ 32 := Nat.pow_le_pow_right (by decide) (by omega)

theorem and_255_lt (x : Nat) : x &&& 0xFF < 256 :=
  Nat.and_lt_two_pow x (by decide : 0xFF < 2 ^ 8)

namespace P1A

/-- The linear transform of a word assembled from four bytes is the XOR of the
linear transforms of its four byte lanes. -/
theorem linear_transform_lanes (a b c d : Nat) (ha : a < 256) (hb : b < 256) (hc : c < 256)
    (hd : d < 256) :
    linear_transform ((a <<< 24) ||| (b <<< 16) ||| (c <<< 8) ||| d) =
      linear_transform (a <<< 24) ^^^ linear_transform (b <<< 16) ^^^
        linear_transform (c <<< 8) ^^^ linear_transform d := by
  have h24 := byte_shiftLeft_lt a 24 ha (by decide)
  have h16 := byte_shiftLeft_lt b 16 hb (by decide)
  have h8 := byte_shiftLeft_lt c 8 hc (by decide)
  have h0 : d < 2 ^ 32 := Nat.lt_trans hd (by decide)
  rw [lanes_or_eq_xor a b c d ha hb hc hd,
    linear_transform_xor _ _ (Nat.xor_lt_two_pow (Nat.xor_lt_two_pow h24 h16) h8) h0,
    linear_transform_xor _ _ (Nat.xor_lt_two_pow h24 h16) h8,
    linear_transform_xor _ _ h24 h16]

/-- Four lookups in the tables built by `init_T_table` compute `L(tau(x))`. -/
theorem T_table_lookup (x : Nat) :
    (init_T_table.getD 0 []).getD ((x >>> 24) &&& 0xFF) 0 ^^^
      (init_T_table.getD 1 []).getD ((x >>> 16) &&& 0xFF) 0 ^^^
      (init_T_table.getD 2 []).getD ((x >>> 8) &&& 0xFF) 0 ^^^
      (init_T_table.getD 3 []).getD (x &&& 0xFF) 0 = linear_transform (tau x) := by
  have e0 : init_T_table.getD 0 [] =
      (List.range 256).map (fun i => linear_transform (Sbox.getD i 0 <<< 24)) := rfl
  have e1 : init_T_table.getD 1 [] =
      (List.range 256).map (fun i => linear_transform (Sbox.getD i 0 <<< 16)) := rfl
  have e2 : init_T_table.getD 2 [] =
      (List.range 256).map (fun i => linear_transform (Sbox.getD i 0 <<< 8)) := rfl
  have e3 : init_T_table.getD 3 [] =
      (List.range 256).map (fun i => linear_transform (Sbox.getD i 0)) := rfl
  rw [e0, e1, e2, e3, map_range_getD _ _ _ (and_255_lt _), map_range_getD _ _ _ (and_255_lt _),
    map_range_getD _ _ _ (and_255_lt _), map_range_getD _ _ _ (and_255_lt _)]
  unfold tau
  rw [linear_transform_lanes _ _ _ _ (Sbox_lt _) (Sbox_lt _) (Sbox_lt _) (Sbox_lt _)]

theorem sm4_round_eq (rk state : List Nat) (round : Nat) :
    sm4_round init_T_table rk state round = Basic.encrypt_round rk state round := by
  have hL : ∀ x, Basic.map (Basic.noliner x) = linear_transform (tau x) := fun _ => rfl
  unfold sm4_round Basic.encrypt_round
  simp only [hL, ← T_table_lookup, Nat.xor_assoc]

end P1A

/-- Claim C3. Round-function equivalence of the four-table path: for every word `x` with
bytes `b0..b3` (most significant first), the XOR of the four lookups
`T_table[0][b0] ^ T_table[1][b1] ^ T_table[2][b2] ^ T_table[3][b3]` in the tables built by
`init_T_table` equals `linear_transform(tau(x))`, and `linear_transform(y)` is
`y ^ rotl(y,2) ^ rotl(y,10) ^ rotl(y,18) ^ rotl(y,24)`. -/
theorem c3_four_table_round_function (x : Nat) :
    (P1A.init_T_table.getD 0 []).getD ((x >>> 24) &&& 0xFF) 0 ^^^
      (P1A.init_T_table.getD 1 []).getD ((x >>> 16) &&& 0xFF) 0 ^^^
      (P1A.init_T_table.getD 2 []).getD ((x >>> 8) &&& 0xFF) 0 ^^^
      (P1A.init_T_table.getD 3 []).getD (x &&& 0xFF) 0 = P1A.linear_transform (P1A.tau x) ∧
    (∀ y, P1A.linear_transform y =
      y ^^^ P1A.rotate_left y 2 ^^^ P1A.rotate_left y 10 ^^^ P1A.rotate_left y 18 ^^^
        P1A.rotate_left y 24) :=
  ⟨P1A.T_table_lookup x, fun _ => rfl⟩

/-- Claim C1. For every input block and every set of round keys, `sm4_encrypt` of
`project1-a.cpp`, run on the four tables built by `init_T_table`, returns the same output
bytes as the direct substitution + linear-transform `encrypt` of the basic variant, and
these are 16 bytes. -/
theorem c1_four_table_encrypt_eq_basic (inp rk : List Nat) :
    P1A.sm4_encrypt P1A.init_T_table inp rk = Basic.encrypt inp rk ∧
      (Basic.encrypt inp rk).length = 16 := by
  have h : P1A.sm4_round P1A.init_T_table rk = Basic.encrypt_round rk := by
    funext state round
    exact P1A.sm4_round_eq rk state round
  constructor
  · unfold P1A.sm4_encrypt Basic.encrypt
    rw [h]
  · simp [Basic.encrypt, storeWord]

/-! ## The counter-mode loop -/

theorem zipWith_xor_cancel (p ks : List Nat) (h : p.length ≤ ks.length) :
    List.zipWith (fun a k => a ^^^ k) (List.zipWith (fun a k => a ^^^ k) p ks) ks = p := by
  induction p generalizing ks with
  | nil => simp
  | cons a p ih =>
    cases ks with
    | nil => simp at h
    | cons k ks =>
      simp only [List.length_cons, Nat.add_le_add_iff_right] at h
      simp only [List.zipWith_cons_cons, ih ks h, Nat.xor_assoc, Nat.xor_self, Nat.xor_zero]

theorem ctrBlocks_nil (enc inc : List Nat → List Nat) (n : Nat) (c : List Nat) :
    ctrBlocks enc inc n c [] = [] := by
  induction n generalizing c with
  | zero => rfl
  | succ n ih => simp [ctrBlocks, ih]

theorem ctrBlocks_succ (enc inc : List Nat → List Nat) (n : Nat) (c pt : List Nat) :
    ctrBlocks enc inc (n + 1) c pt =
      List.zipWith (fun p k => p ^^^ k) (pt.take 16) (enc c) ++
        ctrBlocks enc inc n (inc c) (pt.drop 16) := rfl

theorem ctr_first_block_length (pt ks : List Nat) (hks : ks.length = 16) :
    (List.zipWith (fun a k => a ^^^ k) (pt.take 16) ks).length = min 16 pt.length := by
  simp only [List.length_zipWith, List.length_take, hks]
  omega

/-- Splitting of the output of one iteration: the bytes written by the first iteration are
the first 16 (or all) bytes of the result. -/
theorem ctrBlocks_succ_take_drop (enc inc : List Nat → List Nat)
    (henc : ∀ c, (enc c).length = 16) (n : Nat) (c pt : List Nat) :
    (ctrBlocks enc inc (n + 1) c pt).take 16 =
        List.zipWith (fun a k => a ^^^ k) (pt.take 16) (enc c) ∧
      (ctrBlocks enc inc (n + 1) c pt).drop 16 = ctrBlocks enc inc n (inc c) (pt.drop 16) := by
  have hlen := ctr_first_block_length pt (enc c) (henc c)
  simp only [ctrBlocks]
  by_cases h : 16 ≤ pt.length
  · have h16 : (List.zipWith (fun a k => a ^^^ k) (pt.take 16) (enc c)).length = 16 := by
      rw [hlen]; omega
    constructor
    · exact List.take_left' h16
    · exact List.drop_left' h16
  · have hd : pt.drop 16 = [] := List.drop_eq_nil_of_le (by omega)
    have hl : (List.zipWith (fun a k => a ^^^ k) (pt.take 16) (enc c)).length ≤ 16 := by
      rw [hlen]; omega
    rw [hd, ctrBlocks_nil, List.append_nil]
    exact ⟨List.take_of_length_le hl, List.drop_eq_nil_of_le hl⟩

theorem ctrBlocks_length (enc inc : List Nat → List Nat) (henc : ∀ c, (enc c).length = 16)
    (n : Nat) (c pt : List Nat) (h : pt.length ≤ 16 * n) :
    (ctrBlocks enc inc n c pt).length = pt.length := by
  induction n generalizing c pt with
  | zero =>
    have : pt = [] := List.eq_nil_of_length_eq_zero (by omega)
    subst this; rfl
  | succ n ih =>
    simp only [ctrBlocks, List.length_append, ctr_first_block_length pt (enc c) (henc c)]
    rw [ih (inc c) (pt.drop 16) (by simp only [List.length_drop]; omega)]
    simp only [List.length_drop]
    omega

theorem ctrBlocks_involutive (enc inc : List Nat → List Nat)
    (henc : ∀ c, (enc c).length = 16) (n : Nat) (c pt : List Nat) (h : pt.length ≤ 16 * n) :
    ctrBlocks enc inc n c (ctrBlocks enc inc n c pt) = pt := by
  induction n generalizing c pt with
  | zero =>
    have : pt = [] := List.eq_nil_of_length_eq_zero (by omega)
    subst this; rfl
  | succ n ih =>
    obtain ⟨ht, hd⟩ := ctrBlocks_succ_take_drop enc inc henc n c pt
    rw [ctrBlocks_succ enc inc n c (ctrBlocks enc inc (n + 1) c pt), ht, hd,
      ih (inc c) (pt.drop 16) (by simp only [List.length_drop]; omega),
      zipWith_xor_cancel _ _ (by simp only [List.length_take, henc]; omega)]
    exact List.take_append_drop 16 pt

theorem ctrBlocks_block (enc inc : List Nat → List Nat) (henc : ∀ c, (enc c).length = 16)
    (k n : Nat) (c pt : List Nat) (hk : k < n) (h : 16 * k < pt.length) :
    ((ctrBlocks enc inc n c pt).drop (16 * k)).take 16 =
      List.zipWith (fun a x => a ^^^ x) ((pt.drop (16 * k)).take 16) (enc (inc^[k] c)) := by
  induction k generalizing n c pt with
  | zero =>
    obtain ⟨m, rfl⟩ : ∃ m, n = m + 1 := ⟨n - 1, by omega⟩
    simpa using (ctrBlocks_succ_take_drop enc inc henc m c pt).1
  | succ k ih =>
    obtain ⟨m, rfl⟩ : ∃ m, n = m + 1 := ⟨n - 1, by omega⟩
    have e : 16 * (k + 1) = 16 + 16 * k := by omega
    rw [e, ← List.drop_drop, (ctrBlocks_succ_take_drop enc inc henc m c pt).2,
      ih m (inc c) (pt.drop 16) (by omega) (by simp only [List.length_drop]; omega),
      List.drop_drop, Function.iterate_succ_apply]

/-! ## Block cipher output, counter increment -/

theorem basic_encrypt_length (inp rk : List Nat) : (Basic.encrypt inp rk).length = 16 := by
  simp [Basic.encrypt, storeWord]

theorem opt_encrypt_length (T inp rk : List Nat) : (Opt.encrypt T inp rk).length = 16 := by
  simp [Opt.encrypt, storeWord]

theorem tagBytes_length (E : List Nat) (S : u128) : (tagBytes E S).length = 16 := by
  simp [tagBytes]

theorem list16_eq_map (l : List Nat) (h : l.length = 16) :
    (List.range 16).map (fun i => l.getD i 0) = l := by
  apply List.ext_getElem
  · simp [h]
  · intro i h1 h2
    simp [List.getD_eq_getElem?_getD, List.getElem?_eq_getElem h2]

theorem tagBytes_zero (E : List Nat) (h : E.length = 16) : tagBytes E ⟨0, 0⟩ = E := by
  unfold tagBytes
  simp only [Nat.zero_shiftRight, Nat.zero_and, Nat.xor_zero, ite_self]
  exact list16_eq_map E h

theorem storeWord_eq (v : Nat) :
    storeWord v = [v / 2 ^ 24 % 256, v / 2 ^ 16 % 256, v / 2 ^ 8 % 256, v % 256] := by
  have e : ∀ x : Nat, x &&& 0xFF = x % 256 := fun x => Nat.and_pow_two_sub_one_eq_mod x 8
  simp only [storeWord, e, Nat.shiftRight_eq_div_pow]

theorem foldl_fixed {α β : Type} (f : α → β → α) (s : α) (h : ∀ i, f s i = s) (l : List β) :
    l.foldl f s = s := by
  induction l with
  | nil => rfl
  | cons a l ih => rw [List.foldl_cons, h, ih]

namespace Basic

theorem count32_loop_append (IV t : List Nat) (n i : Nat) (h : IV.length + n ≤ i + 1) :
    count32_loop (IV ++ t) n i = IV ++ count32_loop t n (i - IV.length) := by
  induction n generalizing t i with
  | zero => rfl
  | succ n ih =>
    have hi : IV.length ≤ i := by omega
    simp only [count32_loop, List.getD_append_right _ _ _ _ hi, List.set_append_right _ _ hi]
    split
    · rfl
    · rw [ih _ _ (by omega)]
      have e : i - 1 - IV.length = i - IV.length - 1 := by omega
      rw [e]

theorem count32_loop_four (a b c d : Nat) :
    count32_loop [a, b, c, d] 4 3 =
      if (d + 1) % 256 ≠ 0 then [a, b, c, (d + 1) % 256]
      else if (c + 1) % 256 ≠ 0 then [a, b, (c + 1) % 256, (d + 1) % 256]
      else if (b + 1) % 256 ≠ 0 then [a, (b + 1) % 256, (c + 1) % 256, (d + 1) % 256]
      else if (a + 1) % 256 ≠ 0 then [(a + 1) % 256, (b + 1) % 256, (c + 1) % 256, (d + 1) % 256]
      else [(a + 1) % 256, (b + 1) % 256, (c + 1) % 256, (d + 1) % 256] := rfl

theorem count32_tail (v : Nat) (hv : v < 2 ^ 32) :
    count32_loop (storeWord v) 4 3 = storeWord ((v + 1) % 2 ^ 32) := by
  have hv' : v < 4294967296 := hv
  rw [storeWord_eq, storeWord_eq, count32_loop_four]
  have p24 : (2 : Nat) ^ 24 = 16777216 := by decide
  have p16 : (2 : Nat) ^ 16 = 65536 := by decide
  have p8 : (2 : Nat) ^ 8 = 256 := by decide
  have p32 : (2 : Nat) ^ 32 = 4294967296 := by decide
  rw [p24, p16, p8, p32]
  generalize ha : v / 16777216 % 256 = a
  generalize hb : v / 65536 % 256 = b
  generalize hc : v / 256 % 256 = c
  generalize hd : v % 256 = d
  have e : v = ((a * 256 + b) * 256 + c) * 256 + d := by omega
  have la : a < 256 := by omega
  have lb : b < 256 := by omega
  have lc : c < 256 := by omega
  have ld : d < 256 := by omega
  clear ha hb hc hd hv hv'
  subst e
  by_cases h1 : (d + 1) % 256 ≠ 0
  · rw [if_pos h1]
    simp only [List.cons.injEq, and_true]
    refine ⟨?_, ?_, ?_, ?_⟩ <;> omega
  · rw [if_neg h1]
    by_cases h2 : (c + 1) % 256 ≠ 0
    · rw [if_pos h2]
      simp only [List.cons.injEq, and_true]
      refine ⟨?_, ?_, ?_, ?_⟩ <;> omega
    · rw [if_neg h2]
      by_cases h3 : (b + 1) % 256 ≠ 0
      · rw [if_pos h3]
        simp only [List.cons.injEq, and_true]
        refine ⟨?_, ?_, ?_, ?_⟩ <;> omega
      · rw [if_neg h3, ite_self]
        simp only [List.cons.injEq, and_true]
        refine ⟨?_, ?_, ?_, ?_⟩ <;> omega

theorem count32_append (IV : List Nat) (hIV : IV.length = 12) (v : Nat) (hv : v < 2 ^ 32) :
    count32 (IV ++ storeWord v) = IV ++ storeWord ((v + 1) % 2 ^ 32) := by
  unfold count32
  rw [count32_loop_append IV _ 4 15 (by omega), hIV]
  exact congrArg _ (count32_tail v hv)

theorem count32_iterate (IV : List Nat) (hIV : IV.length = 12) (v k : Nat)
    (hv : v + k < 2 ^ 32) :
    count32^[k] (IV ++ storeWord v) = IV ++ storeWord (v + k) := by
  induction k generalizing v with
  | zero => rfl
  | succ k ih =>
    rw [Function.iterate_succ_apply, count32_append IV hIV v (by omega),
      Nat.mod_eq_of_lt (by omega), ih (v + 1) (by omega)]
    congr 2
    omega

theorem GF128_step_zero (Y : u128) (i : Nat) :
    GF128_step Y (⟨0, 0⟩, ⟨0, 0⟩) i = (⟨0, 0⟩, ⟨0, 0⟩) := by
  simp [GF128_step]

theorem GF128_mul_zero (Y : u128) : GF128_mul ⟨0, 0⟩ Y = ⟨0, 0⟩ := by
  unfold GF128_mul
  rw [foldl_fixed _ _ (GF128_step_zero Y)]

theorem GHASH_zero_block (H : u128) : GHASH H (List.replicate 16 0) = ⟨0, 0⟩ := by
  have e : load64 [0, 0, 0, 0, 0, 0, 0, 0, 0, 0, 0, 0, 0, 0, 0, 0] 0 = 0 := by decide
  have e8 : load64 [0, 0, 0, 0, 0, 0, 0, 0, 0, 0, 0, 0, 0, 0, 0, 0] 8 = 0 := by decide
  simp [GHASH, List.range_succ, e, e8, GF128_mul_zero]

end Basic

/-! ## Evaluations for the fixed master key -/

/-- The round keys of the fixed master key. -/
theorem Basic_expand_MK :
    Basic.expand MK =
      [4045506297, 1097214817, 1516941722, 2074681463, 913531124, 2003438689, 3065743795,
        611725649, 2770350204, 3076017597, 3272037357, 2128960343, 1770545292, 819500471,
        1153045679, 272930209, 3508581416, 1941266339, 3431418214, 2451850297, 3902694431,
        2563375450, 3340079200, 2581724462, 3080443916, 488707504, 237144811, 4051176577,
        1116550740, 1646867606, 30372581, 2435096594] := by
  decide!

/-- The optimized key schedule gives the same round keys for the fixed master key. -/
theorem Opt_expand_MK :
    Opt.expand MK =
      [4045506297, 1097214817, 1516941722, 2074681463, 913531124, 2003438689, 3065743795,
        611725649, 2770350204, 3076017597, 3272037357, 2128960343, 1770545292, 819500471,
        1153045679, 272930209, 3508581416, 1941266339, 3431418214, 2451850297, 3902694431,
        2563375450, 3340079200, 2581724462, 3080443916, 488707504, 237144811, 4051176577,
        1116550740, 1646867606, 30372581, 2435096594] := by
  decide!

/-- The hash subkey for the round keys of the fixed master key. -/
theorem GCM_H_MK :
    Basic.GCM_H (Basic.expand MK) = ⟨2771952836232159948, 10904678218100679210⟩ := by
  rw [Basic_expand_MK]
  decide!

/-- The hash subkey the optimized file computes with its single table for the fixed master
key. -/
theorem Opt_GCM_H_MK :
    Opt.GCM_H Opt.init_T (Opt.expand MK) = ⟨10199964371448879577, 9259542123880162468⟩ := by
  rw [Opt_expand_MK]
  decide!

/-! ## Claims on the GCM routines -/

theorem basic_GCM_ctr_length (rk J0 pt : List Nat) : (Basic.GCM_ctr rk J0 pt).length = pt.length :=
  ctrBlocks_length _ _ (fun c => basic_encrypt_length c rk) _ _ _ (by omega)

theorem opt_GCM_ctr_length (T rk J0 pt : List Nat) :
    (Opt.GCM_ctr T rk J0 pt).length = pt.length :=
  ctrBlocks_length _ _ (fun c => opt_encrypt_length T c rk) _ _ _ (by omega)

theorem basic_GCM_ctr_involutive (rk J0 pt : List Nat) :
    Basic.GCM_ctr rk J0 (Basic.GCM_ctr rk J0 pt) = pt := by
  have h := basic_GCM_ctr_length rk J0 pt
  unfold Basic.GCM_ctr at h ⊢
  rw [h]
  exact ctrBlocks_involutive _ _ (fun c => basic_encrypt_length c rk) _ _ _ (by omega)

theorem opt_GCM_ctr_involutive (T rk J0 pt : List Nat) :
    Opt.GCM_ctr T rk J0 (Opt.GCM_ctr T rk J0 pt) = pt := by
  have h := opt_GCM_ctr_length T rk J0 pt
  unfold Opt.GCM_ctr at h ⊢
  rw [h]
  exact ctrBlocks_involutive _ _ (fun c => opt_encrypt_length T c rk) _ _ _ (by omega)

/-- Claim C2, evaluated at the failing input. With the table built by `init_T`, the
single-table `encrypt` of `project1-b.cpp` and the direct `encrypt` of the basic variant
return different bytes on the standard example: block `MK` under the round keys
`expand(MK)`. -/
theorem c2_single_table_encrypt_diverges :
    Opt.encrypt Opt.init_T MK (Opt.expand MK) =
        [0xbc, 0x9e, 0xf8, 0xda, 0x9e, 0xbc, 0xda, 0xf8, 0x70, 0x52, 0x34, 0x16, 0xd8, 0xfa,
          0x9c, 0xbe] ∧
      Basic.encrypt MK (Opt.expand MK) =
        [0x68, 0x1e, 0xdf, 0x34, 0xd2, 0x06, 0x96, 0x5e, 0x86, 0xb3, 0xe9, 0x4f, 0x53, 0x6e,
          0x42, 0x46] := by
  rw [Opt_expand_MK]
  constructor <;> decide!

/-- Claim C4, evaluated at the failing input. For the round keys `expand(MK)`, a 12-byte
zero IV and the plaintext `"SDUCST"`, the optimized `GCM` (under either reading of its
over-wide shifts) and the basic `GCM` return different ciphertexts. -/
theorem c4_gcm_variants_diverge :
    (Opt.GCM Opt.init_T true (Opt.expand MK) (List.replicate 12 0) sducst).1 =
        [159, 136, 153, 141, 247, 240] ∧
      (Opt.GCM Opt.init_T false (Opt.expand MK) (List.replicate 12 0) sducst).1 =
        [159, 136, 153, 141, 247, 240] ∧
      (Basic.GCM (Basic.expand MK) (List.replicate 12 0) sducst).1 =
        [224, 87, 57, 71, 29, 193] ∧
      Opt.expand MK = Basic.expand MK := by
  have h : (Opt.GCM Opt.init_T true (Opt.expand MK) (List.replicate 12 0) sducst).1 =
      [159, 136, 153, 141, 247, 240] := by
    rw [Opt_expand_MK]
    decide!
  have j : ∀ wrap, Opt.GCM_J0 Opt.init_T wrap (Opt.expand MK) (List.replicate 12 0) =
      (List.replicate 12 0).take 12 ++ [0, 0, 0, 1] := by
    intro wrap
    unfold Opt.GCM_J0
    rw [if_pos (by decide)]
  have e : (Opt.GCM Opt.init_T false (Opt.expand MK) (List.replicate 12 0) sducst).1 =
      (Opt.GCM Opt.init_T true (Opt.expand MK) (List.replicate 12 0) sducst).1 := by
    show Opt.GCM_ctr Opt.init_T (Opt.expand MK)
        (Opt.GCM_J0 Opt.init_T false (Opt.expand MK) (List.replicate 12 0)) sducst =
      Opt.GCM_ctr Opt.init_T (Opt.expand MK)
        (Opt.GCM_J0 Opt.init_T true (Opt.expand MK) (List.replicate 12 0)) sducst
    rw [j false, j true]
  refine ⟨h, e.trans h, ?_, ?_⟩
  · rw [Basic_expand_MK]
    decide!
  · rw [Opt_expand_MK, Basic_expand_MK]

/-- Claim C5. Round trip through the counter mode: in each GCM variant, running the routine
with the same round keys and IV on the ciphertext it returned for `pt` gives back `pt` as
ciphertext output. -/
theorem c5_gcm_ctr_round_trip (T : List Nat) (wrap : Bool) (rk IV pt : List Nat) :
    (Basic.GCM rk IV (Basic.GCM rk IV pt).1).1 = pt ∧
      (Opt.GCM T wrap rk IV (Opt.GCM T wrap rk IV pt).1).1 = pt :=
  ⟨basic_GCM_ctr_involutive rk _ pt, opt_GCM_ctr_involutive T rk _ pt⟩

/-- Claim C6. In each GCM variant the ciphertext has the length of the plaintext (empty and
partial final blocks included) and the tag has 16 bytes. -/
theorem c6_gcm_output_lengths (T : List Nat) (wrap : Bool) (rk IV pt : List Nat) :
    (Basic.GCM rk IV pt).1.length = pt.length ∧ (Basic.GCM rk IV pt).2.length = 16 ∧
      (Opt.GCM T wrap rk IV pt).1.length = pt.length ∧
      (Opt.GCM T wrap rk IV pt).2.length = 16 :=
  ⟨basic_GCM_ctr_length rk _ pt, tagBytes_length _ _, opt_GCM_ctr_length T rk _ pt,
    tagBytes_length _ _⟩

/-- Claim C7. In the basic GCM with a 12-byte IV, `J0 = IV ‖ 00 00 00 01`, and the `k`-th
16-byte (or final partial) ciphertext block is the corresponding plaintext block XORed with
the leading bytes of `encrypt(IV ‖ BE32(k + 2))`, for every block index `k` with
`k + 2 < 2^32`: the keystream starts at `J0 + 1`. -/
theorem c7_basic_gcm_keystream (rk IV pt : List Nat) (k : Nat) (hIV : IV.length = 12)
    (hk : 16 * k < pt.length) (hk2 : k + 2 < 2 ^ 32) :
    Basic.GCM_J0 rk IV = IV ++ [0, 0, 0, 1] ∧
      ((Basic.GCM rk IV pt).1.drop (16 * k)).take 16 =
        List.zipWith (fun p x => p ^^^ x) ((pt.drop (16 * k)).take 16)
          (Basic.encrypt (IV ++ storeWord (k + 2)) rk) := by
  have hJ : Basic.GCM_J0 rk IV = IV ++ storeWord 1 := by
    unfold Basic.GCM_J0
    rw [if_pos hIV, List.take_of_length_le (by omega)]
    rfl
  refine ⟨hJ, ?_⟩
  show ((Basic.GCM_ctr rk (Basic.GCM_J0 rk IV) pt).drop (16 * k)).take 16 = _
  unfold Basic.GCM_ctr
  rw [ctrBlocks_block _ _ (fun c => basic_encrypt_length c rk) k _ _ _ (by omega) hk,
    ← Function.iterate_succ_apply, hJ, Basic.count32_iterate IV hIV 1 (k + 1) (by omega)]
  have e : 1 + (k + 1) = k + 2 := by omega
  rw [e]

/-- Witness for claim C7: round keys `expand(MK)`, a 12-byte zero IV, plaintext `"SDUCST"`,
block 0. -/
theorem c7_basic_gcm_keystream_witness :
    Basic.GCM_J0 (Basic.expand MK) (List.replicate 12 0) = List.replicate 12 0 ++ [0, 0, 0, 1] ∧
      ((Basic.GCM (Basic.expand MK) (List.replicate 12 0) sducst).1.drop (16 * 0)).take 16 =
        List.zipWith (fun p x => p ^^^ x) ((sducst.drop (16 * 0)).take 16)
          (Basic.encrypt (List.replicate 12 0 ++ storeWord (0 + 2)) (Basic.expand MK)) :=
  c7_basic_gcm_keystream (Basic.expand MK) (List.replicate 12 0) sducst 0 (by decide)
    (by decide) (by decide)

/-- Claim C8, evaluated at the failing input. For the round keys `expand(MK)` and the
one-byte IV `00`, the optimized `GCM` takes `J0 = GHASH(H, IV)`, which is the zero block,
while the hash of `IV ‖ zero padding ‖ 8 zero bytes ‖ 64-bit bit length` is not zero, whether
computed with the optimized `GHASH` (under either reading of its over-wide shifts) or with
the basic one. -/
theorem c8_optimized_J0_skips_length_block :
    (∀ wrap, Opt.GCM_J0 Opt.init_T wrap (Opt.expand MK) [0] = List.replicate 16 0) ∧
      Opt.GHASH true (Opt.GCM_H Opt.init_T (Opt.expand MK))
          ([0] ++ List.replicate 15 0 ++ List.replicate 8 0 ++ store64 8) =
        ⟨13507196012540661513, 12912720861727756047⟩ ∧
      Opt.GHASH false (Opt.GCM_H Opt.init_T (Opt.expand MK))
          ([0] ++ List.replicate 15 0 ++ List.replicate 8 0 ++ store64 8) =
        ⟨4053239664633446414, 10606877852514062087⟩ ∧
      Basic.GHASH (Opt.GCM_H Opt.init_T (Opt.expand MK))
          ([0] ++ List.replicate 15 0 ++ List.replicate 8 0 ++ store64 8) =
        ⟨7076055744655593225, 4476048193471736172⟩ ∧
      Basic.GCM_J0 (Basic.expand MK) [0] =
        [61, 81, 202, 201, 148, 39, 149, 198, 0, 68, 195, 164, 7, 199, 47, 31] := by
  refine ⟨?_, ?_, ?_, ?_, ?_⟩
  · intro wrap
    unfold Opt.GCM_J0
    rw [Opt_GCM_H_MK]
    cases wrap <;> decide!
  · rw [Opt_GCM_H_MK]
    decide!
  · rw [Opt_GCM_H_MK]
    decide!
  · rw [Opt_GCM_H_MK]
    decide!
  · unfold Basic.GCM_J0
    rw [GCM_H_MK]
    decide!

/-- Claim C9. In the basic GCM, sealing the empty plaintext gives the empty ciphertext and
the tag `encrypt(J0) ^ GHASH(H, trailer)`, where the authenticated data is the single
all-zero 16-byte trailer block; the trailer is hashed, its hash is zero, and the tag equals
`encrypt(J0)` byte for byte. -/
theorem c9_basic_gcm_empty_plaintext (rk IV : List Nat) :
    (Basic.GCM rk IV []).1 = [] ∧
      authData [] = List.replicate 16 0 ∧
      (Basic.GCM rk IV []).2 =
        tagBytes (Basic.encrypt (Basic.GCM_J0 rk IV) rk)
          (Basic.GHASH (Basic.GCM_H rk) (List.replicate 16 0)) ∧
      Basic.GHASH (Basic.GCM_H rk) (List.replicate 16 0) =
        Basic.GF128_mul ⟨0, 0⟩ (Basic.GCM_H rk) ∧
      (Basic.GCM rk IV []).2 = Basic.encrypt (Basic.GCM_J0 rk IV) rk := by
  have hA : authData [] = List.replicate 16 0 := by decide
  have hT : (Basic.GCM rk IV []).2 =
      tagBytes (Basic.encrypt (Basic.GCM_J0 rk IV) rk)
        (Basic.GHASH (Basic.GCM_H rk) (List.replicate 16 0)) := by
    show tagBytes _ (Basic.GHASH _ (authData [])) = _
    rw [hA]
  refine ⟨rfl, hA, hT, ?_, ?_⟩
  · rw [Basic.GHASH_zero_block, Basic.GF128_mul_zero]
  · rw [hT, Basic.GHASH_zero_block, tagBytes_zero _ (basic_encrypt_length _ _)]

/-! ## Linearity of the field multiplication -/

theorem u128_xor_wf (a b : u128) (ha : a.wf) (hb : b.wf) : (a.xor b).wf :=
  ⟨Nat.xor_lt_two_pow ha.1 hb.1, Nat.xor_lt_two_pow ha.2 hb.2⟩

theorem u128_xor_self (a : u128) : a.xor a = ⟨0, 0⟩ := by
  simp [u128.xor]

theorem u128_xor_zero (a : u128) : a.xor ⟨0, 0⟩ = a := by
  simp [u128.xor]

theorem u128_xor_xor_xor (a b c d : u128) :
    (a.xor b).xor (c.xor d) = (a.xor c).xor (b.xor d) := by
  simp only [u128.xor, u128.mk.injEq]
  constructor <;> ac_rfl

theorem xor_cancel_both (a b r : Nat) : (a ^^^ r) ^^^ (b ^^^ r) = a ^^^ b := by
  apply Nat.eq_of_testBit_eq
  intro j
  simp only [Nat.testBit_xor]
  cases a.testBit j <;> cases b.testBit j <;> cases r.testBit j <;> rfl

theorem shiftRight_one_xor (a b : Nat) : (a ^^^ b) >>> 1 = (a >>> 1) ^^^ (b >>> 1) := by
  apply Nat.eq_of_testBit_eq
  intro j
  simp only [Nat.testBit_shiftRight, Nat.testBit_xor]

theorem low_shift_xor (l1 l2 h1 h2 : Nat) (hl1 : l1 < 2 ^ 64) (hl2 : l2 < 2 ^ 64) :
    ((l1 ^^^ l2) >>> 1) ||| (((h1 ^^^ h2) <<< 63) % 2 ^ 64) =
      ((l1 >>> 1) ||| ((h1 <<< 63) % 2 ^ 64)) ^^^ ((l2 >>> 1) ||| ((h2 <<< 63) % 2 ^ 64)) := by
  apply Nat.eq_of_testBit_eq
  intro j
  simp only [Nat.testBit_or, Nat.testBit_xor, Nat.testBit_mod_two_pow, Nat.testBit_shiftLeft,
    Nat.testBit_shiftRight]
  by_cases h : 63 ≤ j
  · have e1 : l1.testBit (1 + j) = false := testBit_of_lt_of_le hl1 (by omega)
    have e2 : l2.testBit (1 + j) = false := testBit_of_lt_of_le hl2 (by omega)
    simp only [e1, e2, Bool.false_or, Bool.xor_false]
    by_cases h64 : j < 64 <;> simp [h64, h]
  · simp [h]

theorem lsb_xor (a b : Nat) :
    ((a ^^^ b) &&& 1 ≠ 0) ↔ ¬ ((a &&& 1 ≠ 0) ↔ (b &&& 1 ≠ 0)) := by
  have e : ∀ x : Nat, x &&& 1 = x % 2 := fun x => Nat.and_pow_two_sub_one_eq_mod x 1
  have hx := @Nat.xor_mod_two_eq_one a b
  rw [e, e, e]
  have ha := Nat.mod_two_eq_zero_or_one a
  have hb := Nat.mod_two_eq_zero_or_one b
  have hab := Nat.mod_two_eq_zero_or_one (a ^^^ b)
  constructor
  · intro h1
    have : (a ^^^ b) % 2 = 1 := by omega
    have h2 := hx.mp this
    intro h3
    apply h2
    constructor <;> intro h4 <;> omega
  · intro h1 h0
    apply h1
    have hne : ¬ ((a ^^^ b) % 2 = 1) := by omega
    have := (not_congr hx).mp hne
    have h5 := not_not.mp this
    constructor <;> intro h4 <;> omega

namespace Basic

theorem GF128_step_eq (Y : u128) (s : u128 × u128) (i : Nat) :
    GF128_step Y s i = (if ybit Y i then s.1.xor s.2 else s.1, mulX s.2) := by
  unfold GF128_step ybit mulX u128.xor
  by_cases hi : i < 64 <;> simp only [hi, if_true, if_false, decide_eq_true_eq]

theorem mulX_wf (V : u128) (hV : V.wf) : (mulX V).wf := by
  have h1 : V.high >>> 1 < 2 ^ 64 := by
    rw [Nat.shiftRight_eq_div_pow]
    exact Nat.lt_of_le_of_lt (Nat.div_le_self _ _) hV.1
  have h2 : (V.low >>> 1) ||| ((V.high <<< 63) % 2 ^ 64) < 2 ^ 64 := by
    apply Nat.or_lt_two_pow _ (Nat.mod_lt _ (by decide))
    rw [Nat.shiftRight_eq_div_pow]
    exact Nat.lt_of_le_of_lt (Nat.div_le_self _ _) hV.2
  unfold mulX
  split
  · exact ⟨Nat.xor_lt_two_pow h1 (by decide), h2⟩
  · exact ⟨h1, h2⟩

theorem mulX_xor (V1 V2 : u128) (h1 : V1.wf) (h2 : V2.wf) :
    mulX (V1.xor V2) = (mulX V1).xor (mulX V2) := by
  have hl := low_shift_xor V1.low V2.low V1.high V2.high h1.2 h2.2
  have hh := shiftRight_one_xor V1.high V2.high
  have hb := lsb_xor V1.low V2.low
  unfold mulX
  simp only [u128.xor] at hb ⊢
  by_cases c1 : V1.low &&& 1 ≠ 0 <;> by_cases c2 : V2.low &&& 1 ≠ 0
  · have c : ¬ ((V1.low ^^^ V2.low) &&& 1 ≠ 0) := fun h => (hb.mp h) ⟨fun _ => c2, fun _ => c1⟩
    rw [if_neg c, if_pos c1, if_pos c2, hl, hh]
    simp only [u128.mk.injEq, and_true]
    exact (xor_cancel_both _ _ _).symm
  · have c : (V1.low ^^^ V2.low) &&& 1 ≠ 0 := hb.mpr (fun h => c2 (h.mp c1))
    rw [if_pos c, if_pos c1, if_neg c2, hl, hh]
    simp only [u128.mk.injEq, and_true]
    ac_rfl
  · have c : (V1.low ^^^ V2.low) &&& 1 ≠ 0 := hb.mpr (fun h => c1 (h.mpr c2))
    rw [if_pos c, if_neg c1, if_pos c2, hl, hh]
    simp only [u128.mk.injEq, and_true]
    ac_rfl
  · have c : ¬ ((V1.low ^^^ V2.low) &&& 1 ≠ 0) :=
      fun h => (hb.mp h) ⟨fun h' => absurd h' c1, fun h' => absurd h' c2⟩
    rw [if_neg c, if_neg c1, if_neg c2, hl, hh]

theorem GF128_fold_xor (Y : u128) (l : List Nat) (Z1 V1 Z2 V2 : u128) (h1 : V1.wf)
    (h2 : V2.wf) :
    (l.foldl (GF128_step Y) (Z1.xor Z2, V1.xor V2)).1 =
      (l.foldl (GF128_step Y) (Z1, V1)).1.xor (l.foldl (GF128_step Y) (Z2, V2)).1 := by
  induction l generalizing Z1 V1 Z2 V2 with
  | nil => rfl
  | cons i l ih =>
    simp only [List.foldl_cons, GF128_step_eq]
    rw [mulX_xor V1 V2 h1 h2]
    cases ybit Y i
    · exact ih _ _ _ _ (mulX_wf V1 h1) (mulX_wf V2 h2)
    · simp only [if_true]
      rw [u128_xor_xor_xor]
      exact ih _ _ _ _ (mulX_wf V1 h1) (mulX_wf V2 h2)

theorem GF128_mul_xor (X1 X2 Y : u128) (h1 : X1.wf) (h2 : X2.wf) :
    GF128_mul (X1.xor X2) Y = (GF128_mul X1 Y).xor (GF128_mul X2 Y) := by
  have h := GF128_fold_xor Y (List.range 128) ⟨0, 0⟩ X1 ⟨0, 0⟩ X2 h1 h2
  rw [u128_xor_self] at h
  exact h

theorem GF128_fold_wf (Y : u128) (l : List Nat) (Z V : u128) (hZ : Z.wf) (hV : V.wf) :
    (l.foldl (GF128_step Y) (Z, V)).1.wf := by
  induction l generalizing Z V with
  | nil => exact hZ
  | cons i l ih =>
    simp only [List.foldl_cons, GF128_step_eq]
    cases ybit Y i
    · exact ih _ _ hZ (mulX_wf V hV)
    · exact ih _ _ (u128_xor_wf Z V hZ hV) (mulX_wf V hV)

theorem GF128_mul_wf (X Y : u128) (hX : X.wf) : (GF128_mul X Y).wf :=
  GF128_fold_wf Y _ _ _ ⟨by decide, by decide⟩ hX

end Basic

/-! ## Byte buffers, block loads and the tag bytes -/

theorem getD_lt_of_forall (l : List Nat) (h : ∀ x ∈ l, x < 256) (j : Nat) : l.getD j 0 < 256 := by
  by_cases hj : j < l.length
  · rw [List.getD_eq_getElem _ _ hj]
    exact h _ (List.getElem_mem _)
  · rw [List.getD_eq_default _ _ (by omega)]
    decide

theorem getD_set_self (l : List Nat) (i v : Nat) (hi : i < l.length) :
    (l.set i v).getD i 0 = v := by
  simp [List.getD_eq_getElem?_getD, List.getElem?_set, hi]

theorem getD_set_of_ne (l : List Nat) (i j v : Nat) (h : i ≠ j) :
    (l.set i v).getD j 0 = l.getD j 0 := by
  simp [List.getD_eq_getElem?_getD, List.getElem?_set, h]

theorem getD_replicate_zero (n j : Nat) : (List.replicate n 0).getD j 0 = 0 := by
  by_cases hj : j < n
  · rw [List.getD_eq_getElem _ _ (by simpa using hj)]
    simp
  · rw [List.getD_eq_default _ _ (by simpa using hj)]

theorem storeWord_lt (v : Nat) : ∀ x ∈ storeWord v, x < 256 := by
  intro x hx
  simp only [storeWord, List.mem_cons, List.mem_singleton, List.not_mem_nil, or_false] at hx
  rcases hx with rfl | rfl | rfl | rfl <;> exact and_255_lt _

theorem store64_lt (v : Nat) : ∀ x ∈ store64 v, x < 256 := by
  intro x hx
  simp only [store64, List.mem_map] at hx
  obtain ⟨i, _, rfl⟩ := hx
  exact and_255_lt _

theorem basic_encrypt_lt (inp rk : List Nat) : ∀ x ∈ Basic.encrypt inp rk, x < 256 := by
  intro x hx
  simp only [Basic.encrypt, List.mem_append] at hx
  rcases hx with ((hx | hx) | hx) | hx <;> exact storeWord_lt _ x hx

theorem zipWith_xor_lt (p ks : List Nat) (hp : ∀ x ∈ p, x < 256) (hk : ∀ x ∈ ks, x < 256) :
    ∀ x ∈ List.zipWith (fun a k => a ^^^ k) p ks, x < 256 := by
  induction p generalizing ks with
  | nil => simp
  | cons a p ih =>
    cases ks with
    | nil => simp
    | cons k ks =>
      intro x hx
      simp only [List.zipWith_cons_cons, List.mem_cons] at hx
      rcases hx with rfl | hx
      · exact Nat.xor_lt_two_pow (n := 8) (hp a (List.mem_cons_self _ _))
          (hk k (List.mem_cons_self _ _))
      · exact ih ks (fun y hy => hp y (List.mem_cons_of_mem _ hy))
          (fun y hy => hk y (List.mem_cons_of_mem _ hy)) x hx

theorem ctrBlocks_lt (enc inc : List Nat → List Nat) (henc : ∀ c, ∀ x ∈ enc c, x < 256)
    (n : Nat) (c pt : List Nat) (hpt : ∀ x ∈ pt, x < 256) :
    ∀ x ∈ ctrBlocks enc inc n c pt, x < 256 := by
  induction n generalizing c pt with
  | zero => intro x hx; simp [ctrBlocks] at hx
  | succ n ih =>
    intro x hx
    rw [ctrBlocks_succ, List.mem_append] at hx
    rcases hx with hx | hx
    · exact zipWith_xor_lt _ _ (fun y hy => hpt y (List.mem_of_mem_take hy)) (henc c) x hx
    · exact ih (inc c) (pt.drop 16) (fun y hy => hpt y (List.mem_of_mem_drop hy)) x hx

theorem authData_lt (data : List Nat) (h : ∀ x ∈ data, x < 256) :
    ∀ x ∈ authData data, x < 256 := by
  intro x hx
  unfold authData at hx
  simp only [List.mem_append] at hx
  rcases hx with (hx | hx) | hx
  · split at hx
    · rcases List.mem_append.mp hx with hx | hx
      · exact h x hx
      · rw [(List.mem_replicate.mp hx).2]; decide
    · exact h x hx
  · rw [(List.mem_replicate.mp hx).2]; decide
  · exact store64_lt _ x hx

theorem authData_length (data : List Nat) (h1 : 1 ≤ data.length) (h16 : data.length ≤ 16) :
    (authData data).length = 32 := by
  unfold authData
  simp only [store64, List.length_append, List.length_replicate, List.length_map,
    List.length_range]
  split
  · simp only [List.length_append, List.length_replicate]; omega
  · omega

theorem authData_set (data : List Nat) (i v : Nat) (hi : i < data.length) :
    authData (data.set i v) = (authData data).set i v := by
  unfold authData
  simp only [List.length_set]
  split
  · rw [List.append_assoc, List.append_assoc, List.append_assoc, List.append_assoc,
      List.set_append_left _ _ hi]
  · rw [List.append_assoc, List.append_assoc, List.set_append_left _ _ hi]

theorem load_step_xor (x1 x2 b1 b2 : Nat) (hb1 : b1 < 256) (hb2 : b2 < 256) :
    (((x1 ^^^ x2) <<< 8) % 2 ^ 64) ||| (b1 ^^^ b2) =
      (((x1 <<< 8) % 2 ^ 64) ||| b1) ^^^ (((x2 <<< 8) % 2 ^ 64) ||| b2) := by
  have h1 : b1 < 2 ^ 8 := hb1
  have h2 : b2 < 2 ^ 8 := hb2
  apply Nat.eq_of_testBit_eq
  intro j
  simp only [Nat.testBit_or, Nat.testBit_xor, Nat.testBit_mod_two_pow, Nat.testBit_shiftLeft]
  by_cases h : 8 ≤ j
  · have e1 : b1.testBit j = false := testBit_of_lt_of_le h1 h
    have e2 : b2.testBit j = false := testBit_of_lt_of_le h2 h
    simp only [e1, e2, Bool.or_false, Bool.xor_false]
    by_cases h64 : j < 64 <;> simp [h64, h]
  · simp [h]

theorem load_fold_xor (A B C : List Nat) (off : Nat) (l : List Nat)
    (h : ∀ j ∈ l, A.getD (off + j) 0 = B.getD (off + j) 0 ^^^ C.getD (off + j) 0)
    (hB : ∀ j, B.getD j 0 < 256) (hC : ∀ j, C.getD j 0 < 256) (xb xc : Nat) :
    l.foldl (fun x j => ((x <<< 8) % 2 ^ 64) ||| A.getD (off + j) 0) (xb ^^^ xc) =
      l.foldl (fun x j => ((x <<< 8) % 2 ^ 64) ||| B.getD (off + j) 0) xb ^^^
        l.foldl (fun x j => ((x <<< 8) % 2 ^ 64) ||| C.getD (off + j) 0) xc := by
  induction l generalizing xb xc with
  | nil => rfl
  | cons j l ih =>
    simp only [List.foldl_cons]
    rw [h j (List.mem_cons_self _ _), load_step_xor _ _ _ _ (hB _) (hC _)]
    exact ih (fun k hk => h k (List.mem_cons_of_mem _ hk)) _ _

theorem load64_xor (A B C : List Nat) (off : Nat)
    (h : ∀ j, A.getD j 0 = B.getD j 0 ^^^ C.getD j 0)
    (hB : ∀ j, B.getD j 0 < 256) (hC : ∀ j, C.getD j 0 < 256) :
    load64 A off = load64 B off ^^^ load64 C off := by
  have := load_fold_xor A B C off (List.range 8) (fun j _ => h _) hB hC 0 0
  simpa [load64] using this

theorem load_fold_lt (A : List Nat) (off : Nat) (hA : ∀ j, A.getD j 0 < 256) (l : List Nat)
    (x : Nat) (hx : x < 2 ^ 64) :
    l.foldl (fun x j => ((x <<< 8) % 2 ^ 64) ||| A.getD (off + j) 0) x < 2 ^ 64 := by
  induction l generalizing x with
  | nil => exact hx
  | cons j l ih =>
    simp only [List.foldl_cons]
    exact ih _ (Nat.or_lt_two_pow (Nat.mod_lt _ (by decide))
      (Nat.lt_trans (hA _) (by decide)))

theorem load64_lt (A : List Nat) (off : Nat) (hA : ∀ j, A.getD j 0 < 256) :
    load64 A off < 2 ^ 64 :=
  load_fold_lt A off hA _ 0 (by decide)

theorem bytes64_inj (x y : Nat) (hx : x < 2 ^ 64) (hy : y < 2 ^ 64)
    (h : ∀ i, i < 8 → (x >>> (56 - 8 * i)) &&& 0xFF = (y >>> (56 - 8 * i)) &&& 0xFF) : x = y := by
  have e : ∀ z : Nat, z &&& 0xFF = z % 256 := fun z => Nat.and_pow_two_sub_one_eq_mod z 8
  have h0 := h 0 (by decide)
  have h1 := h 1 (by decide)
  have h2 := h 2 (by decide)
  have h3 := h 3 (by decide)
  have h4 := h 4 (by decide)
  have h5 := h 5 (by decide)
  have h6 := h 6 (by decide)
  have h7 := h 7 (by decide)
  simp only [e, Nat.shiftRight_eq_div_pow] at h0 h1 h2 h3 h4 h5 h6 h7
  norm_num at h0 h1 h2 h3 h4 h5 h6 h7
  have hx' : x < 18446744073709551616 := hx
  have hy' : y < 18446744073709551616 := hy
  omega

theorem tagBytes_inj (E : List Nat) (S S' : u128) (hS : S.wf) (hS' : S'.wf)
    (h : tagBytes E S = tagBytes E S') : S = S' := by
  unfold tagBytes at h
  have key := List.map_inj_left.mp h
  have hh : S.high = S'.high := by
    apply bytes64_inj _ _ hS.1 hS'.1
    intro i hi
    have := key i (List.mem_range.mpr (by omega))
    have hi8 : i < 8 := hi
    simp only [hi8, if_true] at this
    exact Nat.xor_right_inj.mp this
  have hl : S.low = S'.low := by
    apply bytes64_inj _ _ hS.2 hS'.2
    intro i hi
    have := key (i + 8) (List.mem_range.mpr (by omega))
    have hi8 : ¬ (i + 8 < 8) := by omega
    simp only [hi8, if_false] at this
    have e : 120 - 8 * (i + 8) = 56 - 8 * i := by omega
    rw [e] at this
    exact Nat.xor_right_inj.mp this
  cases S; cases S'
  simp only at hh hl
  rw [hh, hl]

/-! ## Tamper detection -/

namespace Basic

/-- The hash of a two-block buffer: two multiplications by `H`. -/
theorem GHASH_two_blocks (H : u128) (data : List Nat) (h : data.length = 32) :
    GHASH H data =
      GF128_mul ((GF128_mul ⟨load64 data 0, load64 data 8⟩ H).xor
        ⟨load64 (data.drop 16) 0, load64 (data.drop 16) 8⟩) H := by
  simp [GHASH, h, List.range_succ, u128.xor]

end Basic

/-! ## One-bit values and commutativity of the field multiplication -/

theorem u128_zero_xor (a : u128) : u128.xor ⟨0, 0⟩ a = a := by
  simp [u128.xor]


theorem shiftRight_and_one_ne_zero (z k : Nat) :
    decide ((z >>> k) &&& 1 ≠ 0) = z.testBit k := by
  unfold Nat.testBit
  rw [Nat.and_comm]
  cases h : decide (1 &&& z >>> k = 0) <;> simp_all [bne]

theorem ybit_unitBit : ∀ i, i < 128 → ∀ j, j < 128 →
    Basic.ybit (Basic.unitBit j) i = decide (i = j) := by
  intro i hi j hj
  unfold Basic.ybit Basic.unitBit
  by_cases h1 : i < 64 <;> by_cases h2 : j < 64
  · simp only [h1, h2, if_true, shiftRight_and_one_ne_zero, Nat.testBit_two_pow]
    refine decide_eq_decide.mpr ⟨fun h => ?_, fun h => ?_⟩ <;> omega
  · have hne : ¬ i = j := by omega
    simp only [h1, h2, if_true, if_false, shiftRight_and_one_ne_zero, Nat.zero_testBit, hne,
      decide_False]
  · have hne : ¬ i = j := by omega
    simp only [h1, h2, if_true, if_false, shiftRight_and_one_ne_zero, Nat.zero_testBit, hne,
      decide_False]
  · simp only [h1, h2, if_false, shiftRight_and_one_ne_zero, Nat.testBit_two_pow]
    refine decide_eq_decide.mpr ⟨fun h => ?_, fun h => ?_⟩ <;> omega

theorem mulX_unitBit : ∀ i, i < 127 → Basic.mulX (Basic.unitBit i) = Basic.unitBit (i + 1) := by
  decide!

theorem mulX_iterate_E (i : Nat) (hi : i < 128) :
    Basic.mulX^[i] Basic.GF128_E = Basic.unitBit i := by
  induction i with
  | zero => rfl
  | succ i ih =>
    rw [Function.iterate_succ_apply', ih (by omega), mulX_unitBit i (by omega)]

theorem mulX_iterate_wf (V : u128) (hV : V.wf) (n : Nat) : (Basic.mulX^[n] V).wf := by
  induction n with
  | zero => exact hV
  | succ n ih =>
    rw [Function.iterate_succ_apply']
    exact Basic.mulX_wf _ ih

theorem mulX_iterate_xor (a b : u128) (ha : a.wf) (hb : b.wf) (n : Nat) :
    Basic.mulX^[n] (a.xor b) = (Basic.mulX^[n] a).xor (Basic.mulX^[n] b) := by
  induction n with
  | zero => rfl
  | succ n ih =>
    rw [Function.iterate_succ_apply', Function.iterate_succ_apply',
      Function.iterate_succ_apply', ih,
      Basic.mulX_xor _ _ (mulX_iterate_wf a ha n) (mulX_iterate_wf b hb n)]

theorem mulX_zero : Basic.mulX ⟨0, 0⟩ = ⟨0, 0⟩ := by decide

theorem mulX_iterate_zero (n : Nat) : Basic.mulX^[n] ⟨0, 0⟩ = ⟨0, 0⟩ := by
  induction n with
  | zero => rfl
  | succ n ih => rw [Function.iterate_succ_apply', ih, mulX_zero]

/-- The loop of `GF128_mul` on a one-bit second argument: `Z` picks up `V` at step `j`. -/
theorem GF128_fold_unitBit (j : Nat) (hj : j < 128) (X : u128) (n : Nat) (hn : n ≤ 128) :
    (List.range n).foldl (Basic.GF128_step (Basic.unitBit j)) (⟨0, 0⟩, X) =
      (if j < n then Basic.mulX^[j] X else ⟨0, 0⟩, Basic.mulX^[n] X) := by
  induction n with
  | zero => rfl
  | succ n ih =>
    rw [List.range_succ, List.foldl_append, List.foldl_cons, List.foldl_nil, ih (by omega),
      Basic.GF128_step_eq, ybit_unitBit n (by omega) j hj]
    simp only []
    rw [← Function.iterate_succ_apply' Basic.mulX n X]
    by_cases e : n = j
    · subst e
      simp [u128_zero_xor]
    · have e1 : (j < n + 1) = (j < n) := by
        apply propext
        constructor <;> intro h <;> omega
      simp only [e, decide_False, Bool.false_eq_true, if_false, e1]

theorem GF128_mul_unitBit (X : u128) (j : Nat) (hj : j < 128) :
    Basic.GF128_mul X (Basic.unitBit j) = Basic.mulX^[j] X := by
  unfold Basic.GF128_mul
  rw [GF128_fold_unitBit j hj X 128 (Nat.le_refl _), if_pos hj]

theorem ybit_xor (a b : u128) (i : Nat) :
    Basic.ybit (a.xor b) i = xor (Basic.ybit a i) (Basic.ybit b i) := by
  have key : ∀ x y k : Nat, decide (((x ^^^ y) >>> k) &&& 1 ≠ 0) =
      xor (decide ((x >>> k) &&& 1 ≠ 0)) (decide ((y >>> k) &&& 1 ≠ 0)) := by
    intro x y k
    rw [shiftRight_and_one_ne_zero, shiftRight_and_one_ne_zero, shiftRight_and_one_ne_zero,
      Nat.testBit_xor]
  unfold Basic.ybit u128.xor
  by_cases hi : i < 64
  · simp only [hi, if_true]
    exact key _ _ _
  · simp only [hi, if_false]
    exact key _ _ _

theorem GF128_fold_xor_right (Y1 Y2 : u128) (l : List Nat) (Z1 Z2 V : u128) :
    (l.foldl (Basic.GF128_step (Y1.xor Y2)) (Z1.xor Z2, V)).1 =
      (l.foldl (Basic.GF128_step Y1) (Z1, V)).1.xor
        (l.foldl (Basic.GF128_step Y2) (Z2, V)).1 := by
  induction l generalizing Z1 Z2 V with
  | nil => rfl
  | cons i l ih =>
    simp only [List.foldl_cons, Basic.GF128_step_eq, ybit_xor]
    cases Basic.ybit Y1 i <;> cases Basic.ybit Y2 i
    · exact ih _ _ _
    · simp only [Bool.false_xor, if_true, Bool.false_eq_true, if_false]
      have e : (Z1.xor Z2).xor V = Z1.xor (Z2.xor V) := by
        simp only [u128.xor, u128.mk.injEq]
        constructor <;> ac_rfl
      rw [e]
      exact ih _ _ _
    · simp only [Bool.xor_false, if_true, Bool.false_eq_true, if_false]
      have e : (Z1.xor Z2).xor V = (Z1.xor V).xor Z2 := by
        simp only [u128.xor, u128.mk.injEq]
        constructor <;> ac_rfl
      rw [e]
      exact ih _ _ _
    · simp only [Bool.xor_self, if_true, Bool.false_eq_true, if_false]
      have e : Z1.xor Z2 = (Z1.xor V).xor (Z2.xor V) := by
        simp only [u128.xor, u128.mk.injEq]
        exact ⟨(xor_cancel_both _ _ _).symm, (xor_cancel_both _ _ _).symm⟩
      rw [e]
      exact ih _ _ _

/-- The basic `GF128_mul` is additive in its second argument. -/
theorem GF128_mul_xor_right (X Y1 Y2 : u128) :
    Basic.GF128_mul X (Y1.xor Y2) = (Basic.GF128_mul X Y1).xor (Basic.GF128_mul X Y2) := by
  have h := GF128_fold_xor_right Y1 Y2 (List.range 128) ⟨0, 0⟩ ⟨0, 0⟩ X
  rw [u128_xor_self] at h
  exact h

theorem GF128_mul_zero_right (X : u128) : Basic.GF128_mul X ⟨0, 0⟩ = ⟨0, 0⟩ := by
  have h := GF128_mul_xor_right X ⟨0, 0⟩ ⟨0, 0⟩
  rw [u128_xor_self] at h
  have h2 := u128_xor_self (Basic.GF128_mul X ⟨0, 0⟩)
  rw [← h] at h2
  exact h2

theorem two_pow_xor_sub (n m : Nat) (h1 : 2 ^ m ≤ n) (h2 : n < 2 ^ (m + 1)) :
    (n - 2 ^ m) ^^^ 2 ^ m = n := by
  obtain ⟨r, rfl⟩ : ∃ r, n = 2 ^ m + r := ⟨n - 2 ^ m, by omega⟩
  have hr : r < 2 ^ m := by
    rw [Nat.pow_succ] at h2
    omega
  rw [Nat.add_sub_cancel_left]
  apply Nat.eq_of_testBit_eq
  intro i
  rw [Nat.testBit_xor, Nat.testBit_two_pow]
  rcases Nat.lt_trichotomy i m with hlt | heq | hgt
  · rw [Nat.testBit_two_pow_add_gt hlt]
    have : ¬ m = i := by omega
    simp [this]
  · subst heq
    rw [Nat.testBit_two_pow_add_eq, Nat.testBit_lt_two_pow hr]
    simp
  · have hm : ¬ m = i := by omega
    have hle : 2 ^ (m + 1) ≤ 2 ^ i := Nat.pow_le_pow_right (by decide) hgt
    rw [Nat.testBit_lt_two_pow (Nat.lt_of_lt_of_le h2 hle),
      Nat.testBit_lt_two_pow (Nat.lt_of_lt_of_le hr (Nat.le_trans (by omega) hle))]
    simp [hm]

/-- Every value below `2^m` is reached from 0 and the powers of two by XOR. -/
theorem nat_xor_span (P : Nat → Prop) (m : Nat) (h0 : P 0) (hb : ∀ k, k < m → P (2 ^ k))
    (hx : ∀ a b, a < 2 ^ m → b < 2 ^ m → P a → P b → P (a ^^^ b)) :
    ∀ n, n < 2 ^ m → P n := by
  have key : ∀ k, k ≤ m → ∀ n, n < 2 ^ k → P n := by
    intro k
    induction k with
    | zero =>
      intro _ n hn
      have : n = 0 := by simpa using hn
      rw [this]
      exact h0
    | succ k ih =>
      intro hk n hn
      by_cases hlt : n < 2 ^ k
      · exact ih (by omega) n hlt
      · have hle : 2 ^ k ≤ n := by omega
        have hr : n - 2 ^ k < 2 ^ k := by
          rw [Nat.pow_succ] at hn
          omega
        have hkm : 2 ^ k < 2 ^ m := Nat.pow_lt_pow_right (by decide) (by omega)
        rw [← two_pow_xor_sub n k hle hn]
        exact hx _ _ (Nat.lt_trans hr hkm) hkm (ih (by omega) _ hr) (hb k (by omega))
  exact key m (Nat.le_refl _)

/-- Every well-formed 128-bit value is reached from zero and the one-bit values by XOR. -/
theorem u128_xor_span (P : u128 → Prop) (h0 : P ⟨0, 0⟩)
    (hb : ∀ i, i < 128 → P (Basic.unitBit i))
    (hx : ∀ a b : u128, a.wf → b.wf → P a → P b → P (a.xor b)) :
    ∀ X : u128, X.wf → P X := by
  have z64 : (0 : Nat) < 2 ^ 64 := by decide
  have hhigh : ∀ n, n < 2 ^ 64 → P ⟨n, 0⟩ := by
    apply nat_xor_span (fun n => P ⟨n, 0⟩) 64 h0
    · intro k hk
      have h := hb (63 - k) (by omega)
      unfold Basic.unitBit at h
      rw [if_pos (by omega), show 63 - (63 - k) = k by omega] at h
      exact h
    · intro a b ha hb2 pa pb
      have h := hx ⟨a, 0⟩ ⟨b, 0⟩ ⟨ha, z64⟩ ⟨hb2, z64⟩ pa pb
      simp only [u128.xor, Nat.xor_self] at h
      exact h
  have hlow : ∀ n, n < 2 ^ 64 → P ⟨0, n⟩ := by
    apply nat_xor_span (fun n => P ⟨0, n⟩) 64 h0
    · intro k hk
      have h := hb (127 - k) (by omega)
      unfold Basic.unitBit at h
      rw [if_neg (by omega), show 127 - (127 - k) = k by omega] at h
      exact h
    · intro a b ha hb2 pa pb
      have h := hx ⟨0, a⟩ ⟨0, b⟩ ⟨z64, ha⟩ ⟨z64, hb2⟩ pa pb
      simp only [u128.xor, Nat.xor_self] at h
      exact h
  intro X hX
  have e : X = u128.xor ⟨X.high, 0⟩ ⟨0, X.low⟩ := by
    cases X
    simp [u128.xor]
  rw [e]
  exact hx _ _ ⟨hX.1, z64⟩ ⟨z64, hX.2⟩ (hhigh _ hX.1) (hlow _ hX.2)

/-- Multiplying the one-bit value `unitBit i` by `Y` shifts `Y` by `i` steps. -/
theorem GF128_unitBit_mul (i : Nat) (hi : i < 128) (Y : u128) (hY : Y.wf) :
    Basic.GF128_mul (Basic.unitBit i) Y = Basic.mulX^[i] Y := by
  have hE : Basic.GF128_E.wf := ⟨by decide, by decide⟩
  revert Y
  apply u128_xor_span
  · rw [GF128_mul_zero_right, mulX_iterate_zero]
  · intro j hj
    rw [GF128_mul_unitBit _ j hj, ← mulX_iterate_E i hi, ← mulX_iterate_E j hj,
      ← Function.iterate_add_apply, ← Function.iterate_add_apply, Nat.add_comm]
  · intro a b ha hb pa pb
    rw [GF128_mul_xor_right, pa, pb, mulX_iterate_xor a b ha hb]

/-- The basic `GF128_mul` is commutative on 64-bit halves. -/
theorem GF128_mul_comm (X Y : u128) (hX : X.wf) (hY : Y.wf) :
    Basic.GF128_mul X Y = Basic.GF128_mul Y X := by
  revert X
  apply u128_xor_span
  · rw [Basic.GF128_mul_zero, GF128_mul_zero_right]
  · intro i hi
    rw [GF128_unitBit_mul i hi Y hY, GF128_mul_unitBit Y i hi]
  · intro a b ha hb pa pb
    rw [Basic.GF128_mul_xor a b Y ha hb, GF128_mul_xor_right, pa, pb]


theorem GF128_fold_mulX (Y : u128) (l : List Nat) (Z V : u128) (hZ : Z.wf) (hV : V.wf) :
    (l.foldl (Basic.GF128_step Y) (Basic.mulX Z, Basic.mulX V)).1 =
      Basic.mulX (l.foldl (Basic.GF128_step Y) (Z, V)).1 := by
  induction l generalizing Z V with
  | nil => rfl
  | cons i l ih =>
    simp only [List.foldl_cons, Basic.GF128_step_eq]
    cases Basic.ybit Y i
    · exact ih Z _ hZ (Basic.mulX_wf V hV)
    · simp only [if_true]
      rw [← Basic.mulX_xor Z V hZ hV]
      exact ih _ _ (u128_xor_wf Z V hZ hV) (Basic.mulX_wf V hV)

/-- One step of the shift-and-reduce update on the first argument passes through the
multiplication. -/
theorem GF128_mul_mulX (X Y : u128) (hX : X.wf) :
    Basic.GF128_mul (Basic.mulX X) Y = Basic.mulX (Basic.GF128_mul X Y) := by
  have h := GF128_fold_mulX Y (List.range 128) ⟨0, 0⟩ X ⟨by decide, by decide⟩ hX
  rw [mulX_zero] at h
  exact h

theorem GF128_mul_mulX_iterate (X Y : u128) (hX : X.wf) (k : Nat) :
    Basic.GF128_mul (Basic.mulX^[k] X) Y = Basic.mulX^[k] (Basic.GF128_mul X Y) := by
  induction k with
  | zero => rw [Function.iterate_zero_apply, Function.iterate_zero_apply]
  | succ k ih =>
    rw [Function.iterate_succ_apply', Function.iterate_succ_apply',
      GF128_mul_mulX _ _ (mulX_iterate_wf X hX k), ih]

theorem unit_block_eq : ∀ i, i < 16 → ∀ b, b < 8 →
    (⟨load64 ((List.replicate 16 0).set i (2 ^ b)) 0,
      load64 ((List.replicate 16 0).set i (2 ^ b)) 8⟩ : u128) = Basic.unitBit (8 * i + 7 - b) := by
  decide!

/-- For the hash subkey of the fixed master key, the product `e · H · H` is not zero for
each of the 128 one-bit blocks `e`. -/
theorem single_bit_times_H_sq_ne_zero :
    ∀ i, i < 16 → ∀ b, b < 8 →
      Basic.GF128_mul
        (Basic.GF128_mul
          ⟨load64 ((List.replicate 16 0).set i (2 ^ b)) 0,
            load64 ((List.replicate 16 0).set i (2 ^ b)) 8⟩
          ⟨2771952836232159948, 10904678218100679210⟩)
        ⟨2771952836232159948, 10904678218100679210⟩ ≠ ⟨0, 0⟩ := by
  have hH : (⟨2771952836232159948, 10904678218100679210⟩ : u128).wf := ⟨by decide, by decide⟩
  have hHH : Basic.GF128_mul ⟨2771952836232159948, 10904678218100679210⟩
      ⟨2771952836232159948, 10904678218100679210⟩ =
      ⟨17778458524313566990, 4299511571770949215⟩ := by decide!
  have hk : ∀ k, k < 128 →
      Basic.mulX^[k] (⟨17778458524313566990, 4299511571770949215⟩ : u128) ≠ ⟨0, 0⟩ := by
    decide!
  intro i hi b hb
  rw [unit_block_eq i hi b hb, GF128_unitBit_mul _ (by omega) _ hH,
    GF128_mul_mulX_iterate _ _ hH, hHH]
  exact hk _ (by omega)

theorem u128_xor_right_cancel (S E : u128) (h : S = S.xor E) : E = ⟨0, 0⟩ := by
  cases S with
  | mk sh sl =>
    cases E with
    | mk eh el =>
      simp only [u128.xor, u128.mk.injEq] at h ⊢
      obtain ⟨h1, h2⟩ := h
      have e1 : sh ^^^ 0 = sh ^^^ eh := by rw [Nat.xor_zero]; exact h1
      have e2 : sl ^^^ 0 = sl ^^^ el := by rw [Nat.xor_zero]; exact h2
      exact ⟨(Nat.xor_right_inj.mp e1).symm, (Nat.xor_right_inj.mp e2).symm⟩

theorem u128_xor_right_comm (a b c : u128) : (a.xor b).xor c = (a.xor c).xor b := by
  simp only [u128.xor, u128.mk.injEq]
  constructor <;> ac_rfl

/-- Flipping bit `b` of byte `i` of a 32-byte authenticated buffer XORs the hash with
`e · H · H`, where `e` is the one-bit block at that position. -/
theorem GHASH_flip (H : u128) (D : List Nat) (i b : Nat) (hlen : D.length = 32)
    (hD : ∀ x ∈ D, x < 256) (hi : i < 16) (hb : b < 8) :
    Basic.GHASH H (D.set i (D.getD i 0 ^^^ 2 ^ b)) =
      (Basic.GHASH H D).xor
        (Basic.GF128_mul
          (Basic.GF128_mul
            ⟨load64 ((List.replicate 16 0).set i (2 ^ b)) 0,
              load64 ((List.replicate 16 0).set i (2 ^ b)) 8⟩ H) H) := by
  have hDb : ∀ j, D.getD j 0 < 256 := getD_lt_of_forall D hD
  have hEb : ∀ j, ((List.replicate 16 0).set i (2 ^ b)).getD j 0 < 256 := by
    intro j
    by_cases hj : i = j
    · subst hj
      rw [getD_set_self _ _ _ (by simpa using hi)]
      exact Nat.pow_lt_pow_right (by decide) hb
    · rw [getD_set_of_ne _ _ _ _ hj, getD_replicate_zero]
      decide
  have hpt : ∀ j, (D.set i (D.getD i 0 ^^^ 2 ^ b)).getD j 0 =
      D.getD j 0 ^^^ ((List.replicate 16 0).set i (2 ^ b)).getD j 0 := by
    intro j
    by_cases hj : i = j
    · subst hj
      rw [getD_set_self _ _ _ (by omega), getD_set_self _ _ _ (by simpa using hi)]
    · rw [getD_set_of_ne _ _ _ _ hj, getD_set_of_ne _ _ _ _ hj, getD_replicate_zero,
        Nat.xor_zero]
  have hdrop : (D.set i (D.getD i 0 ^^^ 2 ^ b)).drop 16 = D.drop 16 :=
    List.drop_set_of_lt _ _ hi
  have hdb : ∀ j, (D.drop 16).getD j 0 < 256 :=
    getD_lt_of_forall _ (fun x hx => hD x (List.mem_of_mem_drop hx))
  have wD : (⟨load64 D 0, load64 D 8⟩ : u128).wf := ⟨load64_lt D 0 hDb, load64_lt D 8 hDb⟩
  have wE : (⟨load64 ((List.replicate 16 0).set i (2 ^ b)) 0,
      load64 ((List.replicate 16 0).set i (2 ^ b)) 8⟩ : u128).wf :=
    ⟨load64_lt _ 0 hEb, load64_lt _ 8 hEb⟩
  have wT : (⟨load64 (D.drop 16) 0, load64 (D.drop 16) 8⟩ : u128).wf :=
    ⟨load64_lt _ 0 hdb, load64_lt _ 8 hdb⟩
  have hblk : (⟨load64 (D.set i (D.getD i 0 ^^^ 2 ^ b)) 0,
      load64 (D.set i (D.getD i 0 ^^^ 2 ^ b)) 8⟩ : u128) =
      (⟨load64 D 0, load64 D 8⟩ : u128).xor
        ⟨load64 ((List.replicate 16 0).set i (2 ^ b)) 0,
          load64 ((List.replicate 16 0).set i (2 ^ b)) 8⟩ := by
    simp only [u128.xor, u128.mk.injEq]
    exact ⟨load64_xor _ _ _ 0 hpt hDb hEb, load64_xor _ _ _ 8 hpt hDb hEb⟩
  rw [Basic.GHASH_two_blocks H _ (by rw [List.length_set]; exact hlen),
    Basic.GHASH_two_blocks H D hlen, hdrop, hblk, Basic.GF128_mul_xor _ _ H wD wE,
    u128_xor_right_comm,
    Basic.GF128_mul_xor _ _ H (u128_xor_wf _ _ (Basic.GF128_mul_wf _ H wD) wT)
      (Basic.GF128_mul_wf _ H wE)]

theorem GHASH_two_blocks_wf (H : u128) (D : List Nat) (hlen : D.length = 32)
    (hD : ∀ x ∈ D, x < 256) : (Basic.GHASH H D).wf := by
  have hDb : ∀ j, D.getD j 0 < 256 := getD_lt_of_forall D hD
  have hdb : ∀ j, (D.drop 16).getD j 0 < 256 :=
    getD_lt_of_forall _ (fun x hx => hD x (List.mem_of_mem_drop hx))
  rw [Basic.GHASH_two_blocks H D hlen]
  exact Basic.GF128_mul_wf _ H (u128_xor_wf _ _
    (Basic.GF128_mul_wf _ H ⟨load64_lt D 0 hDb, load64_lt D 8 hDb⟩)
    ⟨load64_lt _ 0 hdb, load64_lt _ 8 hdb⟩)

theorem authData_getD (data : List Nat) (i : Nat) (hi : i < data.length) :
    (authData data).getD i 0 = data.getD i 0 := by
  unfold authData
  simp only []
  split
  · rw [List.append_assoc, List.append_assoc, List.getD_append _ _ _ _ hi]
  · rw [List.append_assoc, List.getD_append _ _ _ _ hi]

theorem set_lt_of_forall (l : List Nat) (i v : Nat) (h : ∀ x ∈ l, x < 256) (hv : v < 256) :
    ∀ x ∈ l.set i v, x < 256 := by
  intro x hx
  rcases List.mem_or_eq_of_mem_set hx with hx | rfl
  · exact h x hx
  · exact hv

/-- Claim C10. Tamper detection: with the round keys of the fixed master key `MK`, for every
IV and every plaintext of 1 to 16 bytes, flipping any single bit (bit `b` of byte `i`) of the
ciphertext returned by the basic `GCM` changes the tag that the tag derivation of `GCM`
computes over the ciphertext: the tag of the flipped ciphertext differs from the tag
returned with the original one. -/
theorem c10_ciphertext_bit_flip_changes_tag (IV pt : List Nat) (i b : Nat)
    (h16 : pt.length ≤ 16) (hpt : ∀ x ∈ pt, x < 256) (hi : i < pt.length) (hb : b < 8) :
    Basic.GCM_tag (Basic.expand MK) IV
        ((Basic.GCM (Basic.expand MK) IV pt).1.set i
          ((Basic.GCM (Basic.expand MK) IV pt).1.getD i 0 ^^^ 2 ^ b)) ≠
      (Basic.GCM (Basic.expand MK) IV pt).2 := by
  intro heq
  have hgcm : (Basic.GCM (Basic.expand MK) IV pt).2 =
      Basic.GCM_tag (Basic.expand MK) IV (Basic.GCM (Basic.expand MK) IV pt).1 := rfl
  rw [hgcm] at heq
  have hlen : (Basic.GCM (Basic.expand MK) IV pt).1.length = pt.length :=
    basic_GCM_ctr_length _ _ pt
  have hct : ∀ x ∈ (Basic.GCM (Basic.expand MK) IV pt).1, x < 256 :=
    ctrBlocks_lt _ _ (fun c => basic_encrypt_lt c _) _ _ pt hpt
  generalize (Basic.GCM (Basic.expand MK) IV pt).1 = ct at heq hlen hct
  have hic : i < ct.length := by omega
  have hD := authData_lt ct hct
  have hDl := authData_length ct (by omega) (by omega)
  have hv : (authData ct).getD i 0 ^^^ 2 ^ b < 256 :=
    Nat.xor_lt_two_pow (n := 8) (getD_lt_of_forall _ hD i) (Nat.pow_lt_pow_right (by decide) hb)
  unfold Basic.GCM_tag at heq
  simp only [] at heq
  rw [authData_set ct i _ hic, ← authData_getD ct i hic] at heq
  have hS := tagBytes_inj _ _ _
    (GHASH_two_blocks_wf _ _ (by rw [List.length_set]; exact hDl)
      (set_lt_of_forall _ i _ hD hv))
    (GHASH_two_blocks_wf _ _ hDl hD) heq
  rw [GHASH_flip _ _ i b hDl hD (by omega) hb] at hS
  have hz := u128_xor_right_cancel _ _ hS.symm
  rw [GCM_H_MK] at hz
  exact single_bit_times_H_sq_ne_zero i (by omega) b hb hz

/-- Witness for claim C10: 12-byte zero IV, plaintext `"SDUCST"`, top bit of ciphertext
byte 0. -/
theorem c10_ciphertext_bit_flip_changes_tag_witness :
    Basic.GCM_tag (Basic.expand MK) (List.replicate 12 0)
        ((Basic.GCM (Basic.expand MK) (List.replicate 12 0) sducst).1.set 0
          ((Basic.GCM (Basic.expand MK) (List.replicate 12 0) sducst).1.getD 0 0 ^^^ 2 ^ 7)) ≠
      (Basic.GCM (Basic.expand MK) (List.replicate 12 0) sducst).2 :=
  c10_ciphertext_bit_flip_changes_tag (List.replicate 12 0) sducst 0 7 (by decide) (by decide)
    (by decide) (by decide)

/-! ## The hash accumulator -/

theorem getD_drop_zero (l : List Nat) (n j : Nat) : (l.drop n).getD j 0 = l.getD (n + j) 0 := by
  simp [List.getD_eq_getElem?_getD, List.getElem?_drop]

theorem load64_congr (A B : List Nat) (off : Nat)
    (h : ∀ j, j < 8 → A.getD (off + j) 0 = B.getD (off + j) 0) : load64 A off = load64 B off := by
  unfold load64
  apply List.foldl_ext
  intro x j hj
  rw [h j (List.mem_range.mp hj)]

/-- A block read at offset `16 i` sees only the bytes `16 i .. 16 i + 15` of the buffer. -/
theorem load64_drop_congr (A B : List Nat) (n off : Nat) (hoff : off ≤ 8)
    (h : ∀ j, j < 16 → A.getD (n + j) 0 = B.getD (n + j) 0) :
    load64 (A.drop n) off = load64 (B.drop n) off := by
  apply load64_congr
  intro j hj
  rw [getD_drop_zero, getD_drop_zero, h (off + j) (by omega)]

namespace Basic

/-- The full-block loop of `GHASH` run on the first `k` blocks of `data`. -/
theorem GHASH_blocks_congr (H : u128) (A B : List Nat) (k : Nat)
    (h : ∀ j, j < 16 * k → A.getD j 0 = B.getD j 0) (Y0 : u128) :
    (List.range k).foldl (fun (Y : u128) i =>
        GF128_mul ⟨Y.high ^^^ load64 (A.drop (i * 16)) 0, Y.low ^^^ load64 (A.drop (i * 16)) 8⟩ H)
        Y0 =
      (List.range k).foldl (fun (Y : u128) i =>
        GF128_mul ⟨Y.high ^^^ load64 (B.drop (i * 16)) 0, Y.low ^^^ load64 (B.drop (i * 16)) 8⟩ H)
        Y0 := by
  apply List.foldl_ext
  intro Y i hi
  have hi' := List.mem_range.mp hi
  have hb : ∀ j, j < 16 → A.getD (i * 16 + j) 0 = B.getD (i * 16 + j) 0 :=
    fun j hj => h _ (by omega)
  rw [load64_drop_congr A B (i * 16) 0 (by omega) hb, load64_drop_congr A B (i * 16) 8 (by omega) hb]

/-- On a buffer of `16 k` bytes `GHASH` is the full-block loop alone. -/
theorem GHASH_full (H : u128) (data : List Nat) (k : Nat) (h : data.length = 16 * k) :
    GHASH H data =
      (List.range k).foldl (fun (Y : u128) i =>
        GF128_mul ⟨Y.high ^^^ load64 (data.drop (i * 16)) 0,
          Y.low ^^^ load64 (data.drop (i * 16)) 8⟩ H) ⟨0, 0⟩ := by
  have h1 : data.length / 16 = k := by omega
  have h2 : data.length % 16 = 0 := by omega
  unfold GHASH
  simp only [h1, h2, gt_iff_lt, Nat.lt_irrefl, if_false]

theorem GHASH_append_block (H : u128) (data B : List Nat) (h : data.length % 16 = 0)
    (hB : B.length = 16) :
    GHASH H (data ++ B) =
      GF128_mul ⟨(GHASH H data).high ^^^ load64 B 0, (GHASH H data).low ^^^ load64 B 8⟩ H := by
  obtain ⟨k, hk⟩ : ∃ k, data.length = 16 * k := ⟨data.length / 16, by omega⟩
  have hlen : (data ++ B).length = 16 * (k + 1) := by rw [List.length_append, hk, hB]; omega
  have hdrop : (data ++ B).drop (k * 16) = B := List.drop_left' (by omega)
  rw [GHASH_full H (data ++ B) (k + 1) hlen, GHASH_full H data k hk, List.range_succ,
    List.foldl_append, List.foldl_cons, List.foldl_nil, hdrop,
    GHASH_blocks_congr H (data ++ B) data k
      (fun j hj => List.getD_append _ _ _ _ (by omega))]

end Basic

/-- Claim C11. The basic `GHASH` is the sequential accumulator `Y = multiply(Y ^ X, H)`
started at `Y = 0`: the hash of the empty buffer is 0, and for every `H`, every buffer whose
length is a multiple of 16 and every 16-byte block `B`, read as two big-endian 64-bit halves,
`GHASH(H, data ‖ B) = GF128_mul(GHASH(H, data) ^ B, H)`. -/
theorem c11_ghash_accumulator (H : u128) (data B : List Nat) (h : data.length % 16 = 0)
    (hB : B.length = 16) :
    Basic.GHASH H [] = ⟨0, 0⟩ ∧
      Basic.GHASH H (data ++ B) =
        Basic.GF128_mul
          ⟨(Basic.GHASH H data).high ^^^ load64 B 0, (Basic.GHASH H data).low ^^^ load64 B 8⟩
          H :=
  ⟨rfl, Basic.GHASH_append_block H data B h hB⟩

/-- Witness for claim C11: the hash subkey of the fixed master key, the 16-byte buffer `MK`
and the block `MK`. -/
theorem c11_ghash_accumulator_witness :
    Basic.GHASH (Basic.GCM_H (Basic.expand MK)) [] = ⟨0, 0⟩ ∧
      Basic.GHASH (Basic.GCM_H (Basic.expand MK)) (MK ++ MK) =
        Basic.GF128_mul
          ⟨(Basic.GHASH (Basic.GCM_H (Basic.expand MK)) MK).high ^^^ load64 MK 0,
            (Basic.GHASH (Basic.GCM_H (Basic.expand MK)) MK).low ^^^ load64 MK 8⟩
          (Basic.GCM_H (Basic.expand MK)) :=
  c11_ghash_accumulator (Basic.GCM_H (Basic.expand MK)) MK MK (by decide) (by decide)

/-! ## Partial blocks of the hash -/

theorem shl_mod_shl (x a b : Nat) :
    (((x <<< a) % 2 ^ 64) <<< b) % 2 ^ 64 = (x <<< (a + b)) % 2 ^ 64 := by
  apply Nat.eq_of_testBit_eq
  intro j
  simp only [Nat.testBit_mod_two_pow, Nat.testBit_shiftLeft]
  by_cases h1 : j < 64 <;> by_cases h2 : a + b ≤ j
  · have e : j - b - a = j - (a + b) := by omega
    have h3 : b ≤ j := by omega
    have h4 : j - b < 64 := by omega
    have h5 : a ≤ j - b := by omega
    simp [h1, h2, h3, h4, h5, e]
  · by_cases h3 : b ≤ j
    · have h5 : ¬ a ≤ j - b := by omega
      simp [h1, h2, h3, h5]
    · simp [h1, h2, h3]
  · simp [h1]
  · simp [h1]

theorem tail_block_read (blk : List Nat) (r : Nat) (hr : blk.length = r) (h1 : 0 < r)
    (h15 : r < 16) (hb : ∀ j, blk.getD j 0 < 256) :
    (let X := (List.range r).foldl (fun (X : u128) j =>
        if j < 8 then ⟨((X.high <<< 8) % 2 ^ 64) ||| blk.getD j 0, X.low⟩
        else ⟨X.high, ((X.low <<< 8) % 2 ^ 64) ||| blk.getD j 0⟩) ⟨0, 0⟩
      let X : u128 :=
        if r < 16 then
          (if r ≤ 8 then ⟨(X.high <<< (8 * (8 - r))) % 2 ^ 64, X.low⟩
           else ⟨X.high, (X.low <<< (8 * (16 - r))) % 2 ^ 64⟩)
        else X
      X) = ⟨load64 blk 0, load64 blk 8⟩ := by
  have hz : ∀ j, r ≤ j → blk.getD j 0 = 0 := fun j hj => List.getD_eq_default _ _ (by omega)
  have hM : ∀ x b : Nat, b < 256 → ((x <<< 8) % 2 ^ 64 ||| b) % 2 ^ 64 = (x <<< 8) % 2 ^ 64 ||| b :=
    fun x b hb' => Nat.mod_eq_of_lt (Nat.or_lt_two_pow (Nat.mod_lt _ (by decide))
      (Nat.lt_trans hb' (by decide)))
  interval_cases r <;>
    simp (disch := omega) only [List.range_succ, List.range_zero, List.nil_append,
      List.cons_append, List.foldl_cons, List.foldl_nil, load64, Nat.reduceLT, Nat.reduceLeDiff,
      Nat.reduceAdd, Nat.reduceMul, Nat.reduceSub, if_true, if_false, hz, Nat.zero_shiftLeft,
      Nat.zero_mod, Nat.zero_or, Nat.or_zero, shl_mod_shl, Nat.shiftLeft_zero, Nat.zero_add,
      hM _ _ (hb _)]

theorem getD_append_zeros (l : List Nat) (m j : Nat) :
    (l ++ List.replicate m 0).getD j 0 = l.getD j 0 := by
  by_cases hj : j < l.length
  · exact List.getD_append _ _ _ _ hj
  · rw [List.getD_append_right _ _ _ _ (by omega), getD_replicate_zero,
      List.getD_eq_default _ _ (by omega)]

namespace Basic

/-- On a buffer with a final partial block `GHASH` runs the full-block loop and then one more
step on the partial block read like a full block whose missing bytes are zero. -/
theorem GHASH_tail_block (H : u128) (data : List Nat) (hrem : data.length % 16 ≠ 0)
    (hb : ∀ x ∈ data, x < 256) :
    GHASH H data =
      GF128_mul
        ⟨((List.range (data.length / 16)).foldl (fun (Y : u128) i =>
            GF128_mul ⟨Y.high ^^^ load64 (data.drop (i * 16)) 0,
              Y.low ^^^ load64 (data.drop (i * 16)) 8⟩ H) ⟨0, 0⟩).high ^^^
            load64 (data.drop (data.length / 16 * 16)) 0,
          ((List.range (data.length / 16)).foldl (fun (Y : u128) i =>
            GF128_mul ⟨Y.high ^^^ load64 (data.drop (i * 16)) 0,
              Y.low ^^^ load64 (data.drop (i * 16)) 8⟩ H) ⟨0, 0⟩).low ^^^
            load64 (data.drop (data.length / 16 * 16)) 8⟩ H := by
  have hlen : (data.drop (data.length / 16 * 16)).length = data.length % 16 := by
    rw [List.length_drop]; omega
  have hbb : ∀ j, (data.drop (data.length / 16 * 16)).getD j 0 < 256 :=
    getD_lt_of_forall _ (fun x hx => hb x (List.mem_of_mem_drop hx))
  have hp := tail_block_read (data.drop (data.length / 16 * 16)) (data.length % 16) hlen
    (by omega) (by omega) hbb
  have hpos : data.length % 16 > 0 := by omega
  unfold GHASH
  simp only [] at hp ⊢
  rw [if_pos hpos, hp]

theorem GHASH_zero_pad (H : u128) (data : List Nat) (hrem : data.length % 16 ≠ 0)
    (hb : ∀ x ∈ data, x < 256) :
    GHASH H data = GHASH H (data ++ List.replicate (16 - data.length % 16) 0) := by
  have hlen : (data ++ List.replicate (16 - data.length % 16) 0).length =
      16 * (data.length / 16 + 1) := by
    rw [List.length_append, List.length_replicate]; omega
  rw [GHASH_tail_block H data hrem hb, GHASH_full H _ _ hlen, List.range_succ, List.foldl_append,
    List.foldl_cons, List.foldl_nil,
    GHASH_blocks_congr H (data ++ List.replicate (16 - data.length % 16) 0) data
      (data.length / 16) (fun j _ => getD_append_zeros data _ j),
    load64_drop_congr (data ++ List.replicate (16 - data.length % 16) 0) data
      (data.length / 16 * 16) 0 (by omega) (fun j _ => getD_append_zeros data _ _),
    load64_drop_congr (data ++ List.replicate (16 - data.length % 16) 0) data
      (data.length / 16 * 16) 8 (by omega) (fun j _ => getD_append_zeros data _ _)]

end Basic

/-- Claim C12. Partial-block padding in the basic `GHASH`: for every `H` and every byte
buffer whose length is not a multiple of 16 (every remainder 1..15), the hash equals the hash
of the buffer followed by zero bytes up to the next multiple of 16: the final partial block
is left-aligned and zero-padded on the right. -/
theorem c12_basic_ghash_zero_padding (H : u128) (data : List Nat)
    (hrem : data.length % 16 ≠ 0) (hb : ∀ x ∈ data, x < 256) :
    Basic.GHASH H data = Basic.GHASH H (data ++ List.replicate (16 - data.length % 16) 0) :=
  Basic.GHASH_zero_pad H data hrem hb

/-- Witness for claim C12: the hash subkey of the fixed master key and the 6-byte buffer
`"SDUCST"`. -/
theorem c12_basic_ghash_zero_padding_witness :
    Basic.GHASH (Basic.GCM_H (Basic.expand MK)) sducst =
      Basic.GHASH (Basic.GCM_H (Basic.expand MK))
        (sducst ++ List.replicate (16 - sducst.length % 16) 0) :=
  c12_basic_ghash_zero_padding (Basic.GCM_H (Basic.expand MK)) sducst (by decide) (by decide)

/-! ## The counter increment -/

theorem or_bytes_eq_add (a b c d : Nat) (hb : b < 256) (hc : c < 256) (hd : d < 256) :
    (a <<< 24) ||| (b <<< 16) ||| (c <<< 8) ||| d = a * 16777216 + b * 65536 + c * 256 + d := by
  have e1 : (a <<< 24) ||| (b <<< 16) = 2 ^ 16 * (a * 256 + b) := by
    have h := Nat.mul_add_lt_is_or (i := 24) (b := b <<< 16)
      (by rw [Nat.shiftLeft_eq]; norm_num; omega) a
    rw [Nat.shiftLeft_eq a 24, Nat.mul_comm a (2 ^ 24), ← h, Nat.shiftLeft_eq]
    norm_num
    omega
  have e2 : 2 ^ 16 * (a * 256 + b) ||| (c <<< 8) = 2 ^ 8 * (a * 65536 + b * 256 + c) := by
    have h := Nat.mul_add_lt_is_or (i := 16) (b := c <<< 8)
      (by rw [Nat.shiftLeft_eq]; norm_num; omega) (a * 256 + b)
    rw [← h, Nat.shiftLeft_eq]
    norm_num
    omega
  have e3 := Nat.mul_add_lt_is_or (i := 8) (b := d) (by norm_num; omega)
    (a * 65536 + b * 256 + c)
  rw [e1, e2, ← e3]
  norm_num
  omega

theorem storeWord_or_bytes (a b c d : Nat) (ha : a < 256) (hb : b < 256) (hc : c < 256)
    (hd : d < 256) : storeWord ((a <<< 24) ||| (b <<< 16) ||| (c <<< 8) ||| d) = [a, b, c, d] := by
  rw [storeWord_eq, or_bytes_eq_add _ _ _ _ hb hc hd]
  norm_num
  refine ⟨?_, ?_, ?_, ?_⟩ <;> omega

theorem loadWord_append_storeWord (IV : List Nat) (hIV : IV.length = 12) (w : Nat)
    (hw : w < 2 ^ 32) : loadWord (IV ++ storeWord w) 3 = w := by
  have hw' : w < 4294967296 := hw
  have e : ∀ j, j < 4 → (IV ++ storeWord w).getD (12 + j) 0 = (storeWord w).getD j 0 := by
    intro j _
    rw [List.getD_append_right _ _ _ _ (by omega)]
    congr 1
    omega
  unfold loadWord
  rw [show 4 * 3 = 12 + 0 from rfl, show 12 + 0 + 1 = 12 + 1 from rfl,
    show 12 + 0 + 2 = 12 + 2 from rfl, show 12 + 0 + 3 = 12 + 3 from rfl,
    e 0 (by decide), e 1 (by decide), e 2 (by decide), e 3 (by decide), storeWord_eq]
  simp only [List.getD_cons_zero, List.getD_cons_succ]
  rw [or_bytes_eq_add _ _ _ _ (Nat.mod_lt _ (by decide)) (Nat.mod_lt _ (by decide))
    (Nat.mod_lt _ (by decide))]
  norm_num
  omega

theorem storeWord_loadWord (counter : List Nat) (h : counter.length = 16)
    (hb : ∀ j, 12 ≤ j → counter.getD j 0 < 256) :
    counter = counter.take 12 ++ storeWord (loadWord counter 3) := by
  have h12 := hb 12 (by decide)
  have h13 := hb 13 (by decide)
  have h14 := hb 14 (by decide)
  have h15 := hb 15 (by decide)
  have hd : counter.drop 12 =
      [counter.getD 12 0, counter.getD 13 0, counter.getD 14 0, counter.getD 15 0] := by
    apply List.ext_getElem
    · simp [h]
    · intro i h1 h2
      simp only [List.length_cons, List.length_nil] at h2
      have hi : i = 0 ∨ i = 1 ∨ i = 2 ∨ i = 3 := by omega
      rcases hi with rfl | rfl | rfl | rfl <;>
        simp [List.getD_eq_getElem?_getD, List.getElem?_eq_getElem, h]
  have hs : storeWord (loadWord counter 3) =
      [counter.getD 12 0, counter.getD 13 0, counter.getD 14 0, counter.getD 15 0] := by
    unfold loadWord
    exact storeWord_or_bytes _ _ _ _ h12 h13 h14 h15
  rw [hs, ← hd, List.take_append_drop]

theorem loadWord_lt (counter : List Nat) (hb : ∀ j, 12 ≤ j → counter.getD j 0 < 256) :
    loadWord counter 3 < 2 ^ 32 := by
  have h12 := hb 12 (by decide)
  have h13 := hb 13 (by decide)
  have h14 := hb 14 (by decide)
  have h15 := hb 15 (by decide)
  unfold loadWord
  rw [show 4 * 3 = 12 from rfl, or_bytes_eq_add _ _ _ _ h13 h14 h15]
  generalize counter.getD 12 0 = a at h12
  generalize counter.getD (12 + 1) 0 = b at h13
  generalize counter.getD (12 + 2) 0 = c at h14
  generalize counter.getD (12 + 3) 0 = d at h15
  have e : (2 : Nat) ^ 32 = 4294967296 := by decide
  rw [e]
  omega

theorem take_set_of_le (l : List Nat) (m n v : Nat) (h : m ≤ n) :
    (l.set n v).take m = l.take m := by
  apply List.ext_getElem?
  intro j
  by_cases hj : j < m
  · rw [List.getElem?_take_of_lt hj, List.getElem?_take_of_lt hj,
      List.getElem?_set_ne (by omega)]
  · rw [List.getElem?_take_eq_none (by omega), List.getElem?_take_eq_none (by omega)]

namespace Basic

theorem count32_loop_take (counter : List Nat) (n i : Nat) (h : 12 + n ≤ i + 1) :
    (count32_loop counter n i).take 12 = counter.take 12 ∧
      (count32_loop counter n i).length = counter.length := by
  induction n generalizing counter i with
  | zero => exact ⟨rfl, rfl⟩
  | succ n ih =>
    simp only [count32_loop]
    split
    · exact ⟨take_set_of_le _ _ _ _ (by omega), List.length_set _ _ _⟩
    · obtain ⟨h1, h2⟩ := ih (counter.set i ((counter.getD i 0 + 1) % 256)) (i - 1) (by omega)
      exact ⟨h1.trans (take_set_of_le _ _ _ _ (by omega)), h2.trans (List.length_set _ _ _)⟩

end Basic

/-- Claim C15. For every counter block the basic `count32` leaves bytes 0..11 (the upper 96
bits) unchanged and keeps the length; in particular a 16-byte counter whose bytes 12..15 are
`FF FF FF FF` becomes the same first 12 bytes followed by `00 00 00 00`. -/
theorem c15_count32_keeps_upper_96_bits (counter : List Nat) (h : counter.length = 16) :
    (Basic.count32 counter).take 12 = counter.take 12 ∧
      (Basic.count32 counter).length = 16 ∧
      (counter.drop 12 = [0xFF, 0xFF, 0xFF, 0xFF] →
        Basic.count32 counter = counter.take 12 ++ [0, 0, 0, 0]) := by
  obtain ⟨h1, h2⟩ := Basic.count32_loop_take counter 4 15 (by omega)
  refine ⟨h1, h2.trans h, ?_⟩
  intro hd
  have e : counter = counter.take 12 ++ storeWord 0xFFFFFFFF := by
    have hs : storeWord 0xFFFFFFFF = [0xFF, 0xFF, 0xFF, 0xFF] := by decide
    rw [hs, ← hd, List.take_append_drop]
  have hlen : (counter.take 12).length = 12 := by rw [List.length_take]; omega
  have hc := Basic.count32_append (counter.take 12) hlen 0xFFFFFFFF (by decide)
  rw [← e] at hc
  rw [hc]
  rfl

/-- Witness for claim C15: the counter `07 … 07 FF FF FF FF`. -/
theorem c15_count32_keeps_upper_96_bits_witness :
    (Basic.count32 (List.replicate 12 7 ++ [0xFF, 0xFF, 0xFF, 0xFF])).take 12 =
        (List.replicate 12 7 ++ [0xFF, 0xFF, 0xFF, 0xFF]).take 12 ∧
      (Basic.count32 (List.replicate 12 7 ++ [0xFF, 0xFF, 0xFF, 0xFF])).length = 16 ∧
      ((List.replicate 12 7 ++ [0xFF, 0xFF, 0xFF, 0xFF]).drop 12 = [0xFF, 0xFF, 0xFF, 0xFF] →
        Basic.count32 (List.replicate 12 7 ++ [0xFF, 0xFF, 0xFF, 0xFF]) =
          (List.replicate 12 7 ++ [0xFF, 0xFF, 0xFF, 0xFF]).take 12 ++ [0, 0, 0, 0]) :=
  c15_count32_keeps_upper_96_bits (List.replicate 12 7 ++ [0xFF, 0xFF, 0xFF, 0xFF]) (by decide)

/-- Claim C16. For every 16-byte counter block, after the basic `count32` the big-endian
32-bit value of bytes 12..15 is the previous value plus 1 modulo `2^32`. -/
theorem c16_count32_increments_mod_2_32 (counter : List Nat) (h : counter.length = 16)
    (hb : ∀ j, 12 ≤ j → counter.getD j 0 < 256) :
    loadWord (Basic.count32 counter) 3 = (loadWord counter 3 + 1) % 2 ^ 32 := by
  have hlen : (counter.take 12).length = 12 := by rw [List.length_take]; omega
  have e := storeWord_loadWord counter h hb
  have hc := Basic.count32_append (counter.take 12) hlen (loadWord counter 3)
    (loadWord_lt counter hb)
  rw [← e] at hc
  rw [hc, loadWord_append_storeWord _ hlen _ (Nat.mod_lt _ (by decide))]

/-- Witness for claim C16: `FF FF FF FF` becomes `00 00 00 00` and `00 00 00 FF` becomes
`00 00 01 00`. -/
theorem c16_count32_increments_mod_2_32_witness :
    loadWord (Basic.count32 (List.replicate 12 0 ++ [0xFF, 0xFF, 0xFF, 0xFF])) 3 =
        (loadWord (List.replicate 12 0 ++ [0xFF, 0xFF, 0xFF, 0xFF]) 3 + 1) % 2 ^ 32 ∧
      Basic.count32 (List.replicate 12 0 ++ [0xFF, 0xFF, 0xFF, 0xFF]) =
        List.replicate 12 0 ++ [0, 0, 0, 0] ∧
      Basic.count32 (List.replicate 12 0 ++ [0, 0, 0, 0xFF]) =
        List.replicate 12 0 ++ [0, 0, 1, 0] :=
  ⟨c16_count32_increments_mod_2_32 (List.replicate 12 0 ++ [0xFF, 0xFF, 0xFF, 0xFF])
    (by decide) (by
      intro j _
      exact getD_lt_of_forall _ (by decide) j), by decide, by decide⟩

/-! ## The key schedule -/

/-- A loop `for i < n: K[i + 4] = G(i, K[i], K[i+1], K[i+2], K[i+3])` on an array. -/
theorem window_fold_length (G : Nat → Nat → Nat → Nat → Nat → Nat) (K0 : List Nat) (n : Nat) :
    ((List.range n).foldl (fun K i => K.set (i + 4)
      (G i (K.getD i 0) (K.getD (i + 1) 0) (K.getD (i + 2) 0) (K.getD (i + 3) 0))) K0).length =
      K0.length := by
  induction n with
  | zero => rfl
  | succ n ih => rw [List.range_succ, List.foldl_append, List.foldl_cons, List.foldl_nil,
      List.length_set, ih]

theorem window_fold_stable (G : Nat → Nat → Nat → Nat → Nat → Nat) (K0 : List Nat)
    (n d j : Nat) (hj : j < n + 4) :
    ((List.range (n + d)).foldl (fun K i => K.set (i + 4)
      (G i (K.getD i 0) (K.getD (i + 1) 0) (K.getD (i + 2) 0) (K.getD (i + 3) 0))) K0).getD j 0 =
      ((List.range n).foldl (fun K i => K.set (i + 4)
        (G i (K.getD i 0) (K.getD (i + 1) 0) (K.getD (i + 2) 0) (K.getD (i + 3) 0))) K0).getD
        j 0 := by
  induction d with
  | zero => rfl
  | succ d ih =>
    rw [← Nat.add_assoc, List.range_succ, List.foldl_append, List.foldl_cons, List.foldl_nil,
      getD_set_of_ne _ _ _ _ (by omega), ih]

theorem window_fold_recurrence (G : Nat → Nat → Nat → Nat → Nat → Nat) (K0 : List Nat)
    (N i : Nat) (hi : i < N) (hlen : N + 4 ≤ K0.length) :
    ((List.range N).foldl (fun K i => K.set (i + 4)
      (G i (K.getD i 0) (K.getD (i + 1) 0) (K.getD (i + 2) 0) (K.getD (i + 3) 0))) K0).getD
        (i + 4) 0 =
      G i
        (((List.range N).foldl (fun K i => K.set (i + 4)
          (G i (K.getD i 0) (K.getD (i + 1) 0) (K.getD (i + 2) 0) (K.getD (i + 3) 0))) K0).getD
          i 0)
        (((List.range N).foldl (fun K i => K.set (i + 4)
          (G i (K.getD i 0) (K.getD (i + 1) 0) (K.getD (i + 2) 0) (K.getD (i + 3) 0))) K0).getD
          (i + 1) 0)
        (((List.range N).foldl (fun K i => K.set (i + 4)
          (G i (K.getD i 0) (K.getD (i + 1) 0) (K.getD (i + 2) 0) (K.getD (i + 3) 0))) K0).getD
          (i + 2) 0)
        (((List.range N).foldl (fun K i => K.set (i + 4)
          (G i (K.getD i 0) (K.getD (i + 1) 0) (K.getD (i + 2) 0) (K.getD (i + 3) 0))) K0).getD
          (i + 3) 0) := by
  obtain ⟨d, rfl⟩ : ∃ d, N = i + 1 + d := ⟨N - (i + 1), by omega⟩
  have e : i + 1 + d = i + (1 + d) := by omega
  rw [window_fold_stable G K0 (i + 1) d (i + 4) (by omega)]
  conv_rhs => rw [e, window_fold_stable G K0 i (1 + d) i (by omega),
    window_fold_stable G K0 i (1 + d) (i + 1) (by omega),
    window_fold_stable G K0 i (1 + d) (i + 2) (by omega),
    window_fold_stable G K0 i (1 + d) (i + 3) (by omega)]
  rw [List.range_succ, List.foldl_append, List.foldl_cons, List.foldl_nil,
    getD_set_self _ _ _ (by rw [window_fold_length]; omega)]

theorem window_fold_init (G : Nat → Nat → Nat → Nat → Nat → Nat) (K0 : List Nat)
    (N j : Nat) (hj : j < 4) :
    ((List.range N).foldl (fun K i => K.set (i + 4)
      (G i (K.getD i 0) (K.getD (i + 1) 0) (K.getD (i + 2) 0) (K.getD (i + 3) 0))) K0).getD j 0 =
      K0.getD j 0 := by
  have h := window_fold_stable G K0 0 N j (by omega)
  rw [Nat.zero_add] at h
  exact h

/-- A loop unrolled four times runs the same steps as the plain loop. -/
theorem unrolled_fold_eq {α : Type} (step : α → Nat → α) (a : Nat) (K0 : α) :
    (List.range a).foldl (fun K q =>
        (List.range 4).foldl (fun K j => step K (4 * q + j)) K) K0 =
      (List.range (4 * a)).foldl step K0 := by
  induction a with
  | zero => rfl
  | succ a ih =>
    have e : 4 * (a + 1) = 4 * a + 1 + 1 + 1 + 1 := by omega
    have r4 : List.range 4 = [0, 1, 2, 3] := rfl
    rw [r4] at ih ⊢
    rw [List.range_succ, List.foldl_append, ih, e, List.range_succ, List.range_succ,
      List.range_succ, List.range_succ]
    simp only [List.foldl_append, List.foldl_cons, List.foldl_nil, Nat.add_zero, Nat.add_assoc]

theorem opt_noliner_eq (a : Nat) : Opt.noliner a = Basic.noliner a := by
  simp only [Opt.noliner, Basic.noliner, Nat.zero_or]

theorem P1A_key_expansion_eq (key : List Nat) : P1A.key_expansion key = Basic.expand key := by
  have h : (fun (K : List Nat) (i : Nat) =>
      K.set (i + 4) (K.getD i 0 ^^^
        P1A.tau (K.getD (i + 1) 0 ^^^ K.getD (i + 2) 0 ^^^ K.getD (i + 3) 0 ^^^ CK.getD i 0) ^^^
        P1A.rotate_left
          (P1A.tau (K.getD (i + 1) 0 ^^^ K.getD (i + 2) 0 ^^^ K.getD (i + 3) 0 ^^^ CK.getD i 0))
          13 ^^^
        P1A.rotate_left
          (P1A.tau (K.getD (i + 1) 0 ^^^ K.getD (i + 2) 0 ^^^ K.getD (i + 3) 0 ^^^ CK.getD i 0))
          23)) = Basic.expand_round := by
    funext K i
    have ht : ∀ x, P1A.tau x = Basic.noliner x := fun _ => rfl
    have hr : ∀ x n, P1A.rotate_left x n = Basic.move x n := fun _ _ => rfl
    simp only [Basic.expand_round, ht, hr, Nat.xor_assoc]
  unfold P1A.key_expansion Basic.expand
  simp only []
  rw [h]

theorem Opt_expand_eq (key : List Nat) : Opt.expand key = Basic.expand key := by
  have h : ∀ (K : List Nat) (q : Nat),
      (List.range 4).foldl (fun K j =>
        K.set (4 * q + j + 4) (K.getD (4 * q + j) 0 ^^^
          (Opt.noliner (K.getD (4 * q + j + 1) 0 ^^^ K.getD (4 * q + j + 2) 0 ^^^
              K.getD (4 * q + j + 3) 0 ^^^ CK.getD (4 * q + j) 0) ^^^
            Opt.move (Opt.noliner (K.getD (4 * q + j + 1) 0 ^^^ K.getD (4 * q + j + 2) 0 ^^^
              K.getD (4 * q + j + 3) 0 ^^^ CK.getD (4 * q + j) 0)) 13 ^^^
            Opt.move (Opt.noliner (K.getD (4 * q + j + 1) 0 ^^^ K.getD (4 * q + j + 2) 0 ^^^
              K.getD (4 * q + j + 3) 0 ^^^ CK.getD (4 * q + j) 0)) 23))) K =
      (List.range 4).foldl (fun K j => Basic.expand_round K (4 * q + j)) K := by
    intro K q
    apply List.foldl_ext
    intro K j _
    have hm : ∀ x n, Opt.move x n = Basic.move x n := fun _ _ => rfl
    simp only [Basic.expand_round, opt_noliner_eq, hm]
  unfold Opt.expand Basic.expand
  simp only [h]
  rw [unrolled_fold_eq Basic.expand_round 8]

theorem Basic_expand_length (key : List Nat) : (Basic.expand key).length = 32 := by
  have hstep : Basic.expand_round = fun K i => K.set (i + 4)
      (Basic.expand_word i (K.getD i 0) (K.getD (i + 1) 0) (K.getD (i + 2) 0)
        (K.getD (i + 3) 0)) := rfl
  unfold Basic.expand
  simp only [List.length_drop]
  rw [hstep, window_fold_length Basic.expand_word]
  simp

theorem Basic_expand_getD (key : List Nat) (j : Nat) :
    scheduleWord key (Basic.expand key) j =
      ((List.range 32).foldl Basic.expand_round
        ((List.range 4).map (fun i => loadWord key i ^^^ FK.getD i 0) ++
          List.replicate 32 0)).getD j 0 := by
  have hstep : Basic.expand_round = fun K i => K.set (i + 4)
      (Basic.expand_word i (K.getD i 0) (K.getD (i + 1) 0) (K.getD (i + 2) 0)
        (K.getD (i + 3) 0)) := rfl
  unfold scheduleWord
  split
  · rename_i hj
    rw [hstep, window_fold_init Basic.expand_word _ 32 j hj, List.getD_append _ _ _ _ (by simpa using hj)]
    exact (map_range_getD (fun i => loadWord key i ^^^ FK.getD i 0) 4 j hj).symm
  · rename_i hj
    unfold Basic.expand
    simp only []
    rw [getD_drop_zero]
    congr 1
    omega

theorem Basic_expand_recurrence (key : List Nat) (i : Nat) (hi : i < 32) :
    (Basic.expand key).getD i 0 =
      scheduleWord key (Basic.expand key) i ^^^
        P1A.tau (scheduleWord key (Basic.expand key) (i + 1) ^^^
          scheduleWord key (Basic.expand key) (i + 2) ^^^
          scheduleWord key (Basic.expand key) (i + 3) ^^^ CK.getD i 0) ^^^
        P1A.rotate_left (P1A.tau (scheduleWord key (Basic.expand key) (i + 1) ^^^
          scheduleWord key (Basic.expand key) (i + 2) ^^^
          scheduleWord key (Basic.expand key) (i + 3) ^^^ CK.getD i 0)) 13 ^^^
        P1A.rotate_left (P1A.tau (scheduleWord key (Basic.expand key) (i + 1) ^^^
          scheduleWord key (Basic.expand key) (i + 2) ^^^
          scheduleWord key (Basic.expand key) (i + 3) ^^^ CK.getD i 0)) 23 := by
  have hstep : Basic.expand_round = fun K i => K.set (i + 4)
      (Basic.expand_word i (K.getD i 0) (K.getD (i + 1) 0) (K.getD (i + 2) 0)
        (K.getD (i + 3) 0)) := rfl
  have ht : ∀ x, P1A.tau x = Basic.noliner x := fun _ => rfl
  have hr : ∀ x n, P1A.rotate_left x n = Basic.move x n := fun _ _ => rfl
  have h0 : (Basic.expand key).getD i 0 = scheduleWord key (Basic.expand key) (i + 4) := by
    unfold scheduleWord
    rw [if_neg (by omega)]
    congr 1
  rw [h0, Basic_expand_getD key (i + 4), Basic_expand_getD key i, Basic_expand_getD key (i + 1),
    Basic_expand_getD key (i + 2), Basic_expand_getD key (i + 3), ht, hr, hr, hstep,
    window_fold_recurrence Basic.expand_word _ 32 i hi (by simp)]
  simp only [Basic.expand_word, Nat.xor_assoc]

/-- Claim C17. For every key the three key-schedule routines (`key_expansion` of
`project1-a.cpp`, the unrolled `expand` of `project1-b.cpp` and `expand` of the basic variant)
return the same 32 round keys, and these satisfy
`rk[i] = K[i] ^ B ^ rotl(B, 13) ^ rotl(B, 23)` with `B = tau(K[i+1] ^ K[i+2] ^ K[i+3] ^ CK[i])`,
where `K[0..3]` are the big-endian key words XOR `FK` and `K[i+4] = rk[i]`. -/
theorem c17_key_schedules_agree (key : List Nat) (i : Nat) (hi : i < 32) :
    P1A.key_expansion key = Basic.expand key ∧ Opt.expand key = Basic.expand key ∧
      (Basic.expand key).length = 32 ∧
      (Basic.expand key).getD i 0 =
        scheduleWord key (Basic.expand key) i ^^^
          P1A.tau (scheduleWord key (Basic.expand key) (i + 1) ^^^
            scheduleWord key (Basic.expand key) (i + 2) ^^^
            scheduleWord key (Basic.expand key) (i + 3) ^^^ CK.getD i 0) ^^^
          P1A.rotate_left (P1A.tau (scheduleWord key (Basic.expand key) (i + 1) ^^^
            scheduleWord key (Basic.expand key) (i + 2) ^^^
            scheduleWord key (Basic.expand key) (i + 3) ^^^ CK.getD i 0)) 13 ^^^
          P1A.rotate_left (P1A.tau (scheduleWord key (Basic.expand key) (i + 1) ^^^
            scheduleWord key (Basic.expand key) (i + 2) ^^^
            scheduleWord key (Basic.expand key) (i + 3) ^^^ CK.getD i 0)) 23 :=
  ⟨P1A_key_expansion_eq key, Opt_expand_eq key, Basic_expand_length key,
    Basic_expand_recurrence key i hi⟩

/-- Witness for claim C17: the fixed master key `MK` and round 0. -/
theorem c17_key_schedules_agree_witness :
    P1A.key_expansion MK = Basic.expand MK ∧ Opt.expand MK = Basic.expand MK ∧
      (Basic.expand MK).length = 32 ∧
      (Basic.expand MK).getD 0 0 =
        scheduleWord MK (Basic.expand MK) 0 ^^^
          P1A.tau (scheduleWord MK (Basic.expand MK) (0 + 1) ^^^
            scheduleWord MK (Basic.expand MK) (0 + 2) ^^^
            scheduleWord MK (Basic.expand MK) (0 + 3) ^^^ CK.getD 0 0) ^^^
          P1A.rotate_left (P1A.tau (scheduleWord MK (Basic.expand MK) (0 + 1) ^^^
            scheduleWord MK (Basic.expand MK) (0 + 2) ^^^
            scheduleWord MK (Basic.expand MK) (0 + 3) ^^^ CK.getD 0 0)) 13 ^^^
          P1A.rotate_left (P1A.tau (scheduleWord MK (Basic.expand MK) (0 + 1) ^^^
            scheduleWord MK (Basic.expand MK) (0 + 2) ^^^
            scheduleWord MK (Basic.expand MK) (0 + 3) ^^^ CK.getD 0 0)) 23 :=
  c17_key_schedules_agree MK 0 (by decide)

/-! ## CBC chaining -/

theorem P1A_sm4_encrypt_length (T : List (List Nat)) (inp rk : List Nat) :
    (P1A.sm4_encrypt T inp rk).length = 16 := by
  simp [P1A.sm4_encrypt, storeWord]

namespace P1A

theorem cbc_blocks_length (T : List (List Nat)) (rk : List Nat) (n : Nat) (prev pt : List Nat) :
    (cbc_blocks T rk n prev pt).length = 16 * n := by
  induction n generalizing prev pt with
  | zero => rfl
  | succ n ih =>
    simp only [cbc_blocks, List.length_append, P1A_sm4_encrypt_length, ih]
    omega

theorem cbc_blocks_block (T : List (List Nat)) (rk : List Nat) (n : Nat) (prev pt : List Nat)
    (i : Nat) (hi : i < n) :
    ((cbc_blocks T rk n prev pt).drop (16 * i)).take 16 =
      sm4_encrypt T ((List.range 16).map (fun j =>
        pt.getD (16 * i + j) 0 ^^^
          (if i = 0 then prev.getD j 0
           else (cbc_blocks T rk n prev pt).getD (16 * (i - 1) + j) 0))) rk := by
  induction n generalizing prev pt i with
  | zero => omega
  | succ n ih =>
    have hc := P1A_sm4_encrypt_length T
      ((List.range 16).map (fun j => pt.getD j 0 ^^^ prev.getD j 0)) rk
    cases i with
    | zero =>
      simp only [cbc_blocks, Nat.mul_zero, List.drop_zero, Nat.zero_add, if_true]
      exact List.take_left' hc
    | succ i =>
      have e : 16 * (i + 1) = 16 + 16 * i := by omega
      simp only [cbc_blocks]
      rw [e, ← List.drop_drop, List.drop_left' hc, ih _ _ i (by omega)]
      congr 1
      apply List.map_congr_left
      intro j hj
      have hj' := List.mem_range.mp hj
      rw [getD_drop_zero, Nat.add_assoc, if_neg (Nat.succ_ne_zero i)]
      congr 1
      by_cases h0 : i = 0
      · subst h0
        rw [if_pos rfl, List.getD_append _ _ _ _ (by omega)]
        congr 1
        omega
      · rw [if_neg h0, List.getD_append_right _ _ _ _ (by omega)]
        congr 1
        omega

end P1A

/-- Claim C20. CBC chaining: for every table, set of round keys, IV and plaintext,
`cbc_encrypt` returns a ciphertext of the plaintext's length, and for every block index `i`
below the number of full blocks the `i`-th ciphertext block is
`sm4_encrypt(P_i XOR C_(i-1))` with `C_(-1) = IV`; for a plaintext whose length is a multiple
of 16 these are all the ciphertext bytes. -/
theorem c20_cbc_chaining (T : List (List Nat)) (rk iv pt : List Nat) (i : Nat)
    (hi : i < pt.length / 16) :
    (P1A.cbc_encrypt T pt rk iv).length = pt.length ∧
      ((P1A.cbc_encrypt T pt rk iv).drop (16 * i)).take 16 =
        P1A.sm4_encrypt T ((List.range 16).map (fun j =>
          pt.getD (16 * i + j) 0 ^^^
            (if i = 0 then iv.getD j 0
             else (P1A.cbc_encrypt T pt rk iv).getD (16 * (i - 1) + j) 0))) rk := by
  have hl := P1A.cbc_blocks_length T rk (pt.length / 16) iv pt
  constructor
  · simp only [P1A.cbc_encrypt, List.length_append, hl, List.length_replicate]
    omega
  · unfold P1A.cbc_encrypt
    rw [List.drop_append_of_le_length (by omega),
      List.take_append_of_le_length (by rw [List.length_drop]; omega),
      P1A.cbc_blocks_block T rk _ iv pt i hi]
    congr 1
    apply List.map_congr_left
    intro j hj
    have hj' := List.mem_range.mp hj
    congr 1
    by_cases h0 : i = 0
    · rw [if_pos h0, if_pos h0]
    · rw [if_neg h0, if_neg h0, List.getD_append _ _ _ _ (by omega)]

/-- Witness for claim C20: the tables of `init_T_table`, the round keys of `MK`, a zero IV
and the padded plaintext of `main`, block 0. -/
theorem c20_cbc_chaining_witness :
    (P1A.cbc_encrypt P1A.init_T_table sducst_padded (P1A.key_expansion MK)
        (List.replicate 16 0)).length = sducst_padded.length ∧
      ((P1A.cbc_encrypt P1A.init_T_table sducst_padded (P1A.key_expansion MK)
          (List.replicate 16 0)).drop (16 * 0)).take 16 =
        P1A.sm4_encrypt P1A.init_T_table ((List.range 16).map (fun j =>
          sducst_padded.getD (16 * 0 + j) 0 ^^^
            (if 0 = 0 then (List.replicate 16 0).getD j 0
             else (P1A.cbc_encrypt P1A.init_T_table sducst_padded (P1A.key_expansion MK)
               (List.replicate 16 0)).getD (16 * (0 - 1) + j) 0))) (P1A.key_expansion MK) :=
  c20_cbc_chaining P1A.init_T_table (P1A.key_expansion MK) (List.replicate 16 0)
    sducst_padded 0 (by decide)

/-! ## Evaluations and the empty nonce -/

/-- Claim C13, evaluated at the failing input. For the hash subkey of the round keys
`expand(MK)` and the 9-byte buffer `00 00 00 00 00 00 00 00 01`, the optimized `GHASH` of the
buffer differs from its hash of the buffer zero-padded to 16 bytes, under either reading of
the over-wide shifts, while the basic `GHASH` gives the same value for both. -/
theorem c13_optimized_ghash_misaligns_partial_block :
    Opt.GHASH true (Opt.GCM_H Opt.init_T (Opt.expand MK)) [0, 0, 0, 0, 0, 0, 0, 0, 1] =
        ⟨13740032104411029985, 3919933116929663457⟩ ∧
      Opt.GHASH true (Opt.GCM_H Opt.init_T (Opt.expand MK))
          ([0, 0, 0, 0, 0, 0, 0, 0, 1] ++ List.replicate 7 0) =
        ⟨14354773452285665761, 16284764580837831603⟩ ∧
      Opt.GHASH false (Opt.GCM_H Opt.init_T (Opt.expand MK)) [0, 0, 0, 0, 0, 0, 0, 0, 1] =
        ⟨12594316357941592065, 15160917786846421472⟩ ∧
      Opt.GHASH false (Opt.GCM_H Opt.init_T (Opt.expand MK))
          ([0, 0, 0, 0, 0, 0, 0, 0, 1] ++ List.replicate 7 0) =
        ⟨131279929142796769, 16205077359185887232⟩ ∧
      Basic.GHASH (Opt.GCM_H Opt.init_T (Opt.expand MK)) [0, 0, 0, 0, 0, 0, 0, 0, 1] =
        Basic.GHASH (Opt.GCM_H Opt.init_T (Opt.expand MK))
          ([0, 0, 0, 0, 0, 0, 0, 0, 1] ++ List.replicate 7 0) := by
  rw [Opt_GCM_H_MK]
  refine ⟨?_, ?_, ?_, ?_, ?_⟩ <;> decide!

/-- Claim C14, evaluated at the failing input. For `X = {0x8000000000000000, 0}` and
`Y = {0, 1}` the basic `GF128_mul` returns `{0, 1}` and the optimized one, which never reads
`Y.low`, returns `{0, 0}` under either reading of its over-wide shift; for
`Y = {0x8000000000000000, 0}` the basic one returns `X` and the optimized one does not. -/
theorem c14_optimized_gf128_mul_ignores_low_half :
    Basic.GF128_mul ⟨0x8000000000000000, 0⟩ ⟨0, 1⟩ = ⟨0, 1⟩ ∧
      Opt.GF128_mul true ⟨0x8000000000000000, 0⟩ ⟨0, 1⟩ = ⟨0, 0⟩ ∧
      Opt.GF128_mul false ⟨0x8000000000000000, 0⟩ ⟨0, 1⟩ = ⟨0, 0⟩ ∧
      Basic.GF128_mul ⟨0x8000000000000000, 0⟩ ⟨0x8000000000000000, 0⟩ =
        ⟨0x8000000000000000, 0⟩ ∧
      Opt.GF128_mul true ⟨0x8000000000000000, 0⟩ ⟨0x8000000000000000, 0⟩ =
        ⟨0x8000000000000000, 0x8000000000000000⟩ ∧
      Opt.GF128_mul false ⟨0x8000000000000000, 0⟩ ⟨0x8000000000000000, 0⟩ =
        ⟨0, 0x8000000000000000⟩ := by
  refine ⟨?_, ?_, ?_, ?_, ?_, ?_⟩ <;> decide!

/-- Claim C18 as stated fails: called with an empty IV on the round keys of `MK` and the
plaintext `"SDUCST"`, both GCM routines complete and return a ciphertext and a tag; no
`InvalidNonce` error is reported. -/
theorem c18_empty_iv_is_accepted :
    Basic.GCM_call (Basic.expand MK) [] sducst ≠ Except.error GcmError.InvalidNonce ∧
      Basic.GCM_call (Basic.expand MK) [] sducst =
        Except.ok ([29, 29, 14, 179, 108, 119],
          [231, 154, 104, 53, 237, 24, 38, 0, 18, 96, 221, 239, 199, 25, 167, 132]) ∧
      Opt.GCM_call Opt.init_T true (Opt.expand MK) [] sducst ≠
        Except.error GcmError.InvalidNonce ∧
      (Opt.GCM Opt.init_T true (Opt.expand MK) [] sducst).1 = [210, 197, 212, 195, 134, 129] := by
  refine ⟨?_, ?_, ?_, ?_⟩
  · intro h; cases h
  · have h : Basic.GCM (Basic.expand MK) [] sducst =
        ([29, 29, 14, 179, 108, 119],
          [231, 154, 104, 53, 237, 24, 38, 0, 18, 96, 221, 239, 199, 25, 167, 132]) := by
      rw [Basic_expand_MK]
      decide!
    unfold Basic.GCM_call
    rw [h]
  · intro h; cases h
  · rw [Opt_expand_MK]
    decide!

theorem Basic_GCM_J0_empty (rk : List Nat) : Basic.GCM_J0 rk [] = List.replicate 16 0 := by
  have e : ([] : List Nat) ++ List.replicate 8 0 ++ store64 (([] : List Nat).length * 8 % 2 ^ 64) =
      List.replicate 16 0 := by decide
  have e2 : store64 0 ++ store64 0 = List.replicate 16 0 := by decide
  unfold Basic.GCM_J0
  simp only [List.length_nil, Nat.zero_mod, ne_eq, not_true_eq_false, if_false]
  rw [if_neg (by decide)]
  simp only [List.length_nil] at e
  rw [e, Basic.GHASH_zero_block]
  exact e2

theorem Opt_GCM_J0_empty (T : List Nat) (wrap : Bool) (rk : List Nat) :
    Opt.GCM_J0 T wrap rk [] = List.replicate 16 0 := by
  have e2 : store64 0 ++ store64 0 = List.replicate 16 0 := by decide
  have h : Opt.GHASH wrap (Opt.GCM_H T rk) [] = ⟨0, 0⟩ := rfl
  unfold Opt.GCM_J0
  rw [if_neg (by decide), h]
  exact e2

/-- Claim C18, amended. The GCM routines do not reject a zero-length nonce: for every set of
round keys and every plaintext, a call with an empty IV completes, takes the all-zero block
as `J0`, and returns a ciphertext of the plaintext's length and a 16-byte tag. -/
theorem c18_empty_iv_completes (T : List Nat) (wrap : Bool) (rk pt : List Nat) :
    Basic.GCM_call rk [] pt = Except.ok (Basic.GCM rk [] pt) ∧
      Basic.GCM_J0 rk [] = List.replicate 16 0 ∧
      (Basic.GCM rk [] pt).1.length = pt.length ∧ (Basic.GCM rk [] pt).2.length = 16 ∧
      Opt.GCM_call T wrap rk [] pt = Except.ok (Opt.GCM T wrap rk [] pt) ∧
      Opt.GCM_J0 T wrap rk [] = List.replicate 16 0 ∧
      (Opt.GCM T wrap rk [] pt).1.length = pt.length ∧
      (Opt.GCM T wrap rk [] pt).2.length = 16 :=
  ⟨rfl, Basic_GCM_J0_empty rk, basic_GCM_ctr_length rk _ pt, tagBytes_length _ _, rfl,
    Opt_GCM_J0_empty T wrap rk, opt_GCM_ctr_length T rk _ pt, tagBytes_length _ _⟩

/-- Claim C19. With the key of 16 zero bytes, the hash subkey
`H = encrypt(0^128, expand(key))` of the basic variant is not the all-zero block. -/
theorem c19_hash_subkey_nonzero :
    Basic.encrypt (List.replicate 16 0) (Basic.expand (List.replicate 16 0)) =
        [159, 31, 123, 255, 111, 85, 17, 56, 77, 148, 48, 83, 30, 83, 143, 211] ∧
      Basic.encrypt (List.replicate 16 0) (Basic.expand (List.replicate 16 0)) ≠
        List.replicate 16 0 ∧
      Basic.GCM_H (Basic.expand (List.replicate 16 0)) =
        ⟨11466019513323295032, 5590146171022839763⟩ ∧
      Basic.GCM_H (Basic.expand (List.replicate 16 0)) ≠ ⟨0, 0⟩ := by
  have h1 : Basic.encrypt (List.replicate 16 0) (Basic.expand (List.replicate 16 0)) =
      [159, 31, 123, 255, 111, 85, 17, 56, 77, 148, 48, 83, 30, 83, 143, 211] := by
    decide!
  have h2 : Basic.GCM_H (Basic.expand (List.replicate 16 0)) =
      ⟨11466019513323295032, 5590146171022839763⟩ := by
    unfold Basic.GCM_H
    rw [h1]
    decide
  refine ⟨h1, ?_, h2, ?_⟩
  · rw [h1]
    decide
  · rw [h2]
    decide

/-! ## SM3 known answers and the length-extension demonstration -/

theorem sm3_hash_abc :
    SM3.sm3_hash abc = "66c7f0f462eeedd9d1f2d46bdc10e4e24167c4875cf2f7a2297da02b8f4ba8e0" := by
  decide!

theorem sm3_hash_secret_message :
    SM3.sm3_hash secret_message =
      "27edf29b4b002acb13248f553f2dbbaa602a0cf94aba90c820682b359171e744" := by
  decide!

/-- Claim C21. The known answer of the correctness test: `sm3_hash("abc")` of
`project4-b.cpp` is the 64-character lower-case hexadecimal string
`66c7f0f462eeedd9d1f2d46bdc10e4e24167c4875cf2f7a2297da02b8f4ba8e0`. -/
theorem c21_sm3_abc :
    SM3.sm3_hash abc = "66c7f0f462eeedd9d1f2d46bdc10e4e24167c4875cf2f7a2297da02b8f4ba8e0" ∧
      (SM3.sm3_hash abc).length = 64 := by
  refine ⟨sm3_hash_abc, ?_⟩
  rw [sm3_hash_abc]
  decide

/-- Claim C22, evaluated at the failing input. The 28-byte string hashed in `main` has the
digest `0a5a2faf…`, not the standard value `debe9ff9…` printed next to it; that value is the
digest of the 64-byte string made of 16 copies of `"abcd"`. -/
theorem c22_sm3_abcd28_is_not_the_stated_value :
    SM3.sm3_hash abcd28 = "0a5a2fafba54c2a6593b18c5877c50c26bee5369bc7f07b0c66a641e49295419" ∧
      SM3.sm3_hash abcd64 =
        "debe9ff92275b8a138604889c18e5a4d6fdb70e5387e5765293dcba39c0c5732" ∧
      abcd28.length = 28 ∧ abcd64.length = 64 := by
  refine ⟨?_, ?_, ?_, ?_⟩ <;> decide!

/-- Claim C23, evaluated at the failing input. For the secret `"This is a secret message"`
and the suffix `"&admin=true"` of the program, the forged hash is the hash of the secret,
`27edf29b…`, and the hash of `full_message` read with `digest_without_finalize` is
`eae2dad5…`: the two differ.  `full_message` has 76 bytes, 32 of them zero padding, one more
than `finalize` appends for a 24-byte message, so its first block ends in `00` and not in the
last length byte `c0`. -/
theorem c23_length_extension_demo_fails :
    SM3.forged_hash secret_message admin_suffix =
        "27edf29b4b002acb13248f553f2dbbaa602a0cf94aba90c820682b359171e744" ∧
      SM3.real_hash secret_message admin_suffix =
        "eae2dad5c83f306657c714e268767e9726ec4cb92f763ae7ba657d30aed71967" ∧
      SM3.forged_hash secret_message admin_suffix ≠ SM3.real_hash secret_message admin_suffix ∧
      SM3.sm3_hash secret_message =
        "27edf29b4b002acb13248f553f2dbbaa602a0cf94aba90c820682b359171e744" ∧
      (SM3.full_message secret_message admin_suffix).length = 76 ∧
      (SM3.full_message secret_message admin_suffix).take 64 =
        secret_message ++ [0x80] ++ List.replicate 39 0 := by
  have hf : SM3.forged_hash secret_message admin_suffix =
      "27edf29b4b002acb13248f553f2dbbaa602a0cf94aba90c820682b359171e744" := by
    unfold SM3.forged_hash
    rw [sm3_hash_secret_message]
    decide!
  have hr : SM3.real_hash secret_message admin_suffix =
      "eae2dad5c83f306657c714e268767e9726ec4cb92f763ae7ba657d30aed71967" := by
    decide!
  refine ⟨hf, hr, ?_, sm3_hash_secret_message, ?_, ?_⟩
  · rw [hf, hr]
    decide
  · decide
  · decide

/-! ## The basic and the optimized SM3 -/

theorem sm3_ROL_eq (x n : Nat) : SM3Basic.ROL x n = SM3.ROL x n := by
  have e : ∀ m : Nat, m &&& 0x1F = m % 32 := fun m => Nat.and_pow_two_sub_one_eq_mod m 5
  simp only [SM3Basic.ROL, SM3Basic.shl32, SM3Basic.shr32, SM3.ROL, e]

theorem sm3_P0_eq (x : Nat) : SM3Basic.P0 x = SM3.P0 x := by
  simp only [SM3Basic.P0, SM3.P0, sm3_ROL_eq]

theorem sm3_P1_eq (x : Nat) : SM3Basic.P1 x = SM3.P1 x := by
  simp only [SM3Basic.P1, SM3.P1, sm3_ROL_eq]

theorem sm3_expand4_eq (W : List Nat) (q : Nat) :
    SM3.expand4 W (16 + 4 * q) =
      (List.range 4).foldl (fun K j => SM3Basic.expand1 K (16 + (4 * q + j))) W := by
  have r4 : List.range 4 = [0, 1, 2, 3] := rfl
  have e1 : 16 + (4 * q + 0) = 16 + 4 * q := rfl
  have e2 : 16 + (4 * q + 1) = 16 + 4 * q + 1 := by omega
  have e3 : 16 + (4 * q + 2) = 16 + 4 * q + 2 := by omega
  have e4 : 16 + (4 * q + 3) = 16 + 4 * q + 3 := by omega
  have a1 : 16 + 4 * q + 1 - 16 = 16 + 4 * q - 15 := by omega
  have a2 : 16 + 4 * q + 1 - 9 = 16 + 4 * q - 8 := by omega
  have a3 : 16 + 4 * q + 1 - 3 = 16 + 4 * q - 2 := by omega
  have a4 : 16 + 4 * q + 1 - 13 = 16 + 4 * q - 12 := by omega
  have a5 : 16 + 4 * q + 1 - 6 = 16 + 4 * q - 5 := by omega
  have b1 : 16 + 4 * q + 2 - 16 = 16 + 4 * q - 14 := by omega
  have b2 : 16 + 4 * q + 2 - 9 = 16 + 4 * q - 7 := by omega
  have b3 : 16 + 4 * q + 2 - 3 = 16 + 4 * q - 1 := by omega
  have b4 : 16 + 4 * q + 2 - 13 = 16 + 4 * q - 11 := by omega
  have b5 : 16 + 4 * q + 2 - 6 = 16 + 4 * q - 4 := by omega
  have c1 : 16 + 4 * q + 3 - 16 = 16 + 4 * q - 13 := by omega
  have c2 : 16 + 4 * q + 3 - 9 = 16 + 4 * q - 6 := by omega
  have c3 : 16 + 4 * q + 3 - 3 = 16 + 4 * q := by omega
  have c4 : 16 + 4 * q + 3 - 13 = 16 + 4 * q - 10 := by omega
  have c5 : 16 + 4 * q + 3 - 6 = 16 + 4 * q - 3 := by omega
  rw [r4]
  simp only [List.foldl_cons, List.foldl_nil, e1, e2, e3, e4, SM3Basic.expand1, a1, a2, a3, a4,
    a5, b1, b2, b3, b4, b5, c1, c2, c3, c4, c5, sm3_ROL_eq, sm3_P1_eq, SM3.expand4]

theorem sm3_expandW_eq (block : List Nat) :
    SM3Basic.expandW block = SM3.expandW block := by
  unfold SM3Basic.expandW SM3.expandW
  simp only [sm3_expand4_eq]
  rw [unrolled_fold_eq (fun W i => SM3Basic.expand1 W (16 + i)) 13]

theorem sm3_expandW1_eq (W : List Nat) : SM3Basic.expandW1 W = SM3.expandW1 W := by
  have r4 : List.range 4 = [0, 1, 2, 3] := rfl
  have h : ∀ (K : List Nat) (q : Nat),
      (((K.set (4 * q) (W.getD (4 * q) 0 ^^^ W.getD (4 * q + 4) 0)).set (4 * q + 1)
        (W.getD (4 * q + 1) 0 ^^^ W.getD (4 * q + 5) 0)).set (4 * q + 2)
        (W.getD (4 * q + 2) 0 ^^^ W.getD (4 * q + 6) 0)).set (4 * q + 3)
        (W.getD (4 * q + 3) 0 ^^^ W.getD (4 * q + 7) 0) =
      (List.range 4).foldl (fun K j => K.set (4 * q + j)
        (W.getD (4 * q + j) 0 ^^^ W.getD (4 * q + j + 4) 0)) K := by
    intro K q
    rw [r4]
    rfl
  unfold SM3Basic.expandW1 SM3.expandW1
  simp only [h]
  have u := @unrolled_fold_eq (List Nat)
    (fun W1 j => W1.set j (W.getD j 0 ^^^ W.getD (j + 4) 0)) 16 (List.replicate 64 0)
  rw [show 4 * 16 = 64 from rfl] at u
  exact u.symm

theorem sm3_round0_eq (W W1 r : List Nat) (j : Nat) (hj : j < 16) :
    SM3Basic.round W W1 r j = SM3.round0 W W1 r j := by
  have hT : SM3.T0.getD j 0 = 0x79CC4519 := by
    unfold SM3.T0
    rw [List.getD_eq_getElem _ _ (by simpa using hj), List.getElem_replicate]
  simp only [SM3Basic.round, SM3.round0, hj, if_true, sm3_ROL_eq, sm3_P0_eq, hT, SM3Basic.FF0,
    SM3.FF0, SM3Basic.GG0, SM3.GG0]

theorem sm3_round1_eq (W W1 r : List Nat) (q : Nat) (hq : q < 48) :
    SM3Basic.round W W1 r (16 + q) = SM3.round1 W W1 r (16 + q) := by
  have hT : SM3.T1.getD (16 + q - 16) 0 = 0x7A879D8A := by
    unfold SM3.T1
    rw [Nat.add_sub_cancel_left, List.getD_eq_getElem _ _ (by simpa using hq),
      List.getElem_replicate]
  have hj : ¬ (16 + q < 16) := by omega
  simp only [SM3Basic.round, SM3.round1, hj, if_false, sm3_ROL_eq, sm3_P0_eq, hT, SM3Basic.FF1,
    SM3.FF1, SM3Basic.GG1, SM3.GG1]

theorem sm3_rounds_eq (W W1 r : List Nat) :
    (List.range 64).foldl (SM3Basic.round W W1) r =
      (List.range 48).foldl (fun r q => SM3.round1 W W1 r (16 + q))
        ((List.range 16).foldl (SM3.round0 W W1) r) := by
  rw [show (64 : Nat) = 16 + 48 from rfl, List.range_add, List.foldl_append, List.foldl_map]
  have h0 : (List.range 16).foldl (SM3Basic.round W W1) r =
      (List.range 16).foldl (SM3.round0 W W1) r := by
    apply List.foldl_ext
    intro a i hi
    exact sm3_round0_eq W W1 a i (List.mem_range.mp hi)
  rw [h0]
  apply List.foldl_ext
  intro a q hq
  exact sm3_round1_eq W W1 a q (List.mem_range.mp hq)

/-- The basic `process_block` is the optimized one. -/
theorem sm3_process_block_eq (state block : List Nat) :
    SM3Basic.process_block state block = SM3.process_block state block := by
  unfold SM3Basic.process_block SM3.process_block
  simp only [sm3_expandW_eq, sm3_expandW1_eq, sm3_rounds_eq]

/-- The basic `sm3_hash` returns the digest of the optimized one for every byte string. -/
theorem sm3_hash_basic_eq (input : List Nat) :
    SM3Basic.sm3_hash input = SM3.sm3_hash input := by
  have h : SM3Basic.process_block = SM3.process_block := by
    funext state block
    exact sm3_process_block_eq state block
  unfold SM3Basic.sm3_hash SM3.sm3_hash SM3.digest SM3.finalize SM3.update SM3.reset
  rw [h]

/-- Claim C24. The optimized SM3 (masked `ROL`, expansion unrolled four times, rounds split
into 16 + 48 with the tables `T0`, `T1`) and the basic SM3 (unmasked `ROL` called with counts
`0..63`, one loop of 64 rounds) compute the same function: `sm3_hash` returns the same digest
for every byte string and `process_block` the same new state for every state and block.  The
unmasked rotation agrees with the masked one at every count, `ROL(0x7A879D8A, 33)` included,
and the basic `sm3_hash("abc")` is `66c7f0f4…`. -/
theorem c24_basic_sm3_eq_optimized :
    (∀ input : List Nat, SM3Basic.sm3_hash input = SM3.sm3_hash input) ∧
      (∀ state block : List Nat,
        SM3Basic.process_block state block = SM3.process_block state block) ∧
      (∀ x n : Nat, SM3Basic.ROL x n = SM3.ROL x n) ∧
      SM3Basic.sm3_hash abc =
        "66c7f0f462eeedd9d1f2d46bdc10e4e24167c4875cf2f7a2297da02b8f4ba8e0" ∧
      SM3Basic.ROL 0x7A879D8A 33 = 0xf50f3b14 :=
  ⟨sm3_hash_basic_eq, sm3_process_block_eq, sm3_ROL_eq,
    (sm3_hash_basic_eq abc).trans sm3_hash_abc, by decide⟩

/-! ## The two counter increments -/

theorem counter_split (counter : List Nat) (h : counter.length = 16) :
    counter = counter.take 12 ++
      [counter.getD 12 0, counter.getD 13 0, counter.getD 14 0, counter.getD 15 0] := by
  have hd : counter.drop 12 =
      [counter.getD 12 0, counter.getD 13 0, counter.getD 14 0, counter.getD 15 0] := by
    apply List.ext_getElem
    · simp [h]
    · intro i h1 h2
      simp only [List.length_cons, List.length_nil] at h2
      have hi : i = 0 ∨ i = 1 ∨ i = 2 ∨ i = 3 := by omega
      rcases hi with rfl | rfl | rfl | rfl <;>
        simp [List.getD_eq_getElem?_getD, List.getElem?_eq_getElem, h]
  rw [← hd, List.take_append_drop]

theorem le_bytes_eq_add (a b c d : Nat) (ha : a < 256) (hb : b < 256) (hc : c < 256) :
    a ||| (b <<< 8) ||| (c <<< 16) ||| (d <<< 24) = d * 16777216 + c * 65536 + b * 256 + a := by
  rw [← or_bytes_eq_add d c b a hc hb ha]
  apply Nat.eq_of_testBit_eq
  intro i
  simp only [Nat.testBit_or]
  cases Nat.testBit a i <;> cases Nat.testBit (b <<< 8) i <;> cases Nat.testBit (c <<< 16) i <;>
    cases Nat.testBit (d <<< 24) i <;> rfl

theorem byteswap_ulong_eq (w : Nat) :
    Opt.byteswap_ulong w =
      (w % 256) * 16777216 + (w / 2 ^ 8 % 256) * 65536 + (w / 2 ^ 16 % 256) * 256 +
        w / 2 ^ 24 % 256 := by
  have e : ∀ x : Nat, x &&& 0xFF = x % 256 := fun x => Nat.and_pow_two_sub_one_eq_mod x 8
  unfold Opt.byteswap_ulong
  simp only [e, Nat.shiftRight_eq_div_pow]
  exact or_bytes_eq_add _ _ _ _ (Nat.mod_lt _ (by decide)) (Nat.mod_lt _ (by decide))
    (Nat.mod_lt _ (by decide))

theorem byteswap_ulong_bytes (a b c d : Nat) (ha : a < 256) (hb : b < 256) (hc : c < 256)
    (hd : d < 256) :
    Opt.byteswap_ulong (d * 16777216 + c * 65536 + b * 256 + a) =
      a * 16777216 + b * 65536 + c * 256 + d := by
  rw [byteswap_ulong_eq]
  have e0 : (d * 16777216 + c * 65536 + b * 256 + a) % 256 = a := by omega
  have e1 : (d * 16777216 + c * 65536 + b * 256 + a) / 2 ^ 8 % 256 = b := by
    norm_num
    omega
  have e2 : (d * 16777216 + c * 65536 + b * 256 + a) / 2 ^ 16 % 256 = c := by
    norm_num
    omega
  have e3 : (d * 16777216 + c * 65536 + b * 256 + a) / 2 ^ 24 % 256 = d := by
    norm_num
    omega
  rw [e0, e1, e2, e3]

theorem byteswap_ulong_store (w : Nat) :
    [Opt.byteswap_ulong w &&& 0xFF, (Opt.byteswap_ulong w >>> 8) &&& 0xFF,
      (Opt.byteswap_ulong w >>> 16) &&& 0xFF, (Opt.byteswap_ulong w >>> 24) &&& 0xFF] =
      [w / 2 ^ 24 % 256, w / 2 ^ 16 % 256, w / 2 ^ 8 % 256, w % 256] := by
  have e : ∀ x : Nat, x &&& 0xFF = x % 256 := fun x => Nat.and_pow_two_sub_one_eq_mod x 8
  rw [byteswap_ulong_eq]
  simp only [e, Nat.shiftRight_eq_div_pow]
  have ha : w % 256 < 256 := Nat.mod_lt _ (by decide)
  have hb : w / 2 ^ 8 % 256 < 256 := Nat.mod_lt _ (by decide)
  have hc : w / 2 ^ 16 % 256 < 256 := Nat.mod_lt _ (by decide)
  have hd : w / 2 ^ 24 % 256 < 256 := Nat.mod_lt _ (by decide)
  generalize w % 256 = a at ha
  generalize w / 2 ^ 8 % 256 = b at hb
  generalize w / 2 ^ 16 % 256 = c at hc
  generalize w / 2 ^ 24 % 256 = d at hd
  norm_num
  refine ⟨?_, ?_, ?_, ?_⟩ <;> omega

theorem opt_count32_eq (counter : List Nat) (h : counter.length = 16)
    (hb : ∀ j, 12 ≤ j → counter.getD j 0 < 256) :
    Opt.count32 counter =
      counter.take 12 ++ storeWord ((loadWord counter 3 + 1) % 2 ^ 32) := by
  have h12 := hb 12 (by decide)
  have h13 := hb 13 (by decide)
  have h14 := hb 14 (by decide)
  have h15 := hb 15 (by decide)
  have hp : Opt.byteswap_ulong (counter.getD 12 0 ||| (counter.getD 13 0 <<< 8) |||
      (counter.getD 14 0 <<< 16) ||| (counter.getD 15 0 <<< 24)) = loadWord counter 3 := by
    rw [le_bytes_eq_add _ _ _ _ h12 h13 h14, byteswap_ulong_bytes _ _ _ _ h12 h13 h14 h15]
    unfold loadWord
    rw [show 4 * 3 = 12 from rfl, or_bytes_eq_add _ _ _ _ h13 h14 h15]
  have hlen : (counter.take 12).length = 12 := by rw [List.length_take]; omega
  have hset : ∀ x y z w : Nat,
      (((counter.set 12 x).set 13 y).set 14 z).set 15 w = counter.take 12 ++ [x, y, z, w] := by
    intro x y z w
    conv_lhs => rw [counter_split counter h]
    rw [List.set_append_right _ _ (by omega), hlen]
    rw [List.set_append_right _ _ (by omega), hlen]
    rw [List.set_append_right _ _ (by omega), hlen]
    rw [List.set_append_right _ _ (by omega), hlen]
    rfl
  unfold Opt.count32
  simp only [hp, hset, storeWord_eq]
  rw [byteswap_ulong_store]

/-- Claim C25. For every 16-byte counter block the optimized `count32` (byte swap, increment
modulo `2^32`, byte swap back on a little-endian host) returns the block the basic `count32`
returns, also when bytes 12..15 are `FF FF FF FF` and wrap to zero. -/
theorem c25_count32_variants_agree (counter : List Nat) (h : counter.length = 16)
    (hb : ∀ j, 12 ≤ j → counter.getD j 0 < 256) :
    Opt.count32 counter = Basic.count32 counter := by
  have hlen : (counter.take 12).length = 12 := by rw [List.length_take]; omega
  have hc := Basic.count32_append (counter.take 12) hlen (loadWord counter 3)
    (loadWord_lt counter hb)
  rw [← storeWord_loadWord counter h hb] at hc
  rw [hc, opt_count32_eq counter h hb]

/-- Witness for claim C25: the block ending in `FF FF FF FF`, where both increments wrap to
`00 00 00 00`, and a block with a carry out of the last byte. -/
theorem c25_count32_variants_agree_witness :
    Opt.count32 (List.replicate 12 7 ++ [0xFF, 0xFF, 0xFF, 0xFF]) =
        Basic.count32 (List.replicate 12 7 ++ [0xFF, 0xFF, 0xFF, 0xFF]) ∧
      Opt.count32 (List.replicate 12 7 ++ [0xFF, 0xFF, 0xFF, 0xFF]) =
        List.replicate 12 7 ++ [0, 0, 0, 0] ∧
      Opt.count32 (List.replicate 12 7 ++ [0, 0, 0, 0xFF]) =
        List.replicate 12 7 ++ [0, 0, 1, 0] :=
  ⟨c25_count32_variants_agree (List.replicate 12 7 ++ [0xFF, 0xFF, 0xFF, 0xFF]) (by decide)
    (by
      intro j _
      exact getD_lt_of_forall _ (by decide) j), by decide, by decide⟩

/-! ## The plaintext preparation of the CBC program -/

/-- Claim C27. Conformance to the SM4 standard example: with the master key `MK` the basic
`expand` gives `rk[0] = 0xf12186f9`, and the basic `encrypt` of the block equal to `MK` under
these round keys is `68 1e df 34 d2 06 96 5e 86 b3 e9 4f 53 6e 42 46`. -/
theorem c27_sm4_standard_example :
    (Basic.expand MK).getD 0 0 = 0xf12186f9 ∧
      Basic.encrypt MK (Basic.expand MK) =
        [0x68, 0x1e, 0xdf, 0x34, 0xd2, 0x06, 0x96, 0x5e, 0x86, 0xb3, 0xe9, 0x4f, 0x53, 0x6e,
          0x42, 0x46] := by
  rw [Basic_expand_MK]
  constructor <;> decide!

/-! ## The block cipher is a permutation -/

theorem four_bytes_lt (a b c d : Nat) (ha : a < 256) (hb : b < 256) (hc : c < 256)
    (hd : d < 256) : (a <<< 24) ||| (b <<< 16) ||| (c <<< 8) ||| d < 2 ^ 32 := by
  rw [or_bytes_eq_add _ _ _ _ hb hc hd]
  norm_num
  omega

theorem noliner_lt (a : Nat) : Basic.noliner a < 2 ^ 32 :=
  four_bytes_lt _ _ _ _ (Sbox_lt _) (Sbox_lt _) (Sbox_lt _) (Sbox_lt _)

theorem basic_map_lt (x : Nat) (hx : x < 2 ^ 32) : Basic.map x < 2 ^ 32 :=
  P1A.linear_transform_lt x hx

theorem loadWord_lt_of_bytes (buf : List Nat) (h : ∀ j, buf.getD j 0 < 256) (i : Nat) :
    loadWord buf i < 2 ^ 32 :=
  four_bytes_lt _ _ _ _ (h _) (h _) (h _) (h _)

theorem encrypt_X_init (inp rk : List Nat) (j : Nat) (hj : j < 4) :
    (Basic.encrypt_X inp rk).getD j 0 = loadWord inp j := by
  have hstep : Basic.encrypt_round rk = fun X i => X.set (i + 4)
      (Basic.encrypt_word rk i (X.getD i 0) (X.getD (i + 1) 0) (X.getD (i + 2) 0)
        (X.getD (i + 3) 0)) := by
    funext X i
    simp only [Basic.encrypt_round, Basic.encrypt_word]
  unfold Basic.encrypt_X
  rw [hstep, window_fold_init (Basic.encrypt_word rk) _ 32 j hj,
    List.getD_append _ _ _ _ (by simpa using hj)]
  exact map_range_getD (loadWord inp) 4 j hj

theorem encrypt_X_recurrence (inp rk : List Nat) (i : Nat) (hi : i < 32) :
    (Basic.encrypt_X inp rk).getD (i + 4) 0 =
      (Basic.encrypt_X inp rk).getD i 0 ^^^
        Basic.map (Basic.noliner ((Basic.encrypt_X inp rk).getD (i + 1) 0 ^^^
          (Basic.encrypt_X inp rk).getD (i + 2) 0 ^^^ (Basic.encrypt_X inp rk).getD (i + 3) 0 ^^^
          rk.getD i 0)) := by
  have hstep : Basic.encrypt_round rk = fun X i => X.set (i + 4)
      (Basic.encrypt_word rk i (X.getD i 0) (X.getD (i + 1) 0) (X.getD (i + 2) 0)
        (X.getD (i + 3) 0)) := by
    funext X i
    simp only [Basic.encrypt_round, Basic.encrypt_word]
  unfold Basic.encrypt_X
  rw [hstep, window_fold_recurrence (Basic.encrypt_word rk) _ 32 i hi (by simp)]
  rfl

theorem encrypt_X_lt (inp rk : List Nat) (h : ∀ j, inp.getD j 0 < 256) :
    ∀ j, j < 36 → (Basic.encrypt_X inp rk).getD j 0 < 2 ^ 32 := by
  intro j
  induction j using Nat.strong_induction_on with
  | _ j ih =>
    intro hj
    by_cases h4 : j < 4
    · rw [encrypt_X_init inp rk j h4]
      exact loadWord_lt_of_bytes inp h j
    · obtain ⟨i, rfl⟩ : ∃ i, j = i + 4 := ⟨j - 4, by omega⟩
      rw [encrypt_X_recurrence inp rk i (by omega)]
      exact Nat.xor_lt_two_pow (ih i (by omega) (by omega)) (basic_map_lt _ (noliner_lt _))

theorem basic_encrypt_eq (inp rk : List Nat) :
    Basic.encrypt inp rk =
      storeWord ((Basic.encrypt_X inp rk).getD 35 0) ++
        storeWord ((Basic.encrypt_X inp rk).getD 34 0) ++
        storeWord ((Basic.encrypt_X inp rk).getD 33 0) ++
        storeWord ((Basic.encrypt_X inp rk).getD 32 0) := rfl

theorem loadWord_storeWords (a b c d : Nat) (ha : a < 2 ^ 32) (hb : b < 2 ^ 32)
    (hc : c < 2 ^ 32) (hd : d < 2 ^ 32) :
    loadWord (storeWord a ++ storeWord b ++ storeWord c ++ storeWord d) 0 = a ∧
      loadWord (storeWord a ++ storeWord b ++ storeWord c ++ storeWord d) 1 = b ∧
      loadWord (storeWord a ++ storeWord b ++ storeWord c ++ storeWord d) 2 = c ∧
      loadWord (storeWord a ++ storeWord b ++ storeWord c ++ storeWord d) 3 = d := by
  have ha' : a < 4294967296 := ha
  have hb' : b < 4294967296 := hb
  have hc' : c < 4294967296 := hc
  have hd' : d < 4294967296 := hd
  have key : ∀ v : Nat, v < 4294967296 →
      ((v / 2 ^ 24 % 256) <<< 24) ||| ((v / 2 ^ 16 % 256) <<< 16) |||
        ((v / 2 ^ 8 % 256) <<< 8) ||| (v % 256) = v := by
    intro v hv
    rw [or_bytes_eq_add _ _ _ _ (Nat.mod_lt _ (by decide)) (Nat.mod_lt _ (by decide))
      (Nat.mod_lt _ (by decide))]
    norm_num
    omega
  simp only [storeWord_eq, loadWord, List.cons_append, List.nil_append, List.getD_cons_zero,
    List.getD_cons_succ, Nat.mul_zero, Nat.mul_one, Nat.zero_add]
  exact ⟨key a ha', key b hb', key c hc', key d hd'⟩

theorem storeWords_loadWord (x : List Nat) (hx : x.length = 16) (hb : ∀ b ∈ x, b < 256) :
    storeWord (loadWord x 0) ++ storeWord (loadWord x 1) ++ storeWord (loadWord x 2) ++
      storeWord (loadWord x 3) = x := by
  have h := getD_lt_of_forall x hb
  unfold loadWord
  rw [storeWord_or_bytes _ _ _ _ (h _) (h _) (h _) (h _),
    storeWord_or_bytes _ _ _ _ (h _) (h _) (h _) (h _),
    storeWord_or_bytes _ _ _ _ (h _) (h _) (h _) (h _),
    storeWord_or_bytes _ _ _ _ (h _) (h _) (h _) (h _)]
  conv_rhs => rw [← list16_eq_map x hx]
  rfl

/-- A generalized Feistel sequence run with the round keys in reverse order walks the
original sequence backwards. -/
theorem feistel_reverse (T : Nat → Nat) (x y k : Nat → Nat)
    (hx : ∀ i, i < 32 →
      x (i + 4) = x i ^^^ T (x (i + 1) ^^^ x (i + 2) ^^^ x (i + 3) ^^^ k i))
    (hy0 : ∀ j, j < 4 → y j = x (35 - j))
    (hy : ∀ i, i < 32 →
      y (i + 4) = y i ^^^ T (y (i + 1) ^^^ y (i + 2) ^^^ y (i + 3) ^^^ k (31 - i))) :
    ∀ j, j < 36 → y j = x (35 - j) := by
  intro j
  induction j using Nat.strong_induction_on with
  | _ j ih =>
    intro hj
    by_cases h4 : j < 4
    · exact hy0 j h4
    · obtain ⟨i, rfl⟩ : ∃ i, j = i + 4 := ⟨j - 4, by omega⟩
      have hi : i < 32 := by omega
      rw [hy i hi, ih i (by omega) (by omega), ih (i + 1) (by omega) (by omega),
        ih (i + 2) (by omega) (by omega), ih (i + 3) (by omega) (by omega)]
      have e0 : 35 - i = (31 - i) + 4 := by omega
      have e1 : 35 - (i + 1) = (31 - i) + 3 := by omega
      have e2 : 35 - (i + 2) = (31 - i) + 2 := by omega
      have e3 : 35 - (i + 3) = (31 - i) + 1 := by omega
      have e4 : 35 - (i + 4) = 31 - i := by omega
      rw [e0, e1, e2, e3, e4, hx (31 - i) (by omega)]
      have ec : x (31 - i + 3) ^^^ x (31 - i + 2) ^^^ x (31 - i + 1) ^^^ k (31 - i) =
          x (31 - i + 1) ^^^ x (31 - i + 2) ^^^ x (31 - i + 3) ^^^ k (31 - i) := by
        ac_rfl
      rw [ec, Nat.xor_assoc, Nat.xor_self, Nat.xor_zero]

theorem getD_reverse_32 (rk : List Nat) (h : rk.length = 32) (i : Nat) (hi : i < 32) :
    rk.reverse.getD i 0 = rk.getD (31 - i) 0 := by
  rw [List.getD_eq_getElem _ _ (by simpa [h] using hi),
    List.getD_eq_getElem _ _ (by omega : 31 - i < rk.length), List.getElem_reverse]
  congr 1
  omega

/-- Decryption as encryption under the reversed round keys. -/
theorem basic_encrypt_reverse (x rk : List Nat) (hx : x.length = 16)
    (hb : ∀ b ∈ x, b < 256) (hrk : rk.length = 32) :
    Basic.encrypt (Basic.encrypt x rk) rk.reverse = x := by
  have hX := encrypt_X_lt x rk (getD_lt_of_forall x hb)
  obtain ⟨l0, l1, l2, l3⟩ := loadWord_storeWords _ _ _ _ (hX 35 (by decide)) (hX 34 (by decide))
    (hX 33 (by decide)) (hX 32 (by decide))
  rw [← basic_encrypt_eq] at l0 l1 l2 l3
  have hy0 : ∀ j, j < 4 → (Basic.encrypt_X (Basic.encrypt x rk) rk.reverse).getD j 0 =
      (Basic.encrypt_X x rk).getD (35 - j) 0 := by
    intro j hj
    rw [encrypt_X_init _ _ j hj]
    have hj' : j = 0 ∨ j = 1 ∨ j = 2 ∨ j = 3 := by omega
    rcases hj' with rfl | rfl | rfl | rfl
    · exact l0
    · exact l1
    · exact l2
    · exact l3
  have hrev := feistel_reverse (fun t => Basic.map (Basic.noliner t))
    (fun j => (Basic.encrypt_X x rk).getD j 0)
    (fun j => (Basic.encrypt_X (Basic.encrypt x rk) rk.reverse).getD j 0)
    (fun i => rk.getD i 0)
    (fun i hi => encrypt_X_recurrence x rk i hi) hy0
    (fun i hi => by
      have h := encrypt_X_recurrence (Basic.encrypt x rk) rk.reverse i hi
      rw [getD_reverse_32 rk hrk i hi] at h
      exact h)
  have h35 := hrev 35 (by decide)
  have h34 := hrev 34 (by decide)
  have h33 := hrev 33 (by decide)
  have h32 := hrev 32 (by decide)
  simp only [] at h35 h34 h33 h32
  rw [basic_encrypt_eq (Basic.encrypt x rk), h35, h34, h33, h32,
    encrypt_X_init x rk 0 (by decide), encrypt_X_init x rk 1 (by decide),
    encrypt_X_init x rk 2 (by decide), encrypt_X_init x rk 3 (by decide)]
  exact storeWords_loadWord x hx hb

/-- Claim C28. For every 32-word round-key array the basic `encrypt` is a permutation of
the 16-byte blocks: encrypting the ciphertext again under the round keys in reverse order
returns the block, two blocks with the same ciphertext are equal, and every block is the
ciphertext of a block. -/
theorem c28_encrypt_is_a_permutation (rk x : List Nat) (hrk : rk.length = 32)
    (hx : x.length = 16) (hb : ∀ b ∈ x, b < 256) :
    Basic.encrypt (Basic.encrypt x rk) rk.reverse = x ∧
      (∀ x2 : List Nat, x2.length = 16 → (∀ b ∈ x2, b < 256) →
        Basic.encrypt x rk = Basic.encrypt x2 rk → x = x2) ∧
      (∃ y : List Nat, y.length = 16 ∧ (∀ b ∈ y, b < 256) ∧ Basic.encrypt y rk = x) := by
  refine ⟨basic_encrypt_reverse x rk hx hb hrk, ?_, ?_⟩
  · intro x2 hx2 hb2 he
    rw [← basic_encrypt_reverse x rk hx hb hrk, he, basic_encrypt_reverse x2 rk hx2 hb2 hrk]
  · refine ⟨Basic.encrypt x rk.reverse, basic_encrypt_length _ _, basic_encrypt_lt _ _, ?_⟩
    have h := basic_encrypt_reverse x rk.reverse hx hb (by rw [List.length_reverse]; exact hrk)
    rw [List.reverse_reverse] at h
    exact h

/-- Witness for claim C28: the block `MK` under the round keys of `MK`. -/
theorem c28_encrypt_is_a_permutation_witness :
    Basic.encrypt (Basic.encrypt MK (Basic.expand MK)) (Basic.expand MK).reverse = MK ∧
      (∀ x2 : List Nat, x2.length = 16 → (∀ b ∈ x2, b < 256) →
        Basic.encrypt MK (Basic.expand MK) = Basic.encrypt x2 (Basic.expand MK) → MK = x2) ∧
      (∃ y : List Nat, y.length = 16 ∧ (∀ b ∈ y, b < 256) ∧
        Basic.encrypt y (Basic.expand MK) = MK) :=
  c28_encrypt_is_a_permutation (Basic.expand MK) MK (Basic_expand_length MK) (by decide)
    (by decide)

/-! ## Commutativity and the identity of the field multiplication -/

/-- Claim C29. The basic `GF128_mul` is commutative: `GF128_mul(X, Y) = GF128_mul(Y, X)`
for all `X`, `Y` with 64-bit halves. -/
theorem c29_gf128_mul_commutative (X Y : u128) (hX : X.wf) (hY : Y.wf) :
    Basic.GF128_mul X Y = Basic.GF128_mul Y X :=
  GF128_mul_comm X Y hX hY

/-- Witness for claim C29: the elements `{0xE100000000000000, 1}` and
`{0x0123456789abcdef, 0xfedcba9876543210}`. -/
theorem c29_gf128_mul_commutative_witness :
    Basic.GF128_mul ⟨0xE100000000000000, 1⟩ ⟨0x0123456789abcdef, 0xfedcba9876543210⟩ =
      Basic.GF128_mul ⟨0x0123456789abcdef, 0xfedcba9876543210⟩ ⟨0xE100000000000000, 1⟩ :=
  c29_gf128_mul_commutative _ _ ⟨by decide, by decide⟩ ⟨by decide, by decide⟩

/-- Claim C30. The element `E = {high = 0x8000000000000000, low = 0}` is a two-sided
identity of the basic `GF128_mul`: `GF128_mul(X, E) = X` and `GF128_mul(E, X) = X` for every
`X` with 64-bit halves. -/
theorem c30_gf128_mul_identity (X : u128) (hX : X.wf) :
    Basic.GF128_mul X Basic.GF128_E = X ∧ Basic.GF128_mul Basic.GF128_E X = X := by
  have h : Basic.GF128_mul X Basic.GF128_E = X := GF128_mul_unitBit X 0 (by decide)
  exact ⟨h, by rw [GF128_mul_comm _ _ ⟨by decide, by decide⟩ hX, h]⟩

/-- Witness for claim C30: the element `{0x0123456789abcdef, 0xfedcba9876543210}`. -/
theorem c30_gf128_mul_identity_witness :
    Basic.GF128_mul ⟨0x0123456789abcdef, 0xfedcba9876543210⟩ Basic.GF128_E =
        ⟨0x0123456789abcdef, 0xfedcba9876543210⟩ ∧
      Basic.GF128_mul Basic.GF128_E ⟨0x0123456789abcdef, 0xfedcba9876543210⟩ =
        ⟨0x0123456789abcdef, 0xfedcba9876543210⟩ :=
  c30_gf128_mul_identity ⟨0x0123456789abcdef, 0xfedcba9876543210⟩ ⟨by decide, by decide⟩

/-! ## Distributivity of the field multiplication -/

/-- Claim C31. The basic `GF128_mul` distributes over XOR in its first argument: for all
`X1`, `X2` with 64-bit halves and every `Y`,
`GF128_mul(X1 ^ X2, Y) = GF128_mul(X1, Y) ^ GF128_mul(X2, Y)` with XOR taken on both halves,
and `GF128_mul(0, Y) = 0`. -/
theorem c31_gf128_mul_distributes_over_xor (X1 X2 Y : u128) (h1 : X1.wf) (h2 : X2.wf) :
    Basic.GF128_mul ⟨X1.high ^^^ X2.high, X1.low ^^^ X2.low⟩ Y =
        ⟨(Basic.GF128_mul X1 Y).high ^^^ (Basic.GF128_mul X2 Y).high,
          (Basic.GF128_mul X1 Y).low ^^^ (Basic.GF128_mul X2 Y).low⟩ ∧
      Basic.GF128_mul ⟨0, 0⟩ Y = ⟨0, 0⟩ := by
  have h := Basic.GF128_mul_xor X1 X2 Y h1 h2
  simp only [u128.xor] at h
  exact ⟨h, Basic.GF128_mul_zero Y⟩

/-- Witness for claim C31: `X1 = {0x0123456789abcdef, 0xfedcba9876543210}`,
`X2 = {0xE100000000000000, 1}` and `Y = {0x8000000000000000, 0x42}`. -/
theorem c31_gf128_mul_distributes_over_xor_witness :
    Basic.GF128_mul
        ⟨(⟨0x0123456789abcdef, 0xfedcba9876543210⟩ : u128).high ^^^
            (⟨0xE100000000000000, 1⟩ : u128).high,
          (⟨0x0123456789abcdef, 0xfedcba9876543210⟩ : u128).low ^^^
            (⟨0xE100000000000000, 1⟩ : u128).low⟩
        ⟨0x8000000000000000, 0x42⟩ =
        ⟨(Basic.GF128_mul ⟨0x0123456789abcdef, 0xfedcba9876543210⟩
              ⟨0x8000000000000000, 0x42⟩).high ^^^
            (Basic.GF128_mul ⟨0xE100000000000000, 1⟩ ⟨0x8000000000000000, 0x42⟩).high,
          (Basic.GF128_mul ⟨0x0123456789abcdef, 0xfedcba9876543210⟩
              ⟨0x8000000000000000, 0x42⟩).low ^^^
            (Basic.GF128_mul ⟨0xE100000000000000, 1⟩ ⟨0x8000000000000000, 0x42⟩).low⟩ ∧
      Basic.GF128_mul ⟨0, 0⟩ ⟨0x8000000000000000, 0x42⟩ = ⟨0, 0⟩ :=
  c31_gf128_mul_distributes_over_xor ⟨0x0123456789abcdef, 0xfedcba9876543210⟩
    ⟨0xE100000000000000, 1⟩ ⟨0x8000000000000000, 0x42⟩ ⟨by decide, by decide⟩
    ⟨by decide, by decide⟩
